import Mathlib

/-! BSON documents (`db/jsobj.h`): builder, element view, iterator, lookup.

A shallow embedding of the BSON core of `db/jsobj.h`.

Conventions of the embedding (x86, as the source assumes with its pointer casts):
* a byte is a `Fin 256`; `int` is 32 bits, two's complement, little-endian; `char` is signed;
* a pointer is modelled by the memory readable from it onwards (`Mem`), a pointer into a
  buffer by the buffer and an offset; a read outside the modelled memory is undefined
  behaviour in C and is the fault `outOfBounds` here;
* a `const char *` string argument is modelled by the characters of the string, i.e. the
  bytes before its terminating NUL (so such an argument is NUL-free);
* a `double` is modelled by its 64-bit IEEE-754 bit pattern;
* `massert`, `uassert` and `assert` failures are `Except` errors;
* loops run on fuel; the entry points supply fuel that is enough whenever every step of the
  loop advances the cursor, and report `diverged` otherwise.
-/

namespace mongo

/-- One byte of memory. -/
abbrev Byte := Fin 256

/-- The memory readable from a pointer onwards. -/
abbrev Mem := List Byte

/-- The ways an operation can fail to return. -/
inductive Fault where
  /-- A failed `massert`: an exception carrying `msg`. -/
  | massert (msg : String)
  /-- A failed `uassert`: a user exception carrying `msg`. -/
  | uassert (msg : String)
  /-- A failed `assert`. -/
  | assertion
  /-- A read or copy outside the modelled memory (undefined behaviour in C). -/
  | outOfBounds
  /-- A loop that did not finish within its fuel. -/
  | diverged
  deriving DecidableEq, Repr

/-- Equality of results is decidable. -/
instance instDecidableEqExcept {ε α : Type} [DecidableEq ε] [DecidableEq α] :
    DecidableEq (Except ε α)
  | .ok a, .ok b =>
    if h : a = b then isTrue (congrArg Except.ok h)
    else isFalse (fun h2 => h (Except.ok.inj h2))
  | .error a, .error b =>
    if h : a = b then isTrue (congrArg Except.error h)
    else isFalse (fun h2 => h (Except.error.inj h2))
  | .ok _, .error _ => isFalse (fun h => Except.noConfusion h)
  | .error _, .ok _ => isFalse (fun h => Except.noConfusion h)

/-! ## The complete list of BSON types (`enum BSONType`), as the `int` values of the enum -/

namespace BSONType
@[reducible, simp] def MinKey : Int := -1
@[reducible, simp] def EOO : Int := 0
@[reducible, simp] def NumberDouble : Int := 1
@[reducible, simp] def String : Int := 2
@[reducible, simp] def Object : Int := 3
@[reducible, simp] def Array : Int := 4
@[reducible, simp] def BinData : Int := 5
@[reducible, simp] def Undefined : Int := 6
@[reducible, simp] def jstOID : Int := 7
@[reducible, simp] def Bool : Int := 8
@[reducible, simp] def Date : Int := 9
@[reducible, simp] def jstNULL : Int := 10
@[reducible, simp] def RegEx : Int := 11
@[reducible, simp] def DBRef : Int := 12
@[reducible, simp] def Code : Int := 13
@[reducible, simp] def Symbol : Int := 14
@[reducible, simp] def CodeWScope : Int := 15
@[reducible, simp] def NumberInt : Int := 16
@[reducible, simp] def JSTypeMax : Int := 16
@[reducible, simp] def MaxKey : Int := 127
end BSONType

/-! ## Machine-level helpers -/

/-- The byte holding the low 8 bits of `n`. -/
def byteOf (n : Nat) : Byte := ⟨n % 256, Nat.mod_lt n (by decide)⟩

/-- The cast `(char) v` of an `int`: its low 8 bits. -/
def charOf (v : Int) : Byte := byteOf (v % 256).toNat

/-- The `int` value of a (signed) `char`. -/
def charToInt (b : Byte) : Int := if b.val < 128 then (b.val : Int) else (b.val : Int) - 256

/-- The value an `int` variable holds after an arithmetic operation whose exact result is `n`:
the low 32 bits of `n` in two's complement, so that `INT_MAX + 1` is `INT_MIN`. -/
def wrapInt (n : Int) : Int := (n + 2147483648) % 4294967296 - 2147483648

/-- The four bytes of a 32-bit `int`, little-endian, two's complement. -/
def le32 (n : Int) : Mem :=
  let u := (n % 4294967296).toNat
  [byteOf u, byteOf (u / 256), byteOf (u / 65536), byteOf (u / 16777216)]

/-- The eight bytes of a 64-bit quantity, little-endian. -/
def le64 (n : Nat) : Mem :=
  [byteOf n, byteOf (n / 2 ^ 8), byteOf (n / 2 ^ 16), byteOf (n / 2 ^ 24),
   byteOf (n / 2 ^ 32), byteOf (n / 2 ^ 40), byteOf (n / 2 ^ 48), byteOf (n / 2 ^ 56)]

/-- The read `*((int *) p)`: the first four bytes as a signed little-endian 32-bit `int`. -/
def readInt : Mem → Except Fault Int
  | b0 :: b1 :: b2 :: b3 :: _ =>
    let u : Nat := b0.val + 256 * b1.val + 65536 * b2.val + 16777216 * b3.val
    .ok (if u < 2147483648 then (u : Int) else (u : Int) - 4294967296)
  | _ => .error .outOfBounds

/-- The C library `strlen`: the number of bytes before the first NUL. -/
def strlen : Mem → Except Fault Nat
  | [] => .error .outOfBounds
  | b :: rest =>
    if b = 0 then .ok 0
    else match strlen rest with
      | .ok n => .ok (n + 1)
      | .error f => .error f

/-- The characters of the C string at a pointer: the bytes before the first NUL. -/
def cstr (m : Mem) : Mem := m.takeWhile (fun b => b ≠ 0)

/-- Modelled from the spec: the scan loop of the helper `strnlen` (declared outside
`jsobj.h`): `i` bytes scanned so far, `n` still allowed. -/
def strnlenAux : Mem → Nat → Nat → Except Fault Int
  | _, 0, _ => .ok (-1)
  | [], _ + 1, _ => .error .outOfBounds
  | b :: rest, n + 1, i => if b = 0 then .ok (i : Int) else strnlenAux rest n (i + 1)

/-- Modelled from the spec: the helper `strnlen(s, n)` used by `BSONElement` is declared
outside `jsobj.h`. The source tests its result against `-1` ("Invalid field name"), and the
spec says that with a maximum-scan bound "string-length discovery must not read past it;
exceeding it is a fatal decode error": the length of the string if its NUL is among the first
`n` bytes, `-1` otherwise. -/
def strnlen (s : Mem) (n : Int) : Except Fault Int := strnlenAux s n.toNat 0

/-! ## `class OID` -/

/-- An object id: 12 bytes (`union { long long a; unsigned char data[8]; }; unsigned b;`
under `#pragma pack(1)`). -/
structure OID where
  /-- The 12 bytes of the id in memory order. -/
  data : Mem
  /-- An id is exactly 12 bytes long. -/
  h : data.length = 12
  deriving DecidableEq

/-- The id `memset` to zero. -/
def OID.zero : OID := ⟨List.replicate 12 0, by decide⟩

/-! ## `class BSONElement` -/

/-- A `BSONElement`: `data` is the memory from the element's first byte onwards. The cache
`totalSize` of the source is not modelled (it only memoises `size()`). -/
structure BSONElement where
  /-- Field `const char *data`. -/
  data : Mem
  /-- Field `int fieldNameSize`. -/
  fieldNameSize : Int
  deriving DecidableEq, Repr

namespace BSONElement

/-- Source `BSONElement::type`: `(BSONType) *data`. -/
def type (e : BSONElement) : Int := charToInt (e.data.headD 0)

/-- Source `BSONElement::eoo`. -/
def eoo (e : BSONElement) : Bool := e.type == BSONType.EOO

/-- Source `BSONElement::fieldName`, as the characters of the returned C string. -/
def fieldName (e : BSONElement) : Mem :=
  if e.eoo then [] else cstr (e.data.drop 1)

/-- Source `BSONElement::value`: `data + fieldNameSize + 1`. -/
def value (e : BSONElement) : Mem := e.data.drop (e.fieldNameSize + 1).toNat

/-- Source `BSONElement::isNumber`. -/
def isNumber (e : BSONElement) : Bool :=
  e.type == BSONType.NumberDouble || e.type == BSONType.NumberInt

/-- Source `BSONElement::valuestrsize`: `*((int *) value())`. -/
def valuestrsize (e : BSONElement) : Except Fault Int := readInt e.value

/-- Source `BSONElement::objsize`: `*((int *) value())`. -/
def objsize (e : BSONElement) : Except Fault Int := readInt e.value

/-- Source `BSONElement::valuestr`: `value() + 4`. -/
def valuestr (e : BSONElement) : Mem := e.value.drop 4

/-- Source `BSONElement::mayEncapsulate`. -/
def mayEncapsulate (e : BSONElement) : Bool :=
  e.type == BSONType.Object || e.type == BSONType.Array || e.type == BSONType.CodeWScope

/-- The protected constructor `BSONElement(const char *d, int maxLen = -1)`. -/
def ofData (d : Mem) (maxLen : Int := -1) : Except Fault BSONElement :=
  match d with
  | [] => .error .outOfBounds
  | t :: rest =>
    if charToInt t == BSONType.EOO then .ok ⟨d, 0⟩
    else if maxLen != -1 then
      match strnlen rest (maxLen - 1) with
      | .error f => .error f
      | .ok size =>
        if size != -1 then .ok ⟨d, size + 1⟩
        else .error (.massert "Invalid field name")
    else
      match strlen rest with
      | .error f => .error f
      | .ok n => .ok ⟨d, (n : Int) + 1⟩

/-- Modelled from the spec: the default constructor `BSONElement()` is only declared in
`jsobj.h` ("Constructs an empty element"); `findElement` documents that the element it returns
when nothing is found has `eoo()` true. It is an end marker on its own. -/
def empty : BSONElement := ⟨[0], 0⟩

/-- Modelled from the spec: the length of the regex value, two NUL-terminated strings
("variable for regex (two NUL-terminated strings)"); with a scan bound `remain` (when
`bounded`) "string-length discovery must not read past it; exceeding it is a fatal decode
error". -/
def regexSize (p : Mem) (bounded : Bool) (remain : Int) : Except Fault Int :=
  if bounded then
    match strnlen p remain with
    | .error f => .error f
    | .ok len1 =>
      if len1 == -1 then .error (.massert "Invalid regex string")
      else
        match strnlen (p.drop (len1 + 1).toNat) (remain - len1 - 1) with
        | .error f => .error f
        | .ok len2 =>
          if len2 == -1 then .error (.massert "Invalid regex options string")
          else .ok (len1 + 1 + len2 + 1)
  else
    match strlen p with
    | .error f => .error f
    | .ok len1 =>
      match strlen (p.drop (len1 + 1)) with
      | .error f => .error f
      | .ok len2 => .ok ((len1 : Int) + 1 + (len2 : Int) + 1)

/-- Modelled from the spec: the byte length of the value of an element, per kind. The body of
`BSONElement::size` is not in `jsobj.h`. Spec: "fixed-width for bool/int/float/date/OID,
4 + strlen + 1 for string/code/symbol, full sub-length for embedded document/array (leading
4-byte size of the nested buffer), len + 5 for binary, variable for regex (two NUL-terminated
strings), nested composite rule for code-with-scope"; null, undefined, minKey and maxKey have no
value bytes, a dbref is a string followed by a 12-byte OID, and a code-with-scope value starts
with its own total length. The length of a string is the one its length prefix records
(`valuestrsize()` is `strlen + 1`), so that the size is computed from the element's bytes
alone. A kind byte outside the enumeration is a decode error. -/
def valueLength (e : BSONElement) (maxLen : Int := -1) : Except Fault Int :=
  let t := e.type
  if t == BSONType.EOO || t == BSONType.Undefined || t == BSONType.jstNULL
      || t == BSONType.MaxKey || t == BSONType.MinKey then .ok 0
  else if t == BSONType.Bool then .ok 1
  else if t == BSONType.NumberInt then .ok 4
  else if t == BSONType.Date || t == BSONType.NumberDouble then .ok 8
  else if t == BSONType.jstOID then .ok 12
  else if t == BSONType.Symbol || t == BSONType.Code || t == BSONType.String then
    match e.valuestrsize with
    | .error f => .error f
    | .ok n => .ok (n + 4)
  else if t == BSONType.CodeWScope || t == BSONType.Object || t == BSONType.Array then
    e.objsize
  else if t == BSONType.DBRef then
    match e.valuestrsize with
    | .error f => .error f
    | .ok n => .ok (n + 4 + 12)
  else if t == BSONType.BinData then
    match e.valuestrsize with
    | .error f => .error f
    | .ok n => .ok (n + 4 + 1)
  else if t == BSONType.RegEx then
    regexSize e.value (maxLen != -1) (maxLen - e.fieldNameSize - 1)
  else .error (.massert "BSONElement: bad type")

/-- Modelled from the spec: `BSONElement::size(int maxLen = -1)`, whose body is not in
`jsobj.h`: the "total encoded byte length (kind + name + value)". The header fixes the layout
`<type><fieldName><value>` spanned by `size()` and defines
`valuesize() = size() - fieldNameSize - 1`; for the end marker (no name, no value) this is the
kind byte alone. -/
def size (e : BSONElement) (maxLen : Int := -1) : Except Fault Int :=
  match e.valueLength maxLen with
  | .error f => .error f
  | .ok x => .ok (x + e.fieldNameSize + 1)

/-- Source `BSONElement::valuesize`: `size() - fieldNameSize - 1`. -/
def valuesize (e : BSONElement) : Except Fault Int :=
  match e.size with
  | .error f => .error f
  | .ok s => .ok (s - e.fieldNameSize - 1)

/-- The bytes of the value: the `valuesize()` bytes at `value()`. -/
def valueBytes (e : BSONElement) : Except Fault Mem :=
  match e.valuesize with
  | .error f => .error f
  | .ok n =>
    if 0 ≤ n ∧ n ≤ (e.value.length : Int) then .ok (e.value.take n.toNat)
    else .error .outOfBounds

end BSONElement

/-! ## `class BSONObj` -/

/-- Source `BSONObj::Details`. -/
structure Details where
  /-- Field `const char *_objdata`. -/
  _objdata : Mem
  /-- Field `int _objsize`. -/
  _objsize : Int
  /-- Field `int refCount`; `-1` means the buffer is not owned. -/
  refCount : Int
  deriving DecidableEq, Repr

/-- A `BSONObj` handle: the pointer `details`, null for a default-constructed object. -/
structure BSONObj where
  /-- Field `Details *details`. -/
  details : Option Details
  deriving DecidableEq, Repr

namespace BSONObj

/-- Source `BSONObj::init`. -/
def init (data : Mem) (ifree : Bool) : Except Fault BSONObj :=
  match readInt data with
  | .error f => .error f
  | .ok sz =>
    if ¬ (sz > 0) then .error (.massert "BSONObj size spec too small")
    else if ¬ (sz ≤ 1024 * 1024 * 16) then .error (.massert "BSONObj size spec too large")
    else .ok ⟨some ⟨data, sz, if ifree then 1 else -1⟩⟩

/-- The constructor `BSONObj(const char *msgdata, bool ifree = false)`. -/
def ofData (msgdata : Mem) (ifree : Bool := false) : Except Fault BSONObj := init msgdata ifree

/-- The default constructor `BSONObj() : details(0)`. -/
def new : BSONObj := ⟨none⟩

/-- Source `BSONObj::objdata`: `details->_objdata` (a null `details` is dereferenced). -/
def objdata (o : BSONObj) : Except Fault Mem :=
  match o.details with
  | some d => .ok d._objdata
  | none => .error .outOfBounds

/-- Source `BSONObj::objsize`. -/
def objsize (o : BSONObj) : Int :=
  match o.details with
  | some d => d._objsize
  | none => 0

/-- Source `BSONObj::isEmpty`. -/
def isEmpty (o : BSONObj) : Bool := o.objsize ≤ 5

/-- The call `memcmp(p, q, n) == 0`. -/
def memEq (p q : Mem) (n : Int) : Except Fault Bool :=
  if 0 ≤ n ∧ n ≤ (p.length : Int) ∧ n ≤ (q.length : Int) then
    .ok (p.take n.toNat == q.take n.toNat)
  else .error .outOfBounds

/-- Source `BSONObj::woEqual`. -/
def woEqual (o r : BSONObj) : Except Fault Bool :=
  let os := o.objsize
  if os == r.objsize then
    if os == 0 then .ok true
    else
      match o.objdata, r.objdata with
      | .ok p, .ok q => memEq p q os
      | .error f, _ => .error f
      | _, .error f => .error f
  else .ok false

/-- Source `BSONObj::firstElement`. -/
def firstElement (o : BSONObj) : Except Fault BSONElement :=
  match o.objdata with
  | .error f => .error f
  | .ok p => BSONElement.ofData (p.drop 4)

end BSONObj

/-! ## `class BufBuilder` (`util/builder.h`) -/

/-- Modelled from the spec: `BufBuilder` lives in `util/builder.h`, which is not part of the
sources at hand. Spec: the builder is "a mutable, append-only staging buffer plus a reserved
4-byte size slot"; each append "writes (kind byte, NUL-terminated name, encoded value) ... in
the exact binary layout defined by the Value Kind". `data` holds the `len()` bytes written so
far. -/
structure BufBuilder where
  /-- The bytes written so far, `buf()[0 .. len())`. -/
  data : Mem
  deriving DecidableEq, Repr

namespace BufBuilder

/-- Modelled from the spec: `BufBuilder::skip(n)`, "leave room for size field": `n` bytes
whose content is not yet meaningful (zero here). -/
def skip (b : BufBuilder) (n : Nat) : BufBuilder := ⟨b.data ++ List.replicate n 0⟩

/-- Modelled from the spec: `BufBuilder::append(char)`, one byte. -/
def appendChar (b : BufBuilder) (c : Byte) : BufBuilder := ⟨b.data ++ [c]⟩

/-- Modelled from the spec: `BufBuilder::append(int)`, "4-byte signed". -/
def appendInt (b : BufBuilder) (n : Int) : BufBuilder := ⟨b.data ++ le32 n⟩

/-- Modelled from the spec: `BufBuilder::append(double)`, "8-byte IEEE-754", and
`BufBuilder::append(unsigned long long)`, "8-byte unsigned". -/
def appendLong (b : BufBuilder) (n : Nat) : BufBuilder := ⟨b.data ++ le64 n⟩

/-- Modelled from the spec: `BufBuilder::append(const char *)`, the string with its
terminating NUL ("NUL-terminated name"). -/
def appendStr (b : BufBuilder) (str : Mem) : BufBuilder := ⟨b.data ++ str ++ [0]⟩

/-- Modelled from the spec: `BufBuilder::append(void *src, int len)`, `len` bytes copied from
`src` ("verbatim nested bytes"). -/
def appendBuf (b : BufBuilder) (src : Mem) (len : Int) : Except Fault BufBuilder :=
  if 0 ≤ len ∧ len ≤ (src.length : Int) then .ok ⟨b.data ++ src.take len.toNat⟩
  else .error .outOfBounds

/-- Modelled from the spec: `BufBuilder::len()`, the number of bytes written. -/
def len (b : BufBuilder) : Int := (b.data.length : Int)

end BufBuilder

/-! ## `class BSONObjBuilder` -/

/-- A `BSONObjBuilder`: its `BufBuilder b`. -/
structure BSONObjBuilder where
  /-- Field `BufBuilder b`. -/
  b : BufBuilder
  deriving DecidableEq, Repr

namespace BSONObjBuilder

/-- The constructor `BSONObjBuilder(int initsize = 512)`: `b.skip(4)`. -/
def new : BSONObjBuilder := ⟨(BufBuilder.mk []).skip 4⟩

/-- The start of every append: `b.append((char) type); b.append(fieldName);`. -/
def header (bb : BSONObjBuilder) (type : Int) (fieldName : Mem) : BufBuilder :=
  (bb.b.appendChar (charOf type)).appendStr fieldName

/-- Source `BSONObjBuilder::append(const char *fieldName, BSONObj subObj)`. -/
def appendObject (bb : BSONObjBuilder) (fieldName : Mem) (subObj : BSONObj) :
    Except Fault BSONObjBuilder :=
  match subObj.objdata with
  | .error f => .error f
  | .ok p =>
    match (bb.header BSONType.Object fieldName).appendBuf p subObj.objsize with
    | .error f => .error f
    | .ok b => .ok ⟨b⟩

/-- Source `BSONObjBuilder::appendArray`. -/
def appendArray (bb : BSONObjBuilder) (fieldName : Mem) (subObj : BSONObj) :
    Except Fault BSONObjBuilder :=
  match subObj.objdata with
  | .error f => .error f
  | .ok p =>
    match (bb.header BSONType.Array fieldName).appendBuf p subObj.objsize with
    | .error f => .error f
    | .ok b => .ok ⟨b⟩

/-- Source `BSONObjBuilder::appendBool`. -/
def appendBool (bb : BSONObjBuilder) (fieldName : Mem) (val : Int) : BSONObjBuilder :=
  ⟨(bb.header BSONType.Bool fieldName).appendChar (charOf (if val != 0 then 1 else 0))⟩

/-- Source `BSONObjBuilder::appendInt`. -/
def appendInt (bb : BSONObjBuilder) (fieldName : Mem) (n : Int) : BSONObjBuilder :=
  ⟨(bb.header BSONType.NumberInt fieldName).appendInt n⟩

/-- Source `BSONObjBuilder::append(const char *fieldName, double n)`; `n` is the bit pattern. -/
def appendDouble (bb : BSONObjBuilder) (fieldName : Mem) (n : Nat) : BSONObjBuilder :=
  ⟨(bb.header BSONType.NumberDouble fieldName).appendLong n⟩

/-- Source `BSONObjBuilder::appendOID`; `oid` is `none` for the null pointer default. -/
def appendOID (bb : BSONObjBuilder) (fieldName : Mem) (oid : Option OID := none) :
    Except Fault BSONObjBuilder :=
  let h := bb.header BSONType.jstOID fieldName
  match oid with
  | some o =>
    match h.appendBuf o.data 12 with
    | .error f => .error f
    | .ok b => .ok ⟨b⟩
  | none =>
    match h.appendBuf OID.zero.data 12 with
    | .error f => .error f
    | .ok b => .ok ⟨b⟩

/-- Source `BSONObjBuilder::appendDate`. -/
def appendDate (bb : BSONObjBuilder) (fieldName : Mem) (dt : Nat) : BSONObjBuilder :=
  ⟨(bb.header BSONType.Date fieldName).appendLong dt⟩

/-- Source `BSONObjBuilder::appendRegex`. -/
def appendRegex (bb : BSONObjBuilder) (fieldName : Mem) (regex : Mem) (options : Mem := []) :
    BSONObjBuilder :=
  ⟨((bb.header BSONType.RegEx fieldName).appendStr regex).appendStr options⟩

/-- Source `BSONObjBuilder::appendCode`. -/
def appendCode (bb : BSONObjBuilder) (fieldName : Mem) (code : Mem) : BSONObjBuilder :=
  ⟨((bb.header BSONType.Code fieldName).appendInt ((code.length : Int) + 1)).appendStr code⟩

/-- Source `BSONObjBuilder::append(const char *fieldName, const char *str)`. -/
def appendString (bb : BSONObjBuilder) (fieldName : Mem) (str : Mem) : BSONObjBuilder :=
  ⟨((bb.header BSONType.String fieldName).appendInt ((str.length : Int) + 1)).appendStr str⟩

/-- Source `BSONObjBuilder::appendSymbol`. -/
def appendSymbol (bb : BSONObjBuilder) (fieldName : Mem) (symbol : Mem) : BSONObjBuilder :=
  ⟨((bb.header BSONType.Symbol fieldName).appendInt ((symbol.length : Int) + 1)).appendStr
    symbol⟩

/-- Source `BSONObjBuilder::appendNull`. -/
def appendNull (bb : BSONObjBuilder) (fieldName : Mem) : BSONObjBuilder :=
  ⟨bb.header BSONType.jstNULL fieldName⟩

/-- Source `BSONObjBuilder::appendMinKey`. -/
def appendMinKey (bb : BSONObjBuilder) (fieldName : Mem) : BSONObjBuilder :=
  ⟨bb.header BSONType.MinKey fieldName⟩

/-- Source `BSONObjBuilder::appendMaxKey`. -/
def appendMaxKey (bb : BSONObjBuilder) (fieldName : Mem) : BSONObjBuilder :=
  ⟨bb.header BSONType.MaxKey fieldName⟩

/-- Source `BSONObjBuilder::appendDBRef`. -/
def appendDBRef (bb : BSONObjBuilder) (fieldName : Mem) (ns : Mem) (oid : OID) :
    Except Fault BSONObjBuilder :=
  match (((bb.header BSONType.DBRef fieldName).appendInt ((ns.length : Int) + 1)).appendStr
      ns).appendBuf oid.data 12 with
  | .error f => .error f
  | .ok b => .ok ⟨b⟩

/-- Source `BSONObjBuilder::appendBinData`; `type` is the `int` value of the `BinDataType`. -/
def appendBinData (bb : BSONObjBuilder) (fieldName : Mem) (len : Int) (type : Int)
    (data : Mem) : Except Fault BSONObjBuilder :=
  match (((bb.header BSONType.BinData fieldName).appendInt len).appendChar
      (charOf type)).appendBuf data len with
  | .error f => .error f
  | .ok b => .ok ⟨b⟩

/-- Source `BSONObjBuilder::appendBinDataArray`. -/
def appendBinDataArray (bb : BSONObjBuilder) (fieldName : Mem) (data : Mem) (len : Int) :
    Except Fault BSONObjBuilder :=
  match ((((bb.header BSONType.BinData fieldName).appendInt (len + 4)).appendChar
      (charOf 2)).appendInt len).appendBuf data len with
  | .error f => .error f
  | .ok b => .ok ⟨b⟩

/-- Source `BSONObjBuilder::appendCodeWScope`. -/
def appendCodeWScope (bb : BSONObjBuilder) (fieldName : Mem) (code : Mem) (scope : BSONObj) :
    Except Fault BSONObjBuilder :=
  let b1 := (((bb.header BSONType.CodeWScope fieldName).appendInt
      (4 + 4 + (code.length : Int) + 1 + scope.objsize)).appendInt
      ((code.length : Int) + 1)).appendStr code
  match scope.objdata with
  | .error f => .error f
  | .ok p =>
    match b1.appendBuf p scope.objsize with
    | .error f => .error f
    | .ok b => .ok ⟨b⟩

/-- Source `BSONObjBuilder::_done`: the end marker is appended and the size slot is patched with
`b.len()`; the result is the buffer `b.buf()`. -/
def _done (bb : BSONObjBuilder) : Mem :=
  let b := bb.b.appendChar (charOf BSONType.EOO)
  le32 b.len ++ b.data.drop 4

/-- Source `BSONObjBuilder::done`: `BSONObj(_done())`. -/
def done (bb : BSONObjBuilder) : Except Fault BSONObj := BSONObj.ofData bb._done

/-- Source `BSONObjBuilder::doneAndDecouple`: `BSONObj(decouple(l), true)`. -/
def doneAndDecouple (bb : BSONObjBuilder) : Except Fault BSONObj :=
  BSONObj.ofData bb._done true

end BSONObjBuilder

/-! ## Sequences of append calls -/

/-- One call of a supported `append*` member of `BSONObjBuilder`, with its arguments. -/
inductive AppendCall where
  /-- Call `append(fieldName, double n)`, `n` the bit pattern of the double. -/
  | double (fieldName : Mem) (n : Nat)
  /-- Call `appendInt(fieldName, n)`. -/
  | int (fieldName : Mem) (n : Int)
  /-- Call `appendBool(fieldName, val)`. -/
  | bool (fieldName : Mem) (val : Int)
  /-- Call `appendDate(fieldName, dt)`. -/
  | date (fieldName : Mem) (dt : Nat)
  /-- Call `append(fieldName, const char *str)`. -/
  | string (fieldName : Mem) (str : Mem)
  /-- Call `appendCode(fieldName, code)`. -/
  | code (fieldName : Mem) (code : Mem)
  /-- Call `appendSymbol(fieldName, symbol)`. -/
  | symbol (fieldName : Mem) (symbol : Mem)
  /-- Call `append(fieldName, BSONObj subObj)`. -/
  | object (fieldName : Mem) (subObj : BSONObj)
  /-- Call `appendArray(fieldName, subObj)`. -/
  | array (fieldName : Mem) (subObj : BSONObj)
  /-- Call `appendOID(fieldName, oid)`. -/
  | oid (fieldName : Mem) (oid : Option OID)
  /-- Call `appendRegex(fieldName, regex, options)`. -/
  | regex (fieldName : Mem) (regex : Mem) (options : Mem)
  /-- Call `appendBinData(fieldName, len, type, data)`. -/
  | binData (fieldName : Mem) (len : Int) (type : Int) (data : Mem)
  /-- Call `appendBinDataArray(fieldName, data, len)`. -/
  | binDataArray (fieldName : Mem) (data : Mem) (len : Int)
  /-- Call `appendCodeWScope(fieldName, code, scope)`. -/
  | codeWScope (fieldName : Mem) (code : Mem) (scope : BSONObj)
  /-- Call `appendNull(fieldName)`. -/
  | null (fieldName : Mem)
  /-- Call `appendMinKey(fieldName)`. -/
  | minKey (fieldName : Mem)
  /-- Call `appendMaxKey(fieldName)`. -/
  | maxKey (fieldName : Mem)
  /-- Call `appendDBRef(fieldName, ns, oid)`. -/
  | dbRef (fieldName : Mem) (ns : Mem) (oid : OID)
  deriving DecidableEq

namespace AppendCall

/-- The call carried out on a builder. -/
def run (bb : BSONObjBuilder) : AppendCall → Except Fault BSONObjBuilder
  | double fieldName n => .ok (bb.appendDouble fieldName n)
  | int fieldName n => .ok (bb.appendInt fieldName n)
  | bool fieldName val => .ok (bb.appendBool fieldName val)
  | date fieldName dt => .ok (bb.appendDate fieldName dt)
  | string fieldName str => .ok (bb.appendString fieldName str)
  | code fieldName c => .ok (bb.appendCode fieldName c)
  | symbol fieldName sym => .ok (bb.appendSymbol fieldName sym)
  | object fieldName subObj => bb.appendObject fieldName subObj
  | array fieldName subObj => bb.appendArray fieldName subObj
  | oid fieldName o => bb.appendOID fieldName o
  | regex fieldName re options => .ok (bb.appendRegex fieldName re options)
  | binData fieldName len type data => bb.appendBinData fieldName len type data
  | binDataArray fieldName data len => bb.appendBinDataArray fieldName data len
  | codeWScope fieldName c scope => bb.appendCodeWScope fieldName c scope
  | null fieldName => .ok (bb.appendNull fieldName)
  | minKey fieldName => .ok (bb.appendMinKey fieldName)
  | maxKey fieldName => .ok (bb.appendMaxKey fieldName)
  | dbRef fieldName ns o => bb.appendDBRef fieldName ns o

/-- A sequence of calls carried out in order on a builder. -/
def runAll : List AppendCall → BSONObjBuilder → Except Fault BSONObjBuilder
  | [], bb => .ok bb
  | c :: cs, bb =>
    match c.run bb with
    | .error f => .error f
    | .ok bb2 => runAll cs bb2

/-- The field name passed to the call. -/
def fieldName : AppendCall → Mem
  | double n _ | int n _ | bool n _ | date n _ | string n _ | code n _ | symbol n _
  | object n _ | array n _ | oid n _ | regex n _ _ | binData n _ _ _ | binDataArray n _ _
  | codeWScope n _ _ | null n | minKey n | maxKey n | dbRef n _ _ => n

/-- The kind the call appends. -/
def kind : AppendCall → Int
  | double _ _ => BSONType.NumberDouble
  | int _ _ => BSONType.NumberInt
  | bool _ _ => BSONType.Bool
  | date _ _ => BSONType.Date
  | string _ _ => BSONType.String
  | code _ _ => BSONType.Code
  | symbol _ _ => BSONType.Symbol
  | object _ _ => BSONType.Object
  | array _ _ => BSONType.Array
  | oid _ _ => BSONType.jstOID
  | regex _ _ _ => BSONType.RegEx
  | binData _ _ _ _ => BSONType.BinData
  | binDataArray _ _ _ => BSONType.BinData
  | codeWScope _ _ _ => BSONType.CodeWScope
  | null _ => BSONType.jstNULL
  | minKey _ => BSONType.MinKey
  | maxKey _ => BSONType.MaxKey
  | dbRef _ _ _ => BSONType.DBRef

end AppendCall

/-- The first `objsize()` bytes of an object's buffer (nothing for a null object). -/
def BSONObj.bytes (o : BSONObj) : Mem :=
  match o.details with
  | some d => d._objdata.take d._objsize.toNat
  | none => []

/-- An object that can be embedded: it is not null, its size is the one its buffer declares,
and the buffer holds that many bytes, the size field included. -/
def BSONObj.embeddable : BSONObj → Prop
  | ⟨some d⟩ =>
    readInt d._objdata = .ok d._objsize ∧ 4 ≤ d._objsize ∧ d._objsize ≤ (d._objdata.length : Int)
  | ⟨none⟩ => False

instance : (o : BSONObj) → Decidable o.embeddable
  | ⟨some d⟩ =>
    inferInstanceAs (Decidable (readInt d._objdata = .ok d._objsize ∧ 4 ≤ d._objsize
      ∧ d._objsize ≤ (d._objdata.length : Int)))
  | ⟨none⟩ => inferInstanceAs (Decidable False)

namespace AppendCall

/-- The value bytes of the kind appended, after the wire format table of the spec:
double "8-byte IEEE-754", int32 "4-byte signed", string/code/symbol
`<int32 N+1><N bytes utf8><0x00>`, object/array "nested document", binData
`<int32 len><byte subtype><len bytes>`, bool "1 byte (0/1)", date "8-byte unsigned",
null/minKey/maxKey "none", OID "12 bytes", regex `<cstring pattern><cstring flags>`,
dbref `<int32 N+1><N bytes ns><0x00>` `<12 bytes OID>`, codeWScope
`<int32 totalLen><int32 codeLen+1><code bytes><0x00><nested document>`. -/
def valueBytes : AppendCall → Mem
  | double _ n => le64 n
  | int _ n => le32 n
  | bool _ val => [if val = 0 then 0 else 1]
  | date _ dt => le64 dt
  | string _ s | code _ s | symbol _ s => le32 ((s.length : Int) + 1) ++ s ++ [0]
  | object _ o | array _ o => o.bytes
  | oid _ (some o) => o.data
  | oid _ none => List.replicate 12 0
  | regex _ re options => re ++ [0] ++ options ++ [0]
  | binData _ len type data => le32 len ++ [charOf type] ++ data.take len.toNat
  | binDataArray _ data len => le32 (len + 4) ++ [2] ++ le32 len ++ data.take len.toNat
  | codeWScope _ c scope =>
    le32 (4 + 4 + (c.length : Int) + 1 + scope.objsize) ++ le32 ((c.length : Int) + 1)
      ++ c ++ [0] ++ scope.bytes
  | null _ | minKey _ | maxKey _ => []
  | dbRef _ ns o => le32 ((ns.length : Int) + 1) ++ ns ++ [0] ++ o.data

/-- What iteration is to give back for the call: kind, field name, value bytes. -/
def expected (c : AppendCall) : Int × Mem × Mem := (c.kind, c.fieldName, c.valueBytes)

/-- The arguments of the call are well formed: the strings are C strings (no NUL inside),
embedded objects can be embedded, and binary data has the announced length. -/
def wellFormed : AppendCall → Prop
  | double n _ | int n _ | bool n _ | date n _ | oid n _ | null n | minKey n | maxKey n =>
    (0 : Byte) ∉ n
  | string n s | code n s | symbol n s | dbRef n s _ => (0 : Byte) ∉ n ∧ (0 : Byte) ∉ s
  | object n o | array n o => (0 : Byte) ∉ n ∧ o.embeddable
  | regex n re options => (0 : Byte) ∉ n ∧ (0 : Byte) ∉ re ∧ (0 : Byte) ∉ options
  | binData n len _ data | binDataArray n data len =>
    (0 : Byte) ∉ n ∧ 0 ≤ len ∧ len ≤ (data.length : Int)
  | codeWScope n c scope => (0 : Byte) ∉ n ∧ (0 : Byte) ∉ c ∧ scope.embeddable

instance (c : AppendCall) : Decidable c.wellFormed := by
  cases c <;> unfold wellFormed <;> infer_instance

end AppendCall

/-- What is read back from an element: kind, field name, value bytes. -/
def BSONElement.view (e : BSONElement) : Except Fault (Int × Mem × Mem) :=
  match e.valueBytes with
  | .error f => .error f
  | .ok v => .ok (e.type, e.fieldName, v)

/-! ## `class BSONObjIterator` -/

/-- A `BSONObjIterator`: the buffer it walks and the offsets of `pos` and `theend` in it
(both `0` for the null pointers of an iterator over a null object). -/
structure BSONObjIterator where
  /-- The buffer `jso.objdata()` the two pointers point into. -/
  buf : Mem
  /-- Field `const char *pos`, as an offset into `buf`. -/
  pos : Int
  /-- Field `const char *theend`, as an offset into `buf`. -/
  theend : Int
  deriving DecidableEq, Repr

namespace BSONObjIterator

/-- The constructor `BSONObjIterator(const BSONObj& jso)`. -/
def ofObj (jso : BSONObj) : Except Fault BSONObjIterator :=
  let sz := jso.objsize
  if sz == 0 then .ok ⟨[], 0, 0⟩
  else
    match jso.objdata with
    | .error f => .error f
    | .ok p => .ok ⟨p, 4, sz⟩

/-- Source `BSONObjIterator::more`. -/
def more (it : BSONObjIterator) : Bool := it.pos < it.theend

/-- The memory at the cursor. -/
def atPos (it : BSONObjIterator) : Except Fault Mem :=
  if 0 ≤ it.pos ∧ it.pos ≤ (it.buf.length : Int) then .ok (it.buf.drop it.pos.toNat)
  else .error .outOfBounds

/-- Source `BSONObjIterator::next(bool checkEnd = false)`: the element at the cursor and the
iterator advanced by the element's size. -/
def next (it : BSONObjIterator) (checkEnd : Bool := false) :
    Except Fault (BSONElement × BSONObjIterator) :=
  if ¬ (it.pos < it.theend) then .error .assertion
  else
    match it.atPos with
    | .error f => .error f
    | .ok p =>
      match BSONElement.ofData p (if checkEnd then it.theend - it.pos else -1) with
      | .error f => .error f
      | .ok e =>
        match e.size (if checkEnd then it.theend - it.pos else -1) with
        | .error f => .error f
        | .ok sz => .ok (e, { it with pos := it.pos + sz })

/-- The client loop `while ( it.more() ) { BSONElement e = it.next(); ... }`, collecting the
elements it visits. -/
def elementsLoop : Nat → BSONObjIterator → Except Fault (List BSONElement)
  | 0, it => if it.more then .error .diverged else .ok []
  | fuel + 1, it =>
    if it.more then
      match it.next with
      | .error f => .error f
      | .ok (e, it2) =>
        match elementsLoop fuel it2 with
        | .error f => .error f
        | .ok es => .ok (e :: es)
    else .ok []

end BSONObjIterator

namespace BSONObj

/-- Fuel for a scan of the object: every step that advances the cursor consumes at least one
of the `objsize()` bytes. -/
def scanFuel (o : BSONObj) : Nat := o.objsize.toNat

/-- The elements a `BSONObjIterator` over the object yields, end marker included. -/
def elements (o : BSONObj) : Except Fault (List BSONElement) :=
  match BSONObjIterator.ofObj o with
  | .error f => .error f
  | .ok it => BSONObjIterator.elementsLoop o.scanFuel it

/-- The loop of `BSONObj::findElement`; `none` when the loop ends without a match. -/
def findElementLoop (name : Mem) : Nat → BSONObjIterator → Except Fault (Option BSONElement)
  | 0, it => if it.more then .error .diverged else .ok none
  | fuel + 1, it =>
    if it.more then
      match it.next with
      | .error f => .error f
      | .ok (e, it2) =>
        if name = e.fieldName then .ok (some e)
        else findElementLoop name fuel it2
    else .ok none

/-- Source `BSONObj::findElement(const char *name)`. -/
def findElement (o : BSONObj) (name : Mem) : Except Fault BSONElement :=
  if !o.isEmpty then
    match BSONObjIterator.ofObj o with
    | .error f => .error f
    | .ok it =>
      match findElementLoop name o.scanFuel it with
      | .error f => .error f
      | .ok (some e) => .ok e
      | .ok none => .ok BSONElement.empty
  else .ok BSONElement.empty

/-- The loop of `BSONObj::hasElement`. -/
def hasElementLoop (name : Mem) : Nat → BSONObjIterator → Except Fault Bool
  | 0, it => if it.more then .error .diverged else .ok false
  | fuel + 1, it =>
    if it.more then
      match it.next with
      | .error f => .error f
      | .ok (e, it2) =>
        if name = e.fieldName then .ok true
        else hasElementLoop name fuel it2
    else .ok false

/-- Source `BSONObj::hasElement(const char *name)`. -/
def hasElement (o : BSONObj) (name : Mem) : Except Fault Bool :=
  if !o.isEmpty then
    match BSONObjIterator.ofObj o with
    | .error f => .error f
    | .ok it => hasElementLoop name o.scanFuel it
  else .ok false

end BSONObj

/-! ## Well-formed documents: `<int32 totalSize> element* <byte 0x00>` -/

/-- The relation between an element and the one iteration yields next: the next one starts
`size()` bytes after the start of this one. -/
def BSONElement.NextAt (e e2 : BSONElement) : Prop :=
  ∃ sz : Int, e.size = .ok sz ∧ 0 < sz ∧ e2.data = e.data.drop sz.toNat

/-- The bytes `enc` encode exactly one field: whatever follows them in memory, the element
view at their start is not the end marker and has `enc.length` as its size. -/
def IsField (enc : Mem) : Prop :=
  ∀ rest : Mem, ∃ e, BSONElement.ofData (enc ++ rest) = .ok e ∧ e.eoo = false
    ∧ e.size = .ok (enc.length : Int)

/-- The memory at the start of each of the fields `fields` laid out one after the other and
followed by `tl`, and finally `tl` itself. -/
def starts : List Mem → Mem → List Mem
  | [], tl => [tl]
  | f :: fs, tl => (f ++ (fs.flatten ++ tl)) :: starts fs tl

/-- The object is a well-formed document with the field encodings `fields`: its buffer starts
with the declared size, then the fields, then the end marker, and the declared size counts
exactly these bytes. -/
def BSONObj.wellFormed : BSONObj → List Mem → Prop
  | ⟨some d⟩, fields =>
    (∀ enc ∈ fields, IsField enc) ∧ readInt d._objdata = .ok d._objsize
      ∧ d._objsize = 4 + (fields.flatten.length : Int) + 1
      ∧ ∃ tl, d._objdata = d._objdata.take 4 ++ (fields.flatten ++ 0 :: tl)
  | ⟨none⟩, _ => False

/-- The bytes a well-formed call appends to the buffer: kind byte, NUL-terminated name,
value. -/
def AppendCall.encode (c : AppendCall) : Mem :=
  charOf c.kind :: (c.fieldName ++ 0 :: c.valueBytes)

/-! ## Doubles -/

/-- The value of an IEEE-754 double: a finite number (exactly, as a rational), an infinity, or
not a number. -/
inductive DoubleVal where
  /-- A finite value; both zeros are `finite 0`. -/
  | finite (q : ℚ)
  /-- Plus or minus infinity. -/
  | inf (negative : Bool)
  /-- Not a number. -/
  | nan
  deriving DecidableEq

namespace DoubleVal

/-- The value of the double with the 64-bit pattern `n`: sign bit, 11 exponent bits, 52
fraction bits. -/
def ofBits (n : Nat) : DoubleVal :=
  let sign : Nat := n / 2 ^ 63 % 2
  let e : Nat := n / 2 ^ 52 % 2048
  let f : Nat := n % 2 ^ 52
  if e = 2047 then (if f = 0 then .inf (sign == 1) else .nan)
  else
    let m : ℚ :=
      if e = 0 then (f : ℚ) / (2 : ℚ) ^ 1074
      else (((2 ^ 52 + f : Nat) : ℚ) * (2 : ℚ) ^ e) / (2 : ℚ) ^ 1075
    .finite (if sign = 1 then -m else m)

/-- The conversion of an `int` to `double`, exact for 32 bits. -/
def ofInt (v : Int) : DoubleVal := .finite v

/-- The comparison `a == b` of two doubles. -/
def eq : DoubleVal → DoubleVal → Bool
  | .finite p, .finite q => p == q
  | .inf a, .inf b => a == b
  | _, _ => false

/-- The comparison `a < b` of two doubles. -/
def lt : DoubleVal → DoubleVal → Bool
  | .finite p, .finite q => p < q
  | .finite _, .inf b => !b
  | .inf a, .finite _ => a
  | .inf a, .inf b => a && !b
  | _, _ => false

end DoubleVal

/-- The read `*((double *) p)` or `*((unsigned long long *) p)`: the first eight bytes as a
little-endian 64-bit pattern. -/
def readLong : Mem → Except Fault Nat
  | b0 :: b1 :: b2 :: b3 :: b4 :: b5 :: b6 :: b7 :: _ =>
    .ok (b0.val + 2 ^ 8 * b1.val + 2 ^ 16 * b2.val + 2 ^ 24 * b3.val + 2 ^ 32 * b4.val
      + 2 ^ 40 * b5.val + 2 ^ 48 * b6.val + 2 ^ 56 * b7.val)
  | _ => .error .outOfBounds

/-- The result of `strcmp` or `memcmp` on two byte strings, as a sign: the first differing
byte decides, a proper initial segment comes first. -/
def cmpBytes : Mem → Mem → Int
  | [], [] => 0
  | [], _ :: _ => -1
  | _ :: _, [] => 1
  | a :: as, b :: bs => if a.val < b.val then -1 else if b.val < a.val then 1 else cmpBytes as bs

namespace BSONElement

/-- Source `BSONElement::number`. -/
def number (e : BSONElement) : Except Fault DoubleVal :=
  if e.type == BSONType.NumberDouble then
    match readLong e.value with
    | .error f => .error f
    | .ok n => .ok (DoubleVal.ofBits n)
  else if e.type == BSONType.NumberInt then
    match readInt e.value with
    | .error f => .error f
    | .ok v => .ok (DoubleVal.ofInt v)
  else .ok (.finite 0)

/-- Source `BSONElement::valuesEqual`. -/
def valuesEqual (e r : BSONElement) : Except Fault Bool :=
  if e.isNumber then
    match e.number, r.number with
    | .ok x, .ok y => .ok (x.eq y && r.isNumber)
    | .error f, _ => .error f
    | _, .error f => .error f
  else
    match e.valuesize, r.valuesize with
    | .ok n, .ok m => if n == m then BSONObj.memEq e.value r.value n else .ok false
    | .error f, _ => .error f
    | _, .error f => .error f

/-- Source `BSONElement::operator==`. -/
def equals (e r : BSONElement) : Except Fault Bool :=
  if e.fieldName ≠ r.fieldName then .ok false else e.valuesEqual r

/-- The kind as it counts for ordering: "kind difference ignored for numeric values
specifically", so the two numeric kinds count as one. -/
def orderingKind (e : BSONElement) : Int :=
  if e.type == BSONType.NumberInt then BSONType.NumberDouble else e.type

/-- Source `BSONElement::embeddedObject`. -/
def embeddedObject (e : BSONElement) : Except Fault BSONObj :=
  if e.type == BSONType.Object || e.type == BSONType.Array then BSONObj.ofData e.value
  else .error .assertion

end BSONElement

/-- The buffer of the object holds the `objsize()` bytes it declares (a null object holds
none). -/
def BSONObj.readable : BSONObj → Prop
  | ⟨some d⟩ => 0 ≤ d._objsize ∧ d._objsize ≤ (d._objdata.length : Int)
  | ⟨none⟩ => True

instance : (o : BSONObj) → Decidable o.readable
  | ⟨some d⟩ =>
    inferInstanceAs (Decidable (0 ≤ d._objsize ∧ d._objsize ≤ (d._objdata.length : Int)))
  | ⟨none⟩ => inferInstanceAs (Decidable True)

namespace BSONObjBuilder

/-- Source `BSONObjBuilder::append(BSONElement& e)`. -/
def appendElement (bb : BSONObjBuilder) (e : BSONElement) : Except Fault BSONObjBuilder :=
  if e.eoo then .error .assertion
  else
    match e.size with
    | .error f => .error f
    | .ok sz =>
      match bb.b.appendBuf e.data sz with
      | .error f => .error f
      | .ok b => .ok ⟨b⟩

/-- The loop of `BSONObjBuilder::appendElements`. -/
def appendElementsLoop : Nat → BSONObjIterator → BSONObjBuilder → Except Fault BSONObjBuilder
  | 0, it, bb => if it.more then .error .diverged else .ok bb
  | fuel + 1, it, bb =>
    if it.more then
      match it.next with
      | .error f => .error f
      | .ok (e, it2) =>
        if e.eoo then .ok bb
        else
          match bb.appendElement e with
          | .error f => .error f
          | .ok bb2 => appendElementsLoop fuel it2 bb2
    else .ok bb

/-- Source `BSONObjBuilder::appendElements(BSONObj x)`. -/
def appendElements (bb : BSONObjBuilder) (x : BSONObj) : Except Fault BSONObjBuilder :=
  match BSONObjIterator.ofObj x with
  | .error f => .error f
  | .ok it => appendElementsLoop x.scanFuel it bb

/-- The builder after a call of `_done()`: its buffer is the one `_done()` returned, end
marker appended and size slot patched. -/
def afterDone (bb : BSONObjBuilder) : BSONObjBuilder := ⟨⟨bb._done⟩⟩

end BSONObjBuilder

/-! ## Ownership: `BSONObj` handles, `Details` objects and buffers on a heap -/

/-- An address on the heap. -/
abbrev Addr := Nat

/-- A `BSONObj::Details` object on the heap; `_objdata` is the address of its buffer. The
count `refCount` is an `int` of 32 bits: the operations `refCount++` and `--refCount` store
the result wrapped around (`wrapInt`). -/
structure DetailsCell where
  /-- Field `const char *_objdata`, as the address of the buffer. -/
  _objdata : Addr
  /-- Field `int _objsize`. -/
  _objsize : Int
  /-- Field `int refCount`, a 32-bit count; `-1` means the buffer is not owned. -/
  refCount : Int
  deriving DecidableEq, Repr

/-- Source `BSONObj::Details::owned`. -/
def DetailsCell.owned (c : DetailsCell) : Bool := c.refCount ≥ 0

/-- The heap: the `Details` objects, the buffers, and the calls of `free` so far. -/
structure Heap where
  /-- The `Details` objects created with `new`, by address; `none` once deleted. -/
  details : List (Option DetailsCell)
  /-- The contents of the buffers, by address, whether allocated with `malloc` or supplied
  by a caller. -/
  buffers : List Mem
  /-- The buffer addresses passed to `free`, in the order of the calls. -/
  freed : List Addr
  deriving DecidableEq, Repr

/-- A `BSONObj` variable over the heap: its pointer `details` (null when `none`). -/
structure Handle where
  /-- Field `Details *details`, as an address of the heap. -/
  details : Option Addr
  deriving DecidableEq, Repr

namespace Heap

/-- The `Details` object at an address; following a dangling or wild pointer is a fault. -/
def cell (st : Heap) (a : Addr) : Except Fault DetailsCell :=
  match st.details[a]? with
  | some (some c) => .ok c
  | _ => .error .outOfBounds

/-- The heap with the `Details` object at `a` replaced (deleted when `none`). -/
def setCell (st : Heap) (a : Addr) (c : Option DetailsCell) : Heap :=
  { st with details := st.details.set a c }

/-- The expression `new Details(c)`: a new object at a fresh address. -/
def newCell (st : Heap) (c : DetailsCell) : Heap × Handle :=
  ({ st with details := st.details ++ [some c] }, ⟨some st.details.length⟩)

/-- The expression `delete details`: the destructor `~Details` (its assertion, the `free` of
an owned buffer), then the object is gone. -/
def delete (st : Heap) (a : Addr) : Except Fault Heap :=
  match st.cell a with
  | .error f => .error f
  | .ok c =>
    if ¬ (c.refCount ≤ 0) then .error .assertion
    else if c.owned then .ok ({ st with freed := st.freed ++ [c._objdata] }.setCell a none)
    else .ok (st.setCell a none)

/-- The constructor `BSONObj(const char *msgdata, bool ifree)` (`BSONObj::init`) on the
buffer at the address `msgdata`. -/
def init (st : Heap) (msgdata : Addr) (ifree : Bool) : Except Fault (Heap × Handle) :=
  match st.buffers[msgdata]? with
  | none => .error .outOfBounds
  | some buf =>
    match readInt buf with
    | .error f => .error f
    | .ok sz =>
      if ¬ (sz > 0) then .error (.massert "BSONObj size spec too small")
      else if ¬ (sz ≤ 1024 * 1024 * 16) then .error (.massert "BSONObj size spec too large")
      else .ok (st.newCell ⟨msgdata, sz, if ifree then 1 else -1⟩)

/-- The destructor `~BSONObj`; the handle is null afterwards. -/
def destroy (st : Heap) (h : Handle) : Except Fault (Heap × Handle) :=
  match h.details with
  | none => .ok (st, h)
  | some a =>
    match st.cell a with
    | .error f => .error f
    | .ok c =>
      let st2 := st.setCell a (some { c with refCount := wrapInt (c.refCount - 1) })
      if wrapInt (c.refCount - 1) ≤ 0 then
        match st2.delete a with
        | .error f => .error f
        | .ok st3 => .ok (st3, ⟨none⟩)
      else .ok (st2, ⟨none⟩)

/-- The copy constructor `BSONObj(const BSONObj& r)`: the new handle. -/
def copyConstruct (st : Heap) (r : Handle) : Except Fault (Heap × Handle) :=
  match r.details with
  | none => .ok (st, ⟨none⟩)
  | some a =>
    match st.cell a with
    | .error f => .error f
    | .ok c =>
      if c.owned then
        .ok (st.setCell a (some { c with refCount := wrapInt (c.refCount + 1) }), ⟨some a⟩)
      else .ok (st.newCell c)

/-- The first statement of `BSONObj::operator=`: the handle assigned to gives up its share of
an owned buffer. -/
def release (st : Heap) (self : Handle) : Except Fault Heap :=
  match self.details with
  | none => .ok st
  | some a =>
    match st.cell a with
    | .error f => .error f
    | .ok c =>
      if c.owned then
        let st2 := st.setCell a (some { c with refCount := wrapInt (c.refCount - 1) })
        if wrapInt (c.refCount - 1) == 0 then st2.delete a else .ok st2
      else .ok st

/-- Source `BSONObj::operator=`: after the first statement (`release`) the remaining
statements are, line for line, the body of the copy constructor. The result is the heap and
the new value of the handle assigned to. -/
def assign (st : Heap) (self r : Handle) : Except Fault (Heap × Handle) :=
  match st.release self with
  | .error f => .error f
  | .ok st1 => st1.copyConstruct r

/-- Source `BSONObj::objsize` of a handle. -/
def objsize (st : Heap) (h : Handle) : Except Fault Int :=
  match h.details with
  | none => .ok 0
  | some a =>
    match st.cell a with
    | .error f => .error f
    | .ok c => .ok c._objsize

/-- The memory at a buffer address; a freed buffer must not be read. -/
def buffer (st : Heap) (p : Addr) : Except Fault Mem :=
  if p ∈ st.freed then .error .outOfBounds
  else
    match st.buffers[p]? with
    | none => .error .outOfBounds
    | some buf => .ok buf

/-- The document a handle stands for, as a `BSONObj` value over the bytes of its buffer. -/
def view (st : Heap) (h : Handle) : Except Fault BSONObj :=
  match h.details with
  | none => .ok ⟨none⟩
  | some a =>
    match st.cell a with
    | .error f => .error f
    | .ok c =>
      match st.buffer c._objdata with
      | .error f => .error f
      | .ok buf => .ok ⟨some ⟨buf, c._objsize, c.refCount⟩⟩

/-- The call `malloc(n)` followed by `memcpy(p, src, n)`: a new buffer holding the first `n`
bytes of `src`, and its address. -/
def mallocCopy (st : Heap) (src : Mem) (n : Int) : Except Fault (Heap × Addr) :=
  if 0 ≤ n ∧ n ≤ (src.length : Int) then
    .ok ({ st with buffers := st.buffers ++ [src.take n.toNat] }, st.buffers.length)
  else .error .outOfBounds

/-- Source `BSONObj::copy`. -/
def copy (st : Heap) (h : Handle) : Except Fault (Heap × Handle) :=
  match st.objsize h with
  | .error f => .error f
  | .ok sz =>
    if sz ≤ 5 then st.copyConstruct h
    else
      match h.details with
      | none => .error .outOfBounds
      | some a =>
        match st.cell a with
        | .error f => .error f
        | .ok c =>
          match st.buffer c._objdata with
          | .error f => .error f
          | .ok src =>
            match st.mallocCopy src sz with
            | .error f => .error f
            | .ok (st2, p) => st2.init p true

/-- The copy constructor called `n` times on the handle `h`: the heap and the new handles. -/
def copies : Nat → Heap → Handle → Except Fault (Heap × List Handle)
  | 0, st, _ => .ok (st, [])
  | n + 1, st, h =>
    match st.copyConstruct h with
    | .error f => .error f
    | .ok (st2, h2) =>
      match copies n st2 h with
      | .error f => .error f
      | .ok (st3, hs) => .ok (st3, h2 :: hs)

/-- The handles of a list destroyed one after the other. -/
def destroyAll : Heap → List Handle → Except Fault Heap
  | st, [] => .ok st
  | st, h :: hs =>
    match st.destroy h with
    | .error f => .error f
    | .ok (st2, _) => destroyAll st2 hs

end Heap

/-- An operation on a family of `BSONObj` variables, named by their position in the list of
the variables alive. -/
inductive HandleOp where
  /-- A new variable copy-constructed from the variable `src`. -/
  | copyConstruct (src : Nat)
  /-- The assignment `dst = src`. -/
  | assign (dst src : Nat)
  /-- The variable `i` goes out of scope. -/
  | destroy (i : Nat)
  deriving DecidableEq, Repr

namespace Heap

/-- One operation on the variables `hs`; an operation naming a variable that does not exist
does nothing. -/
def step (st : Heap) (hs : List Handle) : HandleOp → Except Fault (Heap × List Handle)
  | .copyConstruct src =>
    match hs[src]? with
    | none => .ok (st, hs)
    | some r =>
      match st.copyConstruct r with
      | .error f => .error f
      | .ok (st2, h) => .ok (st2, hs ++ [h])
  | .assign dst src =>
    match hs[dst]?, hs[src]? with
    | some self, some r =>
      match st.assign self r with
      | .error f => .error f
      | .ok (st2, h) => .ok (st2, hs.set dst h)
    | _, _ => .ok (st, hs)
  | .destroy i =>
    match hs[i]? with
    | none => .ok (st, hs)
    | some h =>
      match st.destroy h with
      | .error f => .error f
      | .ok (st2, _) => .ok (st2, hs.eraseIdx i)

/-- A sequence of operations on the variables `hs`. -/
def run : Heap → List Handle → List HandleOp → Except Fault (Heap × List Handle)
  | st, hs, [] => .ok (st, hs)
  | st, hs, op :: ops =>
    match st.step hs op with
    | .error f => .error f
    | .ok (st2, hs2) => run st2 hs2 ops

end Heap

/-- The variables `hs` all borrow the buffer at `ext`: each points to a `Details` object of
its own, alive, with reference count `-1` and `_objdata` at `ext`. -/
def Heap.Borrowing (ext : Addr) (st : Heap) (hs : List Handle) : Prop :=
  hs.Nodup ∧ ∀ h ∈ hs, ∃ b sz, h = ⟨some b⟩ ∧ st.cell b = .ok ⟨ext, sz, -1⟩

/-! ## Accessors of composite values -/

namespace BSONElement

/-- Source `BSONElement::codeWScopeCode`: `value() + 8`. -/
def codeWScopeCode (e : BSONElement) : Mem := e.value.drop 8

/-- Source `BSONElement::codeWScopeScopeData`:
`codeWScopeCode() + strlen( codeWScopeCode() ) + 1`. -/
def codeWScopeScopeData (e : BSONElement) : Except Fault Mem :=
  match strlen e.codeWScopeCode with
  | .error f => .error f
  | .ok n => .ok (e.codeWScopeCode.drop (n + 1))

/-- Source `BSONElement::codeWScopeObject`; the pointer `value() + 4 + 4 + strSizeWNull` must
lie within the memory of the element. -/
def codeWScopeObject (e : BSONElement) : Except Fault BSONObj :=
  if e.type == BSONType.CodeWScope then
    match readInt (e.value.drop 4) with
    | .error f => .error f
    | .ok strSizeWNull =>
      if 0 ≤ 4 + 4 + strSizeWNull ∧ 4 + 4 + strSizeWNull ≤ (e.value.length : Int) then
        BSONObj.ofData (e.value.drop (4 + 4 + strSizeWNull).toNat)
      else .error .outOfBounds
  else .error .assertion

/-- Source `BSONElement::embeddedObjectUserCheck`. -/
def embeddedObjectUserCheck (e : BSONElement) : Except Fault BSONObj :=
  if e.type == BSONType.Object || e.type == BSONType.Array then BSONObj.ofData e.value
  else .error (.uassert "invalid parameter: expected an object")

/-- Source `BSONElement::binData(int& len)`: the pointer returned, `value() + 5`, and the
value stored into `len`. -/
def binData (e : BSONElement) : Except Fault (Mem × Int) :=
  if e.type == BSONType.BinData then
    match e.valuestrsize with
    | .error f => .error f
    | .ok len => .ok (e.value.drop 5, len)
  else .error .assertion

end BSONElement

/-- The enumerators of `enum BSONType` in the order of their declaration, by value;
`JSTypeMax` is left out, it is a second name of the value of `NumberInt` ("max type that is
not MaxKey"), not a kind of its own. -/
def BSONType.kinds : List Int :=
  [BSONType.MinKey, BSONType.EOO, BSONType.NumberDouble, BSONType.String, BSONType.Object,
    BSONType.Array, BSONType.BinData, BSONType.Undefined, BSONType.jstOID, BSONType.Bool,
    BSONType.Date, BSONType.jstNULL, BSONType.RegEx, BSONType.DBRef, BSONType.Code,
    BSONType.Symbol, BSONType.CodeWScope, BSONType.NumberInt, BSONType.MaxKey]

/-! ## Text output of numbers (`stringstream`) -/

/-- The character of the digit `d` in the output of a stream: `0` to `9`, then `a` to `f`
(lowercase, the `uppercase` flag not being set). -/
def digitChar (d : Nat) : Byte := if d < 10 then byteOf (48 + d) else byteOf (87 + d)

/-- The digits of `n` in base `base`, most significant first, put before `acc`; `fuel` bounds
the number of digits. -/
def formatNatAux (base : Nat) : Nat → Nat → Mem → Mem
  | 0, _, acc => acc
  | fuel + 1, n, acc =>
    if n / base = 0 then digitChar (n % base) :: acc
    else formatNatAux base fuel (n / base) (digitChar (n % base) :: acc)

/-- The stream insertion `s << n` of a non-negative integer in the base of the stream (10, or
16 after `s << hex`): its digits without padding, a single `0` for zero. -/
def formatNat (base n : Nat) : Mem := formatNatAux base (n + 1) n []

/-- Source `OID::str`: for each of the 12 bytes, a `0` if the byte is below 16, then the byte
in hexadecimal. -/
def OID.str (o : OID) : Mem :=
  o.data.flatMap (fun b => if b.val < 16 then 48 :: formatNat 16 b.val else formatNat 16 b.val)

/-- The conversion of an `unsigned` to `int` (32 bits, two's complement). -/
def intOfUnsigned (u : Nat) : Int :=
  if u % 4294967296 < 2147483648 then ((u % 4294967296 : Nat) : Int)
  else ((u % 4294967296 : Nat) : Int) - 4294967296

/-- The position of the highest set bit of `n` (0 for 0 and 1); `fuel` bounds it. -/
def highBit : Nat → Nat → Nat
  | 0, _ => 0
  | fuel + 1, n => if n < 2 then 0 else highBit fuel (n / 2) + 1

/-- The conversion `(double) v` of an `int` (32 bits): the bit pattern of the double of value
`v`; the conversion is exact. -/
def doubleOfInt (v : Int) : Nat :=
  if v = 0 then 0
  else
    (if v < 0 then 2 ^ 63 else 0) + (1023 + highBit 32 v.natAbs) * 2 ^ 52
      + (v.natAbs * 2 ^ (52 - highBit 32 v.natAbs) - 2 ^ 52)

namespace BSONObjBuilder

/-- Source `BSONObjBuilder::numStr`: `o << i` for an `int`, in decimal. -/
def numStr (i : Int) : Mem :=
  if i < 0 then 45 :: formatNat 10 (-i).toNat else formatNat 10 i.toNat

/-- Source `BSONObjBuilder::marshalArray`. -/
def marshalArray (bb : BSONObjBuilder) (fieldName : Mem) (arr : BSONObj) :
    Except Fault BSONObjBuilder :=
  match arr.objdata with
  | .error f => .error f
  | .ok p =>
    match (bb.header BSONType.Array fieldName).appendBuf p arr.objsize with
    | .error f => .error f
    | .ok b => .ok ⟨b⟩

/-- The loop of `BSONObjBuilder::appendIntArray`, from the index `i` on (an `unsigned`,
converted to the `int` parameter of `numStr`). -/
def appendIntArrayLoop : List Int → Nat → BSONObjBuilder → BSONObjBuilder
  | [], _, arrBuilder => arrBuilder
  | v :: vals, i, arrBuilder =>
    appendIntArrayLoop vals (i + 1) (arrBuilder.appendInt (numStr (intOfUnsigned i)) v)

/-- Source `BSONObjBuilder::appendIntArray`. -/
def appendIntArray (bb : BSONObjBuilder) (fieldName : Mem) (vals : List Int) :
    Except Fault BSONObjBuilder :=
  match (appendIntArrayLoop vals 0 BSONObjBuilder.new).done with
  | .error f => .error f
  | .ok arr => bb.marshalArray fieldName arr

/-- The loop of the template `BSONObjBuilder::append(const char *, const vector< T >&)`;
`append` is the overload of `append(const char *, T)` that the call
`arrBuilder.append( numStr( i ).c_str(), vals[ i ] )` resolves to for `T`. -/
def appendVectorLoop {T : Type}
    (append : BSONObjBuilder → Mem → T → Except Fault BSONObjBuilder) :
    List T → Nat → BSONObjBuilder → Except Fault BSONObjBuilder
  | [], _, arrBuilder => .ok arrBuilder
  | v :: vals, i, arrBuilder =>
    match append arrBuilder (numStr (intOfUnsigned i)) v with
    | .error f => .error f
    | .ok b2 => appendVectorLoop append vals (i + 1) b2

/-- Source template `BSONObjBuilder::append(const char *fieldName, const vector< T >& vals)`. -/
def appendVector {T : Type} (append : BSONObjBuilder → Mem → T → Except Fault BSONObjBuilder)
    (bb : BSONObjBuilder) (fieldName : Mem) (vals : List T) : Except Fault BSONObjBuilder :=
  match appendVectorLoop append vals 0 BSONObjBuilder.new with
  | .error f => .error f
  | .ok arrBuilder =>
    match arrBuilder.done with
    | .error f => .error f
    | .ok arr => bb.marshalArray fieldName arr

/-- The call `append(name, v)` with an `int` argument `v`: among the overloads of `append`
(`BSONElement&`; `BSONObj`; `double`; `const char *`; `string`; `vector< T >`) only
`append(const char *, double)` accepts an `int`, which is converted to `double`. -/
def appendOfInt (bb : BSONObjBuilder) (fieldName : Mem) (v : Int) :
    Except Fault BSONObjBuilder :=
  .ok (bb.appendDouble fieldName (doubleOfInt v))

end BSONObjBuilder

/-! ## Successive calls of `next()` -/

/-- The result of `k` successive calls of `BSONObjIterator::next()`: the element each call
returns and the iterator after the call. A call whose assertion `pos < theend` fails is a
fault. -/
def BSONObjIterator.nexts :
    Nat → BSONObjIterator → Except Fault (List (BSONElement × BSONObjIterator))
  | 0, _ => .ok []
  | k + 1, it =>
    match it.next with
    | .error f => .error f
    | .ok (e, it2) =>
      match nexts k it2 with
      | .error f => .error f
      | .ok r => .ok ((e, it2) :: r)

/-! ## Comparison of documents -/

/-- Whether an operation returns (rather than fails). -/
def returns {α : Type} : Except Fault α → Bool
  | .ok _ => true
  | .error _ => false

/-- The order of two integers as a sign. -/
def cmpInt (a b : Int) : Int := if a < b then -1 else if b < a then 1 else 0

/-- The result of `memcmp(p, q, n)` as a sign; the `n` bytes must lie in the memory at both
pointers. -/
def memcmp (p q : Mem) (n : Int) : Except Fault Int :=
  if 0 ≤ n ∧ n ≤ (p.length : Int) ∧ n ≤ (q.length : Int) then
    .ok (cmpBytes (p.take n.toNat) (q.take n.toNat))
  else .error .outOfBounds

namespace BSONElement

/-- Source `BSONElement::boolean`: `*value() ? true : false`. -/
def boolean (e : BSONElement) : Except Fault Bool :=
  match e.value with
  | [] => .error .outOfBounds
  | b :: _ => .ok (b != 0)

/-- Source `BSONElement::date`: `*((unsigned long long*) value())`. -/
def date (e : BSONElement) : Except Fault Nat := readLong e.value

/-- Source `BSONElement::regex`: `value()`, for an element of kind `RegEx`. -/
def regex (e : BSONElement) : Except Fault Mem :=
  if e.type == BSONType.RegEx then .ok e.value else .error .assertion

/-- Source `BSONElement::regexFlags`: `p + strlen(p) + 1` for `p = regex()`. -/
def regexFlags (e : BSONElement) : Except Fault Mem :=
  match e.regex with
  | .error f => .error f
  | .ok p =>
    match strlen p with
    | .error f => .error f
    | .ok n => .ok (p.drop (n + 1))

/-- The sub-kind byte of a binary value `<int len> <byte subtype> <byte[len] data>`, as the
value of the `BinDataType` (which goes up to `bdtCustom=128` and above). -/
def binDataSubtype (e : BSONElement) : Except Fault Int :=
  match e.value.drop 4 with
  | [] => .error .outOfBounds
  | b :: _ => .ok (b.val : Int)

/-- Modelled from the spec: the body of `compareElementValues(l, r)`, only declared in
`jsobj.h` ("l and r MUST have same type when called"), the spec's `compareElements(l, r)`,
which "assumes matching kinds and compares values: numeric kinds by numeric value;
strings/symbols/code by byte content; documents/arrays recursively by the document ordering
rule below; binary by (length, then sub-kind, then bytes) lexicographic tuple; OID by byte
content; boolean false < true; dates by unsigned 64-bit value; regex by (pattern, then flags)
lexicographic". The document ordering rule, which calls this function in turn, is the
parameter `woCompare` here; the recursion is tied in `compareElementValuesAux`. Two numbers
compare as `l < r ? -1 : l == r ? 0 : 1` on their `double` values. Two elements of one kind
without value bytes (end marker, undefined, null, min key, max key) do not differ. The spec
gives no rule for a DBRef, for code with scope and for a kind byte outside the enumeration:
a failed assertion. The result is a sign. -/
def compareElementValuesBy (woCompare : BSONObj → BSONObj → Except Fault Int)
    (l r : BSONElement) : Except Fault Int :=
  let t := l.type
  if l.isNumber then
    match l.number, r.number with
    | .ok x, .ok y => .ok (if x.lt y then -1 else if x.eq y then 0 else 1)
    | .error f, _ => .error f
    | _, .error f => .error f
  else if t == BSONType.String || t == BSONType.Symbol || t == BSONType.Code then
    .ok (cmpBytes (cstr l.valuestr) (cstr r.valuestr))
  else if t == BSONType.Object || t == BSONType.Array then
    match l.embeddedObject, r.embeddedObject with
    | .ok lo, .ok ro => woCompare lo ro
    | .error f, _ => .error f
    | _, .error f => .error f
  else if t == BSONType.BinData then
    match l.binData, r.binData with
    | .ok (lp, llen), .ok (rp, rlen) =>
      if llen != rlen then .ok (cmpInt llen rlen)
      else
        match l.binDataSubtype, r.binDataSubtype with
        | .ok ls, .ok rs => if ls != rs then .ok (cmpInt ls rs) else memcmp lp rp llen
        | .error f, _ => .error f
        | _, .error f => .error f
    | .error f, _ => .error f
    | _, .error f => .error f
  else if t == BSONType.jstOID then memcmp l.value r.value 12
  else if t == BSONType.Bool then
    match l.boolean, r.boolean with
    | .ok x, .ok y => .ok (cmpInt (if x then 1 else 0) (if y then 1 else 0))
    | .error f, _ => .error f
    | _, .error f => .error f
  else if t == BSONType.Date then
    match l.date, r.date with
    | .ok x, .ok y => .ok (cmpInt (x : Int) (y : Int))
    | .error f, _ => .error f
    | _, .error f => .error f
  else if t == BSONType.RegEx then
    match l.regex, r.regex with
    | .ok lp, .ok rp =>
      if cmpBytes (cstr lp) (cstr rp) != 0 then .ok (cmpBytes (cstr lp) (cstr rp))
      else
        match l.regexFlags, r.regexFlags with
        | .ok lf, .ok rf => .ok (cmpBytes (cstr lf) (cstr rf))
        | .error f, _ => .error f
        | _, .error f => .error f
    | .error f, _ => .error f
    | _, .error f => .error f
  else if t == BSONType.EOO || t == BSONType.Undefined || t == BSONType.jstNULL
      || t == BSONType.MinKey || t == BSONType.MaxKey then .ok 0
  else .error .assertion

/-- Modelled from the spec: the body of `BSONElement::woCompare(e, considerFieldName)`, only
declared in `jsobj.h` (the spec's `compareElement`): "if `considerName` and names differ,
order by name (byte-wise); else if kinds differ, order by kind ordinal (sentinels
short-circuit to below/above all); else delegate to `compareElements`", the "kind difference
[being] ignored for numeric values specifically". The function delegated to is the parameter
`cev`: it is `compareElementValues` in `BSONElement.woCompare`, and the same function on less
fuel inside the recursion of `compareElementValuesAux`. The result is a sign. -/
def woCompareBy (cev : BSONElement → BSONElement → Except Fault Int) (l r : BSONElement)
    (considerFieldName : Bool) : Except Fault Int :=
  if considerFieldName && l.fieldName != r.fieldName then
    .ok (cmpBytes l.fieldName r.fieldName)
  else if l.orderingKind != r.orderingKind then
    .ok (if l.orderingKind < r.orderingKind then -1 else 1)
  else cev l r

end BSONElement

namespace BSONObj

/-- Modelled from the spec: whether the comparison at a position is to be flipped, from the
field of the order specification at that position ("flipping sign per field according to
`orderSpec`'s matching field sign when provided", the specification being one "whose top-level
field names line up positionally with the compared documents' own fields"; "fields not
present in `orderSpec` default to ascending"): the field is there and its number is
negative. -/
def descending : Option BSONElement → Except Fault Bool
  | none => .ok false
  | some o =>
    match o.number with
    | .error f => .error f
    | .ok d => .ok (d.lt (.finite 0))

/-- Modelled from the spec: the loop of `compareDocument` over the fields of the two documents
and of the order specification: "iterate both documents' elements in lock-step; for each
position, if either side is exhausted, the shorter document sorts first (fewer fields < more
fields) unless both are exhausted (equal); otherwise compare corresponding elements with
`compareElement`, flipping sign per field according to `orderSpec`'s matching field sign when
provided; the first non-zero result decides, else continue to the next field pair". -/
def woCompareLoop (cev : BSONElement → BSONElement → Except Fault Int)
    (considerFieldName : Bool) :
    List BSONElement → List BSONElement → List BSONElement → Except Fault Int
  | [], [], _ => .ok 0
  | [], _ :: _, _ => .ok (-1)
  | _ :: _, [], _ => .ok 1
  | l :: ls, r :: rs, os =>
    match l.woCompareBy cev r considerFieldName with
    | .error f => .error f
    | .ok x =>
      match descending os.head? with
      | .error f => .error f
      | .ok neg =>
        if (if neg then -x else x) != 0 then .ok (if neg then -x else x)
        else woCompareLoop cev considerFieldName ls rs os.tail

/-- The fields of a document: the elements iteration yields before the end marker. -/
def fields (o : BSONObj) : Except Fault (List BSONElement) :=
  match o.elements with
  | .error f => .error f
  | .ok es => .ok (es.takeWhile (fun e => !e.eoo))

/-- Modelled from the spec: the body of `BSONObj::woCompare(r, idxKey, considerFieldName)`,
only declared in `jsobj.h` (the spec's `compareDocument(l, r, orderSpec?, considerNames)`);
the comparison of the values of two elements is the parameter `cev`, as for
`BSONElement.woCompareBy`. The result is a sign. -/
def woCompareBy (cev : BSONElement → BSONElement → Except Fault Int) (l r idxKey : BSONObj)
    (considerFieldName : Bool) : Except Fault Int :=
  match l.fields, r.fields, idxKey.fields with
  | .ok ls, .ok rs, .ok os => woCompareLoop cev considerFieldName ls rs os
  | .error f, _, _ => .error f
  | _, .error f, _ => .error f
  | _, _, .error f => .error f

end BSONObj

/-- The recursion of `compareElementValues` through `BSONObj::woCompare` and
`BSONElement::woCompare`, on fuel: two nested documents are compared with the defaults of the
declaration of `BSONObj::woCompare` (`idxKey = BSONObj()`, `considerFieldName = true`), which
takes one unit of fuel. -/
def compareElementValuesAux : Nat → BSONElement → BSONElement → Except Fault Int
  | 0 => BSONElement.compareElementValuesBy (fun _ _ => .error .diverged)
  | fuel + 1 =>
    BSONElement.compareElementValuesBy
      (fun lo ro => lo.woCompareBy (compareElementValuesAux fuel) ro BSONObj.new true)

/-- Modelled from the spec: `compareElementValues(l, r)` (see `compareElementValuesBy`). The
fuel given is the length of the shorter of the two elements: a nested document lies in the
value bytes of its element, which bounds the depth of the nesting. -/
def compareElementValues (l r : BSONElement) : Except Fault Int :=
  compareElementValuesAux (min l.data.length r.data.length) l r

/-- Modelled from the spec: `BSONElement::woCompare(e, considerFieldName)` (see
`BSONElement.woCompareBy`). -/
def BSONElement.woCompare (l r : BSONElement) (considerFieldName : Bool) : Except Fault Int :=
  l.woCompareBy compareElementValues r considerFieldName

/-- Modelled from the spec: `BSONObj::woCompare(r, idxKey, considerFieldName)` (see
`BSONObj.woCompareBy`). -/
def BSONObj.woCompare (l r idxKey : BSONObj) (considerFieldName : Bool) : Except Fault Int :=
  l.woCompareBy compareElementValues r idxKey considerFieldName

namespace BSONElement

/-- The body of `comparableAux`; `nested` is the condition on a nested document. -/
def comparableBy (nested : BSONObj → Bool) (e : BSONElement) : Bool :=
  let t := e.type
  if e.isNumber then returns e.number
  else if t == BSONType.String || t == BSONType.Symbol || t == BSONType.Code then true
  else if t == BSONType.Object || t == BSONType.Array then
    match e.embeddedObject with
    | .ok o => nested o
    | .error _ => false
  else if t == BSONType.BinData then
    match e.binData with
    | .ok (p, len) => decide (0 ≤ len ∧ len ≤ (p.length : Int) ∧ 5 ≤ e.value.length)
    | .error _ => false
  else if t == BSONType.jstOID then decide (12 ≤ e.value.length)
  else if t == BSONType.Bool then decide (1 ≤ e.value.length)
  else if t == BSONType.Date then decide (8 ≤ e.value.length)
  else if t == BSONType.RegEx then returns e.regexFlags
  else t == BSONType.EOO || t == BSONType.Undefined || t == BSONType.jstNULL
      || t == BSONType.MinKey || t == BSONType.MaxKey

/-- The element can be compared: it is of a kind the spec gives a comparison rule for and the
bytes of its value that the rule reads lie in the modelled memory; so for the fields of a
nested document, which is nested at most `fuel` levels deep. -/
def comparableAux : Nat → BSONElement → Bool
  | 0 => comparableBy (fun _ => false)
  | fuel + 1 =>
    comparableBy (fun o =>
      match o.fields with
      | .ok fs => fs.all (comparableAux fuel)
      | .error _ => false)

end BSONElement

namespace BSONObj

end BSONObj

namespace AppendCall

/-- The call appends an element that holds no nested document and is of a kind the spec gives
a comparison rule for (not a DBRef, not code with scope). -/
def flat : AppendCall → Bool
  | object _ _ | array _ _ | codeWScope _ _ _ | dbRef _ _ _ => false
  | _ => true

/-- The call appends an element that can be compared: one without nested document, or a
document or array (of at most 16 MiB) that was itself built, as a well-formed document, with
well-formed calls of this sort. -/
inductive Comparable : AppendCall → Prop
  /-- A call for an element without nested document. -/
  | flat (c : AppendCall) (h : c.flat = true) : Comparable c
  /-- A call of `append(fieldName, BSONObj subObj)`. -/
  | object (n : Mem) (s : BSONObj) (calls : List AppendCall)
      (hwf : ∀ c ∈ calls, c.wellFormed) (hcmp : ∀ c ∈ calls, Comparable c)
      (hs : s.wellFormed (calls.map AppendCall.encode)) (hsz : s.objsize ≤ 16777216) :
      Comparable (.object n s)
  /-- A call of `appendArray(fieldName, subObj)`. -/
  | array (n : Mem) (s : BSONObj) (calls : List AppendCall)
      (hwf : ∀ c ∈ calls, c.wellFormed) (hcmp : ∀ c ∈ calls, Comparable c)
      (hs : s.wellFormed (calls.map AppendCall.encode)) (hsz : s.objsize ≤ 16777216) :
      Comparable (.array n s)

end AppendCall

/-! ## Strings, hashing, renamed copies -/

namespace BSONElement

/-- Source `BSONElement::valuestrsafe`: `type() == String ? valuestr() : ""`; the string
literal `""` is a pointer to a NUL byte. -/
def valuestrsafe (e : BSONElement) : Mem :=
  if e.type == BSONType.String then e.valuestr else [0]

/-- Source `BSONElement::str`: the `string` built from `valuestrsafe()`, as its characters. -/
def str (e : BSONElement) : Mem := cstr e.valuestrsafe

end BSONElement

/-- The conversion of a (signed) `char` to `unsigned` (32 bits): a negative value wraps
around. -/
def unsignedOfChar (b : Byte) : Nat :=
  if b.val < 128 then b.val else b.val + (4294967296 - 256)

namespace BSONObj

/-- One round of the loop of `BSONObj::hash`: `x = x * 131 + p[i]` in `unsigned` (32-bit
wrap-around) arithmetic. -/
def hashStep (x : Nat) (b : Byte) : Nat := (x * 131 + unsignedOfChar b) % 4294967296

/-- The loop of `BSONObj::hash` over the `n` bytes at `p`, from the accumulator `x`. -/
def hashLoop : Mem → Nat → Nat → Except Fault Nat
  | _, 0, x => .ok x
  | [], _ + 1, _ => .error .outOfBounds
  | b :: p, n + 1, x => hashLoop p n (hashStep x b)

/-- Source `BSONObj::hash`: `(x & 0x7fffffff) | 0x8000000` of the accumulator. -/
def hash (o : BSONObj) : Except Fault Int :=
  match o.objdata with
  | .error f => .error f
  | .ok p =>
    match hashLoop p o.objsize.toNat 0 with
    | .error f => .error f
    | .ok x => .ok (((x &&& 0x7fffffff) ||| 0x8000000 : Nat) : Int)

end BSONObj

/-- Source `BSONObjBuilder::appendAs(const BSONElement& e, const char *as)`. -/
def BSONObjBuilder.appendAs (bb : BSONObjBuilder) (e : BSONElement) (as : Mem) :
    Except Fault BSONObjBuilder :=
  match e.valuesize with
  | .error f => .error f
  | .ok n =>
    match ((bb.b.appendChar (charOf e.type)).appendStr as).appendBuf e.value n with
    | .error f => .error f
    | .ok b => .ok ⟨b⟩

/-- The same call with another field name. -/
def AppendCall.rename (as : Mem) : AppendCall → AppendCall
  | .double _ n => .double as n
  | .int _ n => .int as n
  | .bool _ val => .bool as val
  | .date _ dt => .date as dt
  | .string _ s => .string as s
  | .code _ s => .code as s
  | .symbol _ s => .symbol as s
  | .object _ o => .object as o
  | .array _ o => .array as o
  | .oid _ o => .oid as o
  | .regex _ re options => .regex as re options
  | .binData _ len type data => .binData as len type data
  | .binDataArray _ data len => .binDataArray as data len
  | .codeWScope _ c scope => .codeWScope as c scope
  | .null _ => .null as
  | .minKey _ => .minKey as
  | .maxKey _ => .maxKey as
  | .dbRef _ ns o => .dbRef as ns o

end mongo

namespace mongo

/-! ## Machine-level lemmas -/

theorem byteOf_val (n : Nat) : (byteOf n).val = n % 256 := rfl

theorem le32_length (n : Int) : (le32 n).length = 4 := rfl

theorem le64_length (n : Nat) : (le64 n).length = 8 := rfl

theorem readInt_le32 (n : Int) (rest : Mem) (h1 : -2147483648 ≤ n) (h2 : n < 2147483648) :
    readInt (le32 n ++ rest) = .ok n := by
  simp only [le32, readInt, List.cons_append, List.nil_append, byteOf_val]
  congr 1
  split <;> omega

theorem readInt_append (m rest : Mem) (n : Int) (h : readInt m = .ok n) :
    readInt (m ++ rest) = .ok n := by
  match m, h with
  | b0 :: b1 :: b2 :: b3 :: tl, h => simpa [readInt] using h

theorem readInt_take (m : Mem) (n : Int) (k : Nat) (hk : 4 ≤ k) (h : readInt m = .ok n) :
    readInt (m.take k) = .ok n := by
  match m, h with
  | b0 :: b1 :: b2 :: b3 :: tl, h =>
    obtain ⟨j, rfl⟩ : ∃ j, k = j + 4 := ⟨k - 4, by omega⟩
    simpa [readInt, List.take] using h

theorem strlen_append (s rest : Mem) (h : (0 : Byte) ∉ s) :
    strlen (s ++ 0 :: rest) = .ok s.length := by
  induction s with
  | nil => simp [strlen]
  | cons b tl ih =>
    have hb : b ≠ 0 := fun hb => h (by simp [hb])
    have htl : (0 : Byte) ∉ tl := fun ht => h (by simp [ht])
    simp [strlen, hb, ih htl]

theorem cstr_append (s rest : Mem) (h : (0 : Byte) ∉ s) : cstr (s ++ 0 :: rest) = s := by
  induction s with
  | nil => simp [cstr]
  | cons b tl ih =>
    have hb : b ≠ 0 := fun hb => h (by simp [hb])
    have htl : (0 : Byte) ∉ tl := fun ht => h (by simp [ht])
    have ih2 := ih htl
    simp only [cstr] at ih2 ⊢
    simp only [List.cons_append, List.takeWhile, ne_eq, hb, not_false_eq_true, decide_True]
    exact congrArg (List.cons b) ih2

/-! ## Iteration over a well-formed buffer -/

theorem BSONElement.ofData_data (m : Mem) (maxLen : Int) (e : BSONElement)
    (h : BSONElement.ofData m maxLen = .ok e) : e.data = m := by
  unfold BSONElement.ofData at h
  split at h
  · cases h
  · split at h
    · cases h; rfl
    · split at h
      · split at h
        · cases h
        · split at h
          · cases h; rfl
          · cases h
      · split at h
        · cases h
        · cases h; rfl

theorem BSONElement.ofData_eoo (tl : Mem) :
    BSONElement.ofData (0 :: tl) = .ok ⟨0 :: tl, 0⟩ := by
  simp [BSONElement.ofData, charToInt]

theorem BSONElement.size_eoo (tl : Mem) : (BSONElement.mk (0 :: tl) 0).size = .ok 1 := by
  simp [BSONElement.size, BSONElement.valueLength, BSONElement.type, charToInt]

theorem BSONObjIterator.elementsLoop_done (fuel : Nat) (it : BSONObjIterator)
    (h : it.more = false) : BSONObjIterator.elementsLoop fuel it = .ok [] := by
  cases fuel <;> simp [BSONObjIterator.elementsLoop, h]

theorem BSONObjIterator.next_at (pre m : Mem) (theend : Int) (e : BSONElement) (sz : Int)
    (hlt : (pre.length : Int) < theend) (he : BSONElement.ofData m = .ok e)
    (hsz : e.size = .ok sz) :
    (BSONObjIterator.mk (pre ++ m) (pre.length : Int) theend).next
      = .ok (e, ⟨pre ++ m, (pre.length : Int) + sz, theend⟩) := by
  have hat : (BSONObjIterator.mk (pre ++ m) (pre.length : Int) theend).atPos = .ok m := by
    simp [BSONObjIterator.atPos]
  simp only [BSONObjIterator.next, hat, hlt, not_true_eq_false, if_false, Bool.false_eq_true,
    he, hsz]

theorem BSONObjIterator.elementsLoop_fields (fields : List Mem)
    (hf : ∀ enc ∈ fields, IsField enc) (tl : Mem) :
    ∀ (pre : Mem) (fuel : Nat), fields.length + 1 ≤ fuel →
      ∃ es, BSONObjIterator.elementsLoop fuel
          ⟨pre ++ (fields.flatten ++ 0 :: tl), pre.length,
            (pre.length : Int) + (fields.flatten.length : Int) + 1⟩ = .ok es
        ∧ List.Forall₂ (fun e m => BSONElement.ofData m = .ok e) es (starts fields (0 :: tl)) := by
  induction fields with
  | nil =>
    intro pre fuel hfuel
    obtain ⟨k, rfl⟩ : ∃ k, fuel = k + 1 := ⟨fuel - 1, by omega⟩
    refine ⟨[⟨0 :: tl, 0⟩], ?_, ?_⟩
    · have hmore : (BSONObjIterator.mk (pre ++ 0 :: tl) ((pre.length : Int) + 1)
          ((pre.length : Int) + 0 + 1)).more = false := by
        simp [BSONObjIterator.more]
      have hmore0 : (BSONObjIterator.mk (pre ++ 0 :: tl) (pre.length : Int)
          ((pre.length : Int) + 0 + 1)).more = true := by
        simp [BSONObjIterator.more]
      have hnext := BSONObjIterator.next_at pre (0 :: tl) ((pre.length : Int) + 0 + 1) _ 1
        (by omega) (BSONElement.ofData_eoo tl) (BSONElement.size_eoo tl)
      simp only [List.flatten_nil, List.nil_append, List.length_nil, Nat.cast_zero]
      rw [BSONObjIterator.elementsLoop, hmore0]
      simp only [if_true, hnext, BSONObjIterator.elementsLoop_done _ _ hmore]
    · simp [starts, BSONElement.ofData_eoo]
  | cons f fs ih =>
    intro pre fuel hfuel
    obtain ⟨k, rfl⟩ : ∃ k, fuel = k + 1 := ⟨fuel - 1, by omega⟩
    obtain ⟨e, he, -, hsz⟩ := hf f (by simp) (fs.flatten ++ 0 :: tl)
    obtain ⟨es, hes, hall⟩ := ih (fun enc henc => hf enc (by simp [henc])) (pre ++ f) k
      (by simp only [List.length_cons] at hfuel; omega)
    refine ⟨e :: es, ?_, ?_⟩
    · have hfl : (f :: fs).flatten = f ++ fs.flatten := List.flatten_cons
      rw [hfl]
      have hlen : ((f ++ fs.flatten).length : Int)
          = (f.length : Int) + (fs.flatten.length : Int) := by
        rw [List.length_append]; push_cast; rfl
      have hbuf : pre ++ ((f ++ fs.flatten) ++ 0 :: tl)
          = pre ++ (f ++ (fs.flatten ++ 0 :: tl)) := by
        rw [List.append_assoc]
      have hpos : (pre.length : Int) + (f.length : Int) = ((pre ++ f).length : Int) := by
        rw [List.length_append]; push_cast; rfl
      have hend : (pre.length : Int) + ((f ++ fs.flatten).length : Int) + 1
          = ((pre ++ f).length : Int) + (fs.flatten.length : Int) + 1 := by
        rw [hlen, ← hpos]; omega
      have hnext := BSONObjIterator.next_at pre (f ++ (fs.flatten ++ 0 :: tl))
        ((pre.length : Int) + ((f ++ fs.flatten).length : Int) + 1) e (f.length : Int)
        (by omega) he hsz
      have hmore : (BSONObjIterator.mk (pre ++ (f ++ (fs.flatten ++ 0 :: tl)))
          (pre.length : Int) ((pre.length : Int) + ((f ++ fs.flatten).length : Int) + 1)).more
            = true := by
        simp only [BSONObjIterator.more, decide_eq_true_eq]; omega
      rw [hbuf, BSONObjIterator.elementsLoop, hmore]
      simp only [if_true, hnext]
      have hbuf2 : pre ++ (f ++ (fs.flatten ++ 0 :: tl))
          = (pre ++ f) ++ (fs.flatten ++ 0 :: tl) := by
        rw [List.append_assoc]
      rw [hbuf2, hpos, hend, hes]
    · simp only [starts]
      exact List.Forall₂.cons he hall

/-! ## What an append call writes, and how it is read back -/

theorem AppendCall.charToInt_kind (c : AppendCall) : charToInt (charOf c.kind) = c.kind := by
  cases c <;> simp only [AppendCall.kind] <;> decide

theorem BSONElement.ofData_field (k : Byte) (name v : Mem) (hk : charToInt k ≠ 0)
    (hname : (0 : Byte) ∉ name) :
    BSONElement.ofData (k :: (name ++ 0 :: v))
      = .ok ⟨k :: (name ++ 0 :: v), (name.length : Int) + 1⟩ := by
  simp [BSONElement.ofData, hk, strlen_append name v hname]

theorem BSONElement.value_field (k : Byte) (name v : Mem) :
    (BSONElement.mk (k :: (name ++ 0 :: v)) ((name.length : Int) + 1)).value = v := by
  have h : ((name.length : Int) + 1 + 1).toNat = name.length + 1 + 1 := by omega
  simp only [BSONElement.value, h, List.drop_succ_cons]
  rw [show name ++ 0 :: v = (name ++ [0]) ++ v by simp]
  exact List.drop_left' (by simp)

theorem BSONElement.fieldName_field (k : Byte) (name v : Mem) (hk : charToInt k ≠ 0)
    (hname : (0 : Byte) ∉ name) :
    (BSONElement.mk (k :: (name ++ 0 :: v)) ((name.length : Int) + 1)).fieldName = name := by
  simp [BSONElement.fieldName, BSONElement.eoo, BSONElement.type, hk, cstr_append name v hname]

theorem BSONObj.bytes_length (o : BSONObj) (h : o.embeddable) :
    (o.bytes.length : Int) = o.objsize := by
  obtain ⟨_ | d⟩ := o
  · exact absurd h (by simp [BSONObj.embeddable])
  · obtain ⟨-, h4, hle⟩ := h
    simp only [BSONObj.bytes, BSONObj.objsize, List.length_take]
    omega

theorem BSONObj.readInt_bytes (o : BSONObj) (h : o.embeddable) (rest : Mem) :
    readInt (o.bytes ++ rest) = .ok o.objsize := by
  obtain ⟨_ | d⟩ := o
  · exact absurd h (by simp [BSONObj.embeddable])
  · obtain ⟨hr, h4, hle⟩ := h
    exact readInt_append _ _ _ (readInt_take _ _ _ (by omega) hr)

theorem BSONElement.type_field (k : Byte) (d : Mem) (n : Int) :
    (BSONElement.mk (k :: d) n).type = charToInt k := rfl

theorem BSONElement.regexSize_unbounded (re options rest : Mem) (remain : Int)
    (h1 : (0 : Byte) ∉ re) (h2 : (0 : Byte) ∉ options) :
    BSONElement.regexSize (re ++ [0] ++ options ++ [0] ++ rest) false remain
      = .ok ((re.length : Int) + 1 + (options.length : Int) + 1) := by
  have e1 : re ++ [0] ++ options ++ [0] ++ rest = re ++ 0 :: (options ++ 0 :: rest) := by simp
  have e2 : (re ++ 0 :: (options ++ 0 :: rest)).drop (re.length + 1) = options ++ 0 :: rest := by
    rw [show re ++ 0 :: (options ++ 0 :: rest) = (re ++ [0]) ++ (options ++ 0 :: rest) by simp]
    exact List.drop_left' (by simp)
  rw [e1]
  simp only [BSONElement.regexSize, Bool.false_eq_true, if_false, strlen_append re _ h1, e2,
    strlen_append options _ h2]

theorem readInt_le32_append (n : Int) (rest : Mem) (h1 : 0 ≤ n)
    (h2 : n < 2147483648) (m : Mem) (hm : m = le32 n ++ rest) : readInt m = .ok n := by
  subst hm
  exact readInt_le32 n rest (by omega) h2

theorem AppendCall.valueLength_encode (c : AppendCall) (hwf : c.wellFormed)
    (hlen : (c.valueBytes.length : Int) < 2147483648) (rest : Mem) :
    (BSONElement.mk (charOf c.kind :: (c.fieldName ++ 0 :: (c.valueBytes ++ rest)))
      ((c.fieldName.length : Int) + 1)).valueLength = .ok (c.valueBytes.length : Int) := by
  have hv := BSONElement.value_field (charOf c.kind) c.fieldName (c.valueBytes ++ rest)
  have ht := BSONElement.type_field (charOf c.kind) (c.fieldName ++ 0 :: (c.valueBytes ++ rest))
    ((c.fieldName.length : Int) + 1)
  rw [c.charToInt_kind] at ht
  unfold BSONElement.valueLength
  simp only [ht, BSONElement.valuestrsize, BSONElement.objsize, hv]
  cases c with
  | double n x => simp [AppendCall.kind, AppendCall.valueBytes, le64_length]
  | int n x => simp [AppendCall.kind, AppendCall.valueBytes, le32_length]
  | bool n x => simp [AppendCall.kind, AppendCall.valueBytes]
  | date n x => simp [AppendCall.kind, AppendCall.valueBytes, le64_length]
  | string n x =>
    simp only [AppendCall.valueBytes, List.length_append, le32_length, List.length_singleton,
      Nat.cast_add, Nat.cast_ofNat, Nat.cast_one] at hlen
    have hr := readInt_le32_append ((x.length : Int) + 1) (x ++ [0] ++ rest) (by omega)
      (by omega) (le32 ((x.length : Int) + 1) ++ x ++ [0] ++ rest) (by simp)
    simp only [AppendCall.kind, AppendCall.valueBytes, hr]
    simp [le32_length]; omega
  | code n x =>
    simp only [AppendCall.valueBytes, List.length_append, le32_length, List.length_singleton,
      Nat.cast_add, Nat.cast_ofNat, Nat.cast_one] at hlen
    have hr := readInt_le32_append ((x.length : Int) + 1) (x ++ [0] ++ rest) (by omega)
      (by omega) (le32 ((x.length : Int) + 1) ++ x ++ [0] ++ rest) (by simp)
    simp only [AppendCall.kind, AppendCall.valueBytes, hr]
    simp [le32_length]; omega
  | symbol n x =>
    simp only [AppendCall.valueBytes, List.length_append, le32_length, List.length_singleton,
      Nat.cast_add, Nat.cast_ofNat, Nat.cast_one] at hlen
    have hr := readInt_le32_append ((x.length : Int) + 1) (x ++ [0] ++ rest) (by omega)
      (by omega) (le32 ((x.length : Int) + 1) ++ x ++ [0] ++ rest) (by simp)
    simp only [AppendCall.kind, AppendCall.valueBytes, hr]
    simp [le32_length]; omega
  | object n o =>
    simp only [AppendCall.kind, AppendCall.valueBytes, o.readInt_bytes hwf.2 rest,
      o.bytes_length hwf.2]
    simp
  | array n o =>
    simp only [AppendCall.kind, AppendCall.valueBytes, o.readInt_bytes hwf.2 rest,
      o.bytes_length hwf.2]
    simp
  | oid n o =>
    cases o with
    | none => simp [AppendCall.kind, AppendCall.valueBytes]
    | some o => simp [AppendCall.kind, AppendCall.valueBytes, o.h]
  | regex n re op =>
    simp [AppendCall.kind, AppendCall.valueBytes]
    rw [show re ++ 0 :: (op ++ 0 :: rest) = re ++ [0] ++ op ++ [0] ++ rest by simp,
      BSONElement.regexSize_unbounded re op rest _ hwf.2.1 hwf.2.2]
    congr 1
    omega
  | binData n len t d =>
    obtain ⟨-, h0, hle⟩ := hwf
    have hr := readInt_le32_append len ([charOf t] ++ d.take len.toNat ++ rest) h0
      (by simp only [AppendCall.valueBytes, List.length_append, le32_length,
            List.length_singleton, List.length_take, Nat.cast_add, Nat.cast_ofNat,
            Nat.cast_one] at hlen
          omega)
      (le32 len ++ [charOf t] ++ d.take len.toNat ++ rest) (by simp)
    simp only [AppendCall.kind, AppendCall.valueBytes, hr]
    simp [le32_length]; omega
  | binDataArray n d len =>
    obtain ⟨-, h0, hle⟩ := hwf
    have hr := readInt_le32_append (len + 4) ([2] ++ le32 len ++ d.take len.toNat ++ rest)
      (by omega)
      (by simp only [AppendCall.valueBytes, List.length_append, le32_length,
            List.length_singleton, List.length_take, Nat.cast_add, Nat.cast_ofNat,
            Nat.cast_one] at hlen
          omega)
      (le32 (len + 4) ++ [2] ++ le32 len ++ d.take len.toNat ++ rest) (by simp)
    simp only [AppendCall.kind, AppendCall.valueBytes, hr]
    simp [le32_length]; omega
  | codeWScope n c o =>
    obtain ⟨-, -, ho⟩ := hwf
    have hb := o.bytes_length ho
    simp only [AppendCall.valueBytes, List.length_append, le32_length, List.length_singleton,
      Nat.cast_add, Nat.cast_ofNat, Nat.cast_one] at hlen
    have hr := readInt_le32_append (4 + 4 + (c.length : Int) + 1 + o.objsize)
      (le32 ((c.length : Int) + 1) ++ c ++ [0] ++ o.bytes ++ rest) (by omega) (by omega)
      (le32 (4 + 4 + (c.length : Int) + 1 + o.objsize) ++ le32 ((c.length : Int) + 1) ++ c
        ++ [0] ++ o.bytes ++ rest) (by simp)
    simp only [AppendCall.kind, AppendCall.valueBytes, hr]
    simp [le32_length]; omega
  | null n => simp [AppendCall.kind, AppendCall.valueBytes]
  | minKey n => simp [AppendCall.kind, AppendCall.valueBytes]
  | maxKey n => simp [AppendCall.kind, AppendCall.valueBytes]
  | dbRef n ns o =>
    simp only [AppendCall.valueBytes, List.length_append, le32_length, List.length_singleton,
      Nat.cast_add, Nat.cast_ofNat, Nat.cast_one, o.h] at hlen
    have hr := readInt_le32_append ((ns.length : Int) + 1) (ns ++ [0] ++ o.data ++ rest)
      (by omega) (by omega) (le32 ((ns.length : Int) + 1) ++ ns ++ [0] ++ o.data ++ rest)
      (by simp)
    simp only [AppendCall.kind, AppendCall.valueBytes, hr]
    simp [le32_length, o.h]; omega

theorem AppendCall.wellFormed_name (c : AppendCall) (hwf : c.wellFormed) :
    (0 : Byte) ∉ c.fieldName := by
  cases c <;> simp only [AppendCall.wellFormed] at hwf <;> first | exact hwf | exact hwf.1

theorem AppendCall.kind_ne_eoo (c : AppendCall) : charToInt (charOf c.kind) ≠ 0 := by
  rw [c.charToInt_kind]
  cases c <;> simp [AppendCall.kind]

theorem AppendCall.encode_length (c : AppendCall) :
    (c.encode.length : Int) = (c.valueBytes.length : Int) + ((c.fieldName.length : Int) + 1) + 1 := by
  simp only [AppendCall.encode, List.length_cons, List.length_append]
  push_cast
  omega

theorem AppendCall.decode_encode (c : AppendCall) (hwf : c.wellFormed)
    (hlen : (c.encode.length : Int) < 2147483648) (rest : Mem) :
    ∃ e, BSONElement.ofData (c.encode ++ rest) = .ok e ∧ e.eoo = false
      ∧ e.size = .ok (c.encode.length : Int) ∧ e.view = .ok c.expected := by
  have hname := c.wellFormed_name hwf
  have hk := c.kind_ne_eoo
  have hlen2 := c.encode_length
  have hdata : c.encode ++ rest
      = charOf c.kind :: (c.fieldName ++ 0 :: (c.valueBytes ++ rest)) := by
    simp [AppendCall.encode]
  have hof := BSONElement.ofData_field (charOf c.kind) c.fieldName (c.valueBytes ++ rest) hk hname
  have hvl := c.valueLength_encode hwf (by omega) rest
  have hv := BSONElement.value_field (charOf c.kind) c.fieldName (c.valueBytes ++ rest)
  have hfn := BSONElement.fieldName_field (charOf c.kind) c.fieldName (c.valueBytes ++ rest) hk
    hname
  have hty := BSONElement.type_field (charOf c.kind)
    (c.fieldName ++ 0 :: (c.valueBytes ++ rest)) ((c.fieldName.length : Int) + 1)
  rw [c.charToInt_kind] at hty
  have hsize : (BSONElement.mk (charOf c.kind :: (c.fieldName ++ 0 :: (c.valueBytes ++ rest)))
      ((c.fieldName.length : Int) + 1)).size = .ok (c.encode.length : Int) := by
    simp only [BSONElement.size, hvl, hlen2]
  refine ⟨_, hdata ▸ hof, ?_, hsize, ?_⟩
  · simp only [BSONElement.eoo, hty]
    have := c.charToInt_kind ▸ hk
    simpa using this
  · have htake : (c.valueBytes ++ rest).take c.valueBytes.length = c.valueBytes :=
      List.take_left' rfl
    have hvs : (BSONElement.mk (charOf c.kind :: (c.fieldName ++ 0 :: (c.valueBytes ++ rest)))
        ((c.fieldName.length : Int) + 1)).valuesize = .ok (c.valueBytes.length : Int) := by
      simp only [BSONElement.valuesize, hsize, hlen2]
      congr 1
      omega
    simp only [BSONElement.view, BSONElement.valueBytes, hvs, hv, hfn, hty,
      AppendCall.expected, List.length_append, Int.toNat_ofNat, htake]
    simp

theorem BufBuilder.appendBuf_take (b : BufBuilder) (src : Mem) (len : Int) (h0 : 0 ≤ len)
    (h1 : len ≤ (src.length : Int)) :
    b.appendBuf src len = .ok ⟨b.data ++ src.take len.toNat⟩ := by
  simp [BufBuilder.appendBuf, h0, h1]

theorem BufBuilder.appendBuf_obj (b : BufBuilder) (o : BSONObj) (h : o.embeddable) :
    ∃ p, o.objdata = .ok p ∧ b.appendBuf p o.objsize = .ok ⟨b.data ++ o.bytes⟩ := by
  obtain ⟨_ | d⟩ := o
  · exact absurd h (by simp [BSONObj.embeddable])
  · obtain ⟨-, h4, hle⟩ := h
    exact ⟨d._objdata, rfl, BufBuilder.appendBuf_take b _ _ (by simp [BSONObj.objsize]; omega)
      (by simpa [BSONObj.objsize] using hle)⟩

theorem AppendCall.run_encode (c : AppendCall) (hwf : c.wellFormed) (bb : BSONObjBuilder) :
    c.run bb = .ok ⟨⟨bb.b.data ++ c.encode⟩⟩ := by
  cases c with
  | double n x =>
    simp [AppendCall.run, AppendCall.encode, AppendCall.kind, AppendCall.fieldName,
      AppendCall.valueBytes, BSONObjBuilder.appendDouble, BSONObjBuilder.header,
      BufBuilder.appendChar, BufBuilder.appendStr, BufBuilder.appendLong]
  | int n x =>
    simp [AppendCall.run, AppendCall.encode, AppendCall.kind, AppendCall.fieldName,
      AppendCall.valueBytes, BSONObjBuilder.appendInt, BSONObjBuilder.header,
      BufBuilder.appendChar, BufBuilder.appendStr, BufBuilder.appendInt]
  | bool n x =>
    by_cases hx : x = 0 <;>
    simp [AppendCall.run, AppendCall.encode, AppendCall.kind, AppendCall.fieldName,
      AppendCall.valueBytes, BSONObjBuilder.appendBool, BSONObjBuilder.header,
      BufBuilder.appendChar, BufBuilder.appendStr, hx] <;> decide
  | date n x =>
    simp [AppendCall.run, AppendCall.encode, AppendCall.kind, AppendCall.fieldName,
      AppendCall.valueBytes, BSONObjBuilder.appendDate, BSONObjBuilder.header,
      BufBuilder.appendChar, BufBuilder.appendStr, BufBuilder.appendLong]
  | string n x =>
    simp [AppendCall.run, AppendCall.encode, AppendCall.kind, AppendCall.fieldName,
      AppendCall.valueBytes, BSONObjBuilder.appendString, BSONObjBuilder.header,
      BufBuilder.appendChar, BufBuilder.appendStr, BufBuilder.appendInt]
  | code n x =>
    simp [AppendCall.run, AppendCall.encode, AppendCall.kind, AppendCall.fieldName,
      AppendCall.valueBytes, BSONObjBuilder.appendCode, BSONObjBuilder.header,
      BufBuilder.appendChar, BufBuilder.appendStr, BufBuilder.appendInt]
  | symbol n x =>
    simp [AppendCall.run, AppendCall.encode, AppendCall.kind, AppendCall.fieldName,
      AppendCall.valueBytes, BSONObjBuilder.appendSymbol, BSONObjBuilder.header,
      BufBuilder.appendChar, BufBuilder.appendStr, BufBuilder.appendInt]
  | object n o =>
    obtain ⟨p, hp, hb⟩ := BufBuilder.appendBuf_obj (bb.header BSONType.Object n) o hwf.2
    simp only [AppendCall.run, BSONObjBuilder.appendObject, hp, hb]
    simp [AppendCall.encode, AppendCall.kind, AppendCall.fieldName,
      AppendCall.valueBytes, BSONObjBuilder.header, BufBuilder.appendChar, BufBuilder.appendStr]
  | array n o =>
    obtain ⟨p, hp, hb⟩ := BufBuilder.appendBuf_obj (bb.header BSONType.Array n) o hwf.2
    simp only [AppendCall.run, BSONObjBuilder.appendArray, hp, hb]
    simp [AppendCall.encode, AppendCall.kind, AppendCall.fieldName,
      AppendCall.valueBytes, BSONObjBuilder.header, BufBuilder.appendChar, BufBuilder.appendStr]
  | oid n o =>
    cases o with
    | none =>
      simp [AppendCall.run, AppendCall.encode, AppendCall.kind, AppendCall.fieldName,
        AppendCall.valueBytes, BSONObjBuilder.appendOID, BSONObjBuilder.header,
        BufBuilder.appendChar, BufBuilder.appendStr, BufBuilder.appendBuf, OID.zero]
    | some o =>
      have ht : o.data.take 12 = o.data := List.take_of_length_le (by rw [o.h])
      simp [AppendCall.run, AppendCall.encode, AppendCall.kind, AppendCall.fieldName,
        AppendCall.valueBytes, BSONObjBuilder.appendOID, BSONObjBuilder.header,
        BufBuilder.appendChar, BufBuilder.appendStr, BufBuilder.appendBuf, o.h, ht]
  | regex n re op =>
    simp [AppendCall.run, AppendCall.encode, AppendCall.kind, AppendCall.fieldName,
      AppendCall.valueBytes, BSONObjBuilder.appendRegex, BSONObjBuilder.header,
      BufBuilder.appendChar, BufBuilder.appendStr]
  | binData n len t d =>
    obtain ⟨-, h0, hle⟩ := hwf
    simp [AppendCall.run, AppendCall.encode, AppendCall.kind, AppendCall.fieldName,
      AppendCall.valueBytes, BSONObjBuilder.appendBinData, BSONObjBuilder.header,
      BufBuilder.appendChar, BufBuilder.appendStr, BufBuilder.appendInt,
      BufBuilder.appendBuf, h0, hle]
  | binDataArray n d len =>
    obtain ⟨-, h0, hle⟩ := hwf
    simp [AppendCall.run, AppendCall.encode, AppendCall.kind, AppendCall.fieldName,
      AppendCall.valueBytes, BSONObjBuilder.appendBinDataArray, BSONObjBuilder.header,
      BufBuilder.appendChar, BufBuilder.appendStr, BufBuilder.appendInt,
      BufBuilder.appendBuf, h0, hle]
    decide
  | codeWScope n c o =>
    obtain ⟨p, hp, hb⟩ := BufBuilder.appendBuf_obj
      ((((bb.header BSONType.CodeWScope n).appendInt
        (4 + 4 + (c.length : Int) + 1 + o.objsize)).appendInt
        ((c.length : Int) + 1)).appendStr c) o hwf.2.2
    simp only [AppendCall.run, BSONObjBuilder.appendCodeWScope, hp, hb]
    simp [AppendCall.encode, AppendCall.kind, AppendCall.fieldName,
      AppendCall.valueBytes, BSONObjBuilder.header, BufBuilder.appendChar, BufBuilder.appendStr,
      BufBuilder.appendInt]
  | null n =>
    simp [AppendCall.run, AppendCall.encode, AppendCall.kind, AppendCall.fieldName,
      AppendCall.valueBytes, BSONObjBuilder.appendNull, BSONObjBuilder.header,
      BufBuilder.appendChar, BufBuilder.appendStr]
  | minKey n =>
    simp [AppendCall.run, AppendCall.encode, AppendCall.kind, AppendCall.fieldName,
      AppendCall.valueBytes, BSONObjBuilder.appendMinKey, BSONObjBuilder.header,
      BufBuilder.appendChar, BufBuilder.appendStr]
  | maxKey n =>
    simp [AppendCall.run, AppendCall.encode, AppendCall.kind, AppendCall.fieldName,
      AppendCall.valueBytes, BSONObjBuilder.appendMaxKey, BSONObjBuilder.header,
      BufBuilder.appendChar, BufBuilder.appendStr]
  | dbRef n ns o =>
    have ht : o.data.take 12 = o.data := List.take_of_length_le (by rw [o.h])
    simp [AppendCall.run, AppendCall.encode, AppendCall.kind, AppendCall.fieldName,
      AppendCall.valueBytes, BSONObjBuilder.appendDBRef, BSONObjBuilder.header,
      BufBuilder.appendChar, BufBuilder.appendStr, BufBuilder.appendInt,
      BufBuilder.appendBuf, o.h, ht]

theorem AppendCall.runAll_encode (calls : List AppendCall) (hwf : ∀ c ∈ calls, c.wellFormed) :
    ∀ bb : BSONObjBuilder, AppendCall.runAll calls bb
      = .ok ⟨⟨bb.b.data ++ (calls.map AppendCall.encode).flatten⟩⟩ := by
  induction calls with
  | nil => intro bb; simp [AppendCall.runAll]
  | cons c cs ih =>
    intro bb
    have h1 := c.run_encode (hwf c (by simp)) bb
    have h2 := ih (fun x hx => hwf x (by simp [hx])) ⟨⟨bb.b.data ++ c.encode⟩⟩
    simp only [AppendCall.runAll, h1, h2, List.map_cons, List.flatten_cons, List.append_assoc]

theorem IsField.ne_nil (enc : Mem) (h : IsField enc) : 1 ≤ enc.length := by
  obtain ⟨e, he, -, -⟩ := h []
  cases enc with
  | nil => simp [BSONElement.ofData] at he
  | cons b tl => simp

theorem IsField.length_le_flatten (fields : List Mem) (h : ∀ enc ∈ fields, IsField enc) :
    fields.length ≤ fields.flatten.length := by
  induction fields with
  | nil => simp
  | cons f fs ih =>
    have h1 := IsField.ne_nil f (h f (by simp))
    have h2 := ih (fun x hx => h x (by simp [hx]))
    simp only [List.length_cons, List.flatten_cons, List.length_append]
    omega

theorem BSONObj.elements_wellFormed (o : BSONObj) (fields : List Mem)
    (h : o.wellFormed fields) :
    ∃ tl es p, o.objdata = .ok p ∧ p.drop 4 = fields.flatten ++ 0 :: tl ∧ o.elements = .ok es
      ∧ List.Forall₂ (fun e m => BSONElement.ofData m = .ok e) es (starts fields (0 :: tl)) := by
  obtain ⟨_ | d⟩ := o
  · exact absurd h (by simp [BSONObj.wellFormed])
  · obtain ⟨hf, -, hsz, tl, hbuf⟩ := h
    have hlen := IsField.length_le_flatten fields hf
    have h4 : (d._objdata.take 4).length = 4 := by
      have : 4 ≤ d._objdata.length := by
        rw [hbuf, List.length_append, List.length_take]
        by_contra hc
        have h5 : d._objdata.length < 4 := by omega
        have h6 := congrArg List.length hbuf
        simp only [List.length_append, List.length_take, List.length_cons] at h6
        omega
      simp [List.length_take, this]
    obtain ⟨es, hes, hall⟩ := BSONObjIterator.elementsLoop_fields fields hf tl
      (d._objdata.take 4) d._objsize.toNat (by omega)
    have hdrop : d._objdata.drop 4 = fields.flatten ++ 0 :: tl := by
      conv_lhs => rw [hbuf]
      exact List.drop_left' h4
    refine ⟨tl, es, d._objdata, rfl, hdrop, ?_, hall⟩
    have hne : (d._objsize == 0) = false := by
      simp only [beq_eq_false_iff_ne, ne_eq]; omega
    rw [← hbuf, h4] at hes
    simp only [BSONObj.elements, BSONObjIterator.ofObj, BSONObj.objsize, hne, BSONObj.objdata,
      BSONObj.scanFuel, Bool.false_eq_true, if_false]
    rw [← hes, hsz]
    congr 2

/-! ## Finalization -/

theorem BSONObjBuilder._done_eq (bb : BSONObjBuilder) (h : 4 ≤ bb.b.data.length) :
    bb._done = le32 ((bb.b.data.length : Int) + 1) ++ (bb.b.data.drop 4 ++ [0]) := by
  have hd : (bb.b.data ++ [charOf BSONType.EOO]).drop 4 = bb.b.data.drop 4 ++ [0] := by
    rw [List.drop_append_of_le_length h]
    rfl
  simp only [BSONObjBuilder._done, BufBuilder.appendChar, BufBuilder.len, hd,
    List.length_append, List.length_singleton, Nat.cast_add, Nat.cast_one]

theorem BSONObjBuilder._done_length (bb : BSONObjBuilder) (h : 4 ≤ bb.b.data.length) :
    bb._done.length = bb.b.data.length + 1 := by
  rw [bb._done_eq h]
  simp only [List.length_append, le32_length, List.length_drop, List.length_singleton]
  omega

theorem BufBuilder.appendBuf_extends (b b2 : BufBuilder) (src : Mem) (len : Int)
    (h : b.appendBuf src len = .ok b2) : ∃ added, b2.data = b.data ++ added := by
  unfold BufBuilder.appendBuf at h
  split at h
  · cases h; exact ⟨_, rfl⟩
  · cases h

theorem AppendCall.run_extends (c : AppendCall) (bb bb2 : BSONObjBuilder)
    (h : c.run bb = .ok bb2) : ∃ added, bb2.b.data = bb.b.data ++ added := by
  cases c with
  | double n x =>
    cases h
    simp only [BSONObjBuilder.appendDouble, BSONObjBuilder.header, BufBuilder.appendChar,
      BufBuilder.appendStr, BufBuilder.appendInt, BufBuilder.appendLong, List.append_assoc]
    exact ⟨_, rfl⟩
  | int n x =>
    cases h
    simp only [BSONObjBuilder.appendInt, BSONObjBuilder.header, BufBuilder.appendChar,
      BufBuilder.appendStr, BufBuilder.appendInt, BufBuilder.appendLong, List.append_assoc]
    exact ⟨_, rfl⟩
  | bool n x =>
    cases h
    simp only [BSONObjBuilder.appendBool, BSONObjBuilder.header, BufBuilder.appendChar,
      BufBuilder.appendStr, BufBuilder.appendInt, BufBuilder.appendLong, List.append_assoc]
    exact ⟨_, rfl⟩
  | date n x =>
    cases h
    simp only [BSONObjBuilder.appendDate, BSONObjBuilder.header, BufBuilder.appendChar,
      BufBuilder.appendStr, BufBuilder.appendInt, BufBuilder.appendLong, List.append_assoc]
    exact ⟨_, rfl⟩
  | string n x =>
    cases h
    simp only [BSONObjBuilder.appendString, BSONObjBuilder.header, BufBuilder.appendChar,
      BufBuilder.appendStr, BufBuilder.appendInt, BufBuilder.appendLong, List.append_assoc]
    exact ⟨_, rfl⟩
  | code n x =>
    cases h
    simp only [BSONObjBuilder.appendCode, BSONObjBuilder.header, BufBuilder.appendChar,
      BufBuilder.appendStr, BufBuilder.appendInt, BufBuilder.appendLong, List.append_assoc]
    exact ⟨_, rfl⟩
  | symbol n x =>
    cases h
    simp only [BSONObjBuilder.appendSymbol, BSONObjBuilder.header, BufBuilder.appendChar,
      BufBuilder.appendStr, BufBuilder.appendInt, BufBuilder.appendLong, List.append_assoc]
    exact ⟨_, rfl⟩
  | object n o =>
    simp only [AppendCall.run, BSONObjBuilder.appendObject] at h
    repeat' split at h
    all_goals first
      | (cases h
         rename_i b hb
         obtain ⟨a, ha⟩ := BufBuilder.appendBuf_extends _ _ _ _ hb
         rw [ha]
         simp only [BSONObjBuilder.header, BufBuilder.appendChar, BufBuilder.appendStr,
           BufBuilder.appendInt, List.append_assoc]
         exact ⟨_, rfl⟩)
      | cases h
  | array n o =>
    simp only [AppendCall.run, BSONObjBuilder.appendArray] at h
    repeat' split at h
    all_goals first
      | (cases h
         rename_i b hb
         obtain ⟨a, ha⟩ := BufBuilder.appendBuf_extends _ _ _ _ hb
         rw [ha]
         simp only [BSONObjBuilder.header, BufBuilder.appendChar, BufBuilder.appendStr,
           BufBuilder.appendInt, List.append_assoc]
         exact ⟨_, rfl⟩)
      | cases h
  | oid n o =>
    simp only [AppendCall.run, BSONObjBuilder.appendOID] at h
    repeat' split at h
    all_goals first
      | (cases h
         rename_i b hb
         obtain ⟨a, ha⟩ := BufBuilder.appendBuf_extends _ _ _ _ hb
         rw [ha]
         simp only [BSONObjBuilder.header, BufBuilder.appendChar, BufBuilder.appendStr,
           BufBuilder.appendInt, List.append_assoc]
         exact ⟨_, rfl⟩)
      | cases h
  | regex n re op =>
    cases h
    simp only [BSONObjBuilder.appendRegex, BSONObjBuilder.header, BufBuilder.appendChar,
      BufBuilder.appendStr, BufBuilder.appendInt, BufBuilder.appendLong, List.append_assoc]
    exact ⟨_, rfl⟩
  | binData n len t d =>
    simp only [AppendCall.run, BSONObjBuilder.appendBinData] at h
    repeat' split at h
    all_goals first
      | (cases h
         rename_i b hb
         obtain ⟨a, ha⟩ := BufBuilder.appendBuf_extends _ _ _ _ hb
         rw [ha]
         simp only [BSONObjBuilder.header, BufBuilder.appendChar, BufBuilder.appendStr,
           BufBuilder.appendInt, List.append_assoc]
         exact ⟨_, rfl⟩)
      | cases h
  | binDataArray n d len =>
    simp only [AppendCall.run, BSONObjBuilder.appendBinDataArray] at h
    repeat' split at h
    all_goals first
      | (cases h
         rename_i b hb
         obtain ⟨a, ha⟩ := BufBuilder.appendBuf_extends _ _ _ _ hb
         rw [ha]
         simp only [BSONObjBuilder.header, BufBuilder.appendChar, BufBuilder.appendStr,
           BufBuilder.appendInt, List.append_assoc]
         exact ⟨_, rfl⟩)
      | cases h
  | codeWScope n c o =>
    simp only [AppendCall.run, BSONObjBuilder.appendCodeWScope] at h
    repeat' split at h
    all_goals first
      | (cases h
         rename_i b hb
         obtain ⟨a, ha⟩ := BufBuilder.appendBuf_extends _ _ _ _ hb
         rw [ha]
         simp only [BSONObjBuilder.header, BufBuilder.appendChar, BufBuilder.appendStr,
           BufBuilder.appendInt, List.append_assoc]
         exact ⟨_, rfl⟩)
      | cases h
  | null n =>
    cases h
    simp only [BSONObjBuilder.appendNull, BSONObjBuilder.header, BufBuilder.appendChar,
      BufBuilder.appendStr, BufBuilder.appendInt, BufBuilder.appendLong, List.append_assoc]
    exact ⟨_, rfl⟩
  | minKey n =>
    cases h
    simp only [BSONObjBuilder.appendMinKey, BSONObjBuilder.header, BufBuilder.appendChar,
      BufBuilder.appendStr, BufBuilder.appendInt, BufBuilder.appendLong, List.append_assoc]
    exact ⟨_, rfl⟩
  | maxKey n =>
    cases h
    simp only [BSONObjBuilder.appendMaxKey, BSONObjBuilder.header, BufBuilder.appendChar,
      BufBuilder.appendStr, BufBuilder.appendInt, BufBuilder.appendLong, List.append_assoc]
    exact ⟨_, rfl⟩
  | dbRef n ns o =>
    simp only [AppendCall.run, BSONObjBuilder.appendDBRef] at h
    repeat' split at h
    all_goals first
      | (cases h
         rename_i b hb
         obtain ⟨a, ha⟩ := BufBuilder.appendBuf_extends _ _ _ _ hb
         rw [ha]
         simp only [BSONObjBuilder.header, BufBuilder.appendChar, BufBuilder.appendStr,
           BufBuilder.appendInt, List.append_assoc]
         exact ⟨_, rfl⟩)
      | cases h

theorem AppendCall.runAll_extends (calls : List AppendCall) :
    ∀ bb bb2 : BSONObjBuilder, AppendCall.runAll calls bb = .ok bb2 →
      ∃ added, bb2.b.data = bb.b.data ++ added := by
  induction calls with
  | nil => intro bb bb2 h; cases h; exact ⟨[], by simp⟩
  | cons c cs ih =>
    intro bb bb2 h
    simp only [AppendCall.runAll] at h
    split at h
    · cases h
    · rename_i bb1 h1
      obtain ⟨a1, ha1⟩ := c.run_extends bb bb1 h1
      obtain ⟨a2, ha2⟩ := ih bb1 bb2 h
      exact ⟨a1 ++ a2, by rw [ha2, ha1, List.append_assoc]⟩

theorem AppendCall.encode_le_flatten (calls : List AppendCall) (c : AppendCall)
    (hc : c ∈ calls) : c.encode.length ≤ (calls.map AppendCall.encode).flatten.length := by
  induction calls with
  | nil => cases hc
  | cons x xs ih =>
    simp only [List.map_cons, List.flatten_cons, List.length_append]
    rcases List.mem_cons.mp hc with h | h
    · subst h; omega
    · have := ih h; omega

theorem starts_head (fields : List Mem) (tl : Mem) :
    (starts fields tl).head? = some (fields.flatten ++ tl) := by
  cases fields <;> simp [starts]

theorem forall₂_head {α β : Type} {R : α → β → Prop} {l1 : List α} {l2 : List β}
    (h : List.Forall₂ R l1 l2) (m : β) (hm : l2.head? = some m) (e : α) (he : e ∈ l1.head?) :
    R e m := by
  cases h with
  | nil => simp at hm
  | cons hx _ =>
    simp only [List.head?_cons, Option.some.injEq, Option.mem_def] at hm he
    subst hm
    subst he
    exact hx

theorem AppendCall.elements_of_starts (calls : List AppendCall)
    (hwf : ∀ c ∈ calls, c.wellFormed)
    (hlen : ∀ c ∈ calls, (c.encode.length : Int) < 2147483648) (tl : Mem) :
    ∀ es : List BSONElement,
      List.Forall₂ (fun e m => BSONElement.ofData m = .ok e) es
        (starts (calls.map AppendCall.encode) tl) →
      ∃ es1 elast, es = es1 ++ [elast] ∧ BSONElement.ofData tl = .ok elast
        ∧ List.Forall₂ (fun e c => e.size = .ok (c.encode.length : Int)
            ∧ e.view = .ok c.expected) es1 calls
        ∧ List.Chain' BSONElement.NextAt es := by
  induction calls with
  | nil =>
    intro es h
    simp only [List.map_nil, starts] at h
    cases h with
    | cons h1 h2 =>
      cases h2
      exact ⟨[], _, rfl, h1, List.Forall₂.nil, List.chain'_singleton _⟩
  | cons c cs ih =>
    intro es h
    simp only [List.map_cons, starts] at h
    cases h with
    | cons h1 h2 =>
      rename_i e es2
      obtain ⟨es1, elast, hes, hlast, hall, hchain⟩ :=
        ih (fun x hx => hwf x (by simp [hx])) (fun x hx => hlen x (by simp [hx])) es2 h2
      obtain ⟨e0, he0, -, hsz, hview⟩ := c.decode_encode (hwf c (by simp)) (hlen c (by simp))
        ((cs.map AppendCall.encode).flatten ++ tl)
      rw [he0] at h1
      have hee : e0 = e := Except.ok.inj h1
      rw [hee] at he0 hsz hview
      refine ⟨e :: es1, elast, by rw [hes]; rfl, hlast, List.Forall₂.cons ⟨hsz, hview⟩ hall, ?_⟩
      rw [List.chain'_cons']
      refine ⟨?_, hchain⟩
      intro e2 he2
      have h3 : BSONElement.ofData ((cs.map AppendCall.encode).flatten ++ tl) = .ok e2 :=
        forall₂_head h2 _ (starts_head (cs.map AppendCall.encode) tl) e2 he2
      have hd2 := BSONElement.ofData_data _ _ _ h3
      have hd0 := BSONElement.ofData_data _ _ _ he0
      refine ⟨_, hsz, ?_, ?_⟩
      · simp [AppendCall.encode]
        omega
      · rw [hd2, hd0, Int.toNat_ofNat]
        exact (List.drop_left' rfl).symm

theorem AppendCall.isField_encode (c : AppendCall) (hwf : c.wellFormed)
    (hlen : (c.encode.length : Int) < 2147483648) : IsField c.encode := by
  intro rest
  obtain ⟨e, h1, h2, h3, -⟩ := c.decode_encode hwf hlen rest
  exact ⟨e, h1, h2, h3⟩

theorem BSONObjBuilder.done_wellFormed (calls : List AppendCall)
    (hwf : ∀ c ∈ calls, c.wellFormed) :
    ∃ bb, AppendCall.runAll calls BSONObjBuilder.new = .ok bb
      ∧ bb.b.data = [0, 0, 0, 0] ++ (calls.map AppendCall.encode).flatten
      ∧ (bb._done.length ≤ 16777216 →
          (∀ c ∈ calls, (c.encode.length : Int) < 2147483648)
          ∧ ∃ o, bb.done = .ok o ∧ o.objdata = .ok bb._done
            ∧ o.objsize = (bb._done.length : Int)
            ∧ o.wellFormed (calls.map AppendCall.encode)) := by
  have hrun := AppendCall.runAll_encode calls hwf BSONObjBuilder.new
  refine ⟨_, hrun, rfl, ?_⟩
  intro hsize
  generalize hbb : (BSONObjBuilder.mk ⟨BSONObjBuilder.new.b.data
    ++ (calls.map AppendCall.encode).flatten⟩) = bb at hsize ⊢
  have hdata : bb.b.data = [0, 0, 0, 0] ++ (calls.map AppendCall.encode).flatten := by
    rw [← hbb]; rfl
  have h4 : 4 ≤ bb.b.data.length := by rw [hdata]; simp
  have hlen := bb._done_length h4
  have heq := bb._done_eq h4
  have hdrop : bb.b.data.drop 4 = (calls.map AppendCall.encode).flatten := by
    rw [hdata]; rfl
  rw [hdrop] at heq
  have hF : bb.b.data.length = 4 + (calls.map AppendCall.encode).flatten.length := by
    rw [hdata, List.length_append]; rfl
  have hbound : ∀ c ∈ calls, (c.encode.length : Int) < 2147483648 := by
    intro c hc
    have := AppendCall.encode_le_flatten calls c hc
    omega
  have hread : readInt bb._done = .ok ((bb.b.data.length : Int) + 1) := by
    rw [heq]
    exact readInt_le32 _ _ (by omega) (by omega)
  have hcast : (bb._done.length : Int) = (bb.b.data.length : Int) + 1 := by
    rw [hlen]; push_cast; rfl
  refine ⟨hbound, ⟨some ⟨bb._done, (bb.b.data.length : Int) + 1, -1⟩⟩, ?_, rfl, ?_, ?_⟩
  · have h1 : (bb.b.data.length : Int) + 1 > 0 := by omega
    have h2 : ¬ (16777216 < (bb.b.data.length : Int) + 1) := by omega
    simp [BSONObjBuilder.done, BSONObj.ofData, BSONObj.init, hread, h1, h2]
  · simp only [BSONObj.objsize, hcast]
  · refine ⟨?_, hread, ?_, [], ?_⟩
    · intro enc henc
      obtain ⟨c, hc, rfl⟩ := List.mem_map.mp henc
      exact c.isField_encode (hwf c hc) (hbound c hc)
    · show (bb.b.data.length : Int) + 1 = _
      rw [hF]; push_cast; omega
    · show bb._done = bb._done.take 4 ++ _
      have ht : bb._done.take 4 = le32 ((bb.b.data.length : Int) + 1) := by
        rw [heq]; exact List.take_left' (le32_length _)
      rw [ht]
      exact heq

theorem forall₂_imp_mem {α β : Type} {R S : α → β → Prop} {l1 : List α} {l2 : List β}
    (h : List.Forall₂ R l1 l2) (himp : ∀ a b, b ∈ l2 → R a b → S a b) :
    List.Forall₂ S l1 l2 := by
  induction h with
  | nil => exact List.Forall₂.nil
  | cons hx _ ih =>
    exact List.Forall₂.cons (himp _ _ (by simp) hx)
      (ih (fun a b hb => himp a b (by simp [hb])))

theorem forall₂_head_exists {α β : Type} {R : α → β → Prop} {l1 : List α} {l2 : List β}
    (h : List.Forall₂ R l1 l2) (m : β) (hm : l2.head? = some m) :
    ∃ e, l1.head? = some e ∧ R e m := by
  cases h with
  | nil => simp at hm
  | cons hx _ =>
    simp only [List.head?_cons, Option.some.injEq] at hm
    subst hm
    exact ⟨_, rfl, hx⟩

theorem BSONElement.view_eoo (tl : Mem) :
    (BSONElement.mk (0 :: tl) 0).view = .ok (BSONType.EOO, [], []) := by
  simp [BSONElement.view, BSONElement.valueBytes, BSONElement.valuesize, BSONElement.size_eoo,
    BSONElement.type, BSONElement.fieldName, BSONElement.eoo, charToInt]

theorem BSONElement.ofData_eoo_eq (tl : Mem) (e : BSONElement)
    (h : BSONElement.ofData (0 :: tl) = .ok e) : e = ⟨0 :: tl, 0⟩ := by
  rw [BSONElement.ofData_eoo] at h
  exact (Except.ok.inj h).symm

theorem AppendCall.run_len (c : AppendCall) (hwf : c.wellFormed) (b : BSONObjBuilder) :
    ∃ b2, c.run b = .ok b2 ∧ b2.b.len = b.b.len + (c.encode.length : Int) := by
  refine ⟨_, c.run_encode hwf b, ?_⟩
  simp only [BufBuilder.len, List.length_append]
  push_cast
  rfl

/-! ## Lookup -/

theorem BSONObj.findElementLoop_eq (n : Mem) :
    ∀ (fuel : Nat) (it : BSONObjIterator) (es : List BSONElement),
      BSONObjIterator.elementsLoop fuel it = .ok es →
      BSONObj.findElementLoop n fuel it = .ok (es.find? (fun e => decide (n = e.fieldName))) := by
  intro fuel
  induction fuel with
  | zero =>
    intro it es h
    simp only [BSONObjIterator.elementsLoop] at h
    simp only [BSONObj.findElementLoop]
    split at h
    · cases h
    · cases h; rename_i hm; simp [hm]
  | succ k ih =>
    intro it es h
    simp only [BSONObjIterator.elementsLoop] at h
    simp only [BSONObj.findElementLoop]
    split at h
    · rename_i hm
      simp only [hm, if_true]
      split at h
      · cases h
      · rename_i e it2 hnext
        split at h
        · cases h
        · rename_i es2 hes2
          cases h
          by_cases hname : n = e.fieldName
          · simp [hname]
          · simp only [hname, if_false, List.find?_cons, decide_False]
            exact ih it2 es2 hes2
    · cases h; rename_i hm; simp [hm]

theorem fields_of_starts (fields : List Mem) (hf : ∀ enc ∈ fields, IsField enc) (tl : Mem) :
    ∀ es : List BSONElement,
      List.Forall₂ (fun e m => BSONElement.ofData m = .ok e) es (starts fields tl) →
      ∃ es1 elast, es = es1 ++ [elast] ∧ BSONElement.ofData tl = .ok elast
        ∧ (∀ e ∈ es1, e.eoo = false) ∧ es1.length = fields.length := by
  induction fields with
  | nil =>
    intro es h
    simp only [starts] at h
    cases h with
    | cons h1 h2 =>
      cases h2
      exact ⟨[], _, rfl, h1, by simp, rfl⟩
  | cons f fs ih =>
    intro es h
    simp only [starts] at h
    cases h with
    | cons h1 h2 =>
      rename_i e es2
      obtain ⟨es1, elast, hes, hlast, hall, hlen⟩ :=
        ih (fun x hx => hf x (by simp [hx])) es2 h2
      obtain ⟨e0, he0, heoo, -⟩ := hf f (by simp) (fs.flatten ++ tl)
      rw [he0] at h1
      have hee : e0 = e := Except.ok.inj h1
      rw [hee] at heoo
      refine ⟨e :: es1, elast, by rw [hes]; rfl, hlast, ?_, by simp [hlen]⟩
      intro x hx
      rcases List.mem_cons.mp hx with h | h
      · rw [h]; exact heoo
      · exact hall x h

/-! ## The claims -/

/-- C1: for every sequence of supported append calls with well-formed arguments (NUL-free
field names and strings, embeddable sub-documents, binary data of the announced length), the
calls succeed on a fresh builder; and when the finalized buffer is within the 16 MiB a document
may have, `done()` yields a document whose iteration with `BSONObjIterator` gives, in append
order, one element per call with exactly the kind, field name and value bytes appended,
followed by the end marker. -/
theorem BSONObjBuilder.append_iterate_roundtrip (calls : List AppendCall)
    (hwf : ∀ c ∈ calls, c.wellFormed) :
    ∃ bb, AppendCall.runAll calls BSONObjBuilder.new = .ok bb
      ∧ (bb._done.length ≤ 16777216 →
          ∃ o es, bb.done = .ok o ∧ o.elements = .ok es
            ∧ List.Forall₂ (fun e x => e.view = .ok x) es
                (calls.map AppendCall.expected ++ [(BSONType.EOO, [], [])])) := by
  obtain ⟨bb, hrun, -, h⟩ := BSONObjBuilder.done_wellFormed calls hwf
  refine ⟨bb, hrun, fun hsize => ?_⟩
  obtain ⟨hbound, o, hdone, -, -, ho⟩ := h hsize
  obtain ⟨tl, es, p, -, -, hes, hall⟩ := o.elements_wellFormed _ ho
  obtain ⟨es1, elast, rfl, hlast, hviews, -⟩ :=
    AppendCall.elements_of_starts calls hwf hbound (0 :: tl) es hall
  refine ⟨o, _, hdone, hes, ?_⟩
  have h1 : List.Forall₂ (fun e x => e.view = .ok x) es1 (calls.map AppendCall.expected) :=
    List.forall₂_map_right_iff.mpr (hviews.imp (fun _ _ hx => hx.2))
  have h2 : List.Forall₂ (fun e x => e.view = .ok x) [elast] [(BSONType.EOO, [], [])] := by
    rw [BSONElement.ofData_eoo_eq tl elast hlast]
    exact List.Forall₂.cons (BSONElement.view_eoo tl) List.Forall₂.nil
  exact List.rel_append h1 h2

/-- Witness for C1: `appendInt("a", 1)`, `append("b", "cd")`, `appendMinKey("e")`. -/
theorem BSONObjBuilder.append_iterate_roundtrip_witness :
    (∀ c ∈ [AppendCall.int [97] 1, AppendCall.string [98] [99, 100], AppendCall.minKey [101]],
        c.wellFormed)
      ∧ ∃ bb, AppendCall.runAll
            [AppendCall.int [97] 1, AppendCall.string [98] [99, 100], AppendCall.minKey [101]]
            BSONObjBuilder.new = .ok bb
          ∧ bb._done.length ≤ 16777216
          ∧ ∃ o es, bb.done = .ok o ∧ o.elements = .ok es
            ∧ List.Forall₂ (fun e x => e.view = .ok x) es
                [(16, [97], [1, 0, 0, 0]), (2, [98], [3, 0, 0, 0, 99, 100, 0]), (-1, [101], []),
                  (0, [], [])] := by
  refine ⟨by decide, ?_⟩
  obtain ⟨bb, hrun, h⟩ := BSONObjBuilder.append_iterate_roundtrip
    [AppendCall.int [97] 1, AppendCall.string [98] [99, 100], AppendCall.minKey [101]]
    (by decide)
  have hbb : AppendCall.runAll
      [AppendCall.int [97] 1, AppendCall.string [98] [99, 100], AppendCall.minKey [101]]
      BSONObjBuilder.new
      = .ok (((BSONObjBuilder.new.appendInt [97] 1).appendString [98] [99, 100]).appendMinKey
          [101]) := by decide
  rw [hbb] at hrun
  cases hrun
  exact ⟨_, hbb, by decide, h (by decide)⟩

/-- C2: for every builder state reached from a fresh builder by a sequence of append calls, the
buffer returned by `_done` (the one `done()` and `doneAndDecouple()` wrap) ends with the byte
0x00, and its first four bytes, read as a little-endian int32, are the total length of the
buffer, size field and end marker included (the length being one an `int` can hold). -/
theorem BSONObjBuilder.done_size_and_end_marker (calls : List AppendCall)
    (bb : BSONObjBuilder) (hrun : AppendCall.runAll calls BSONObjBuilder.new = .ok bb)
    (hfit : bb._done.length < 2147483648) :
    bb._done.getLast? = some 0 ∧ readInt bb._done = .ok (bb._done.length : Int) := by
  obtain ⟨added, hadd⟩ := AppendCall.runAll_extends calls _ _ hrun
  have h4 : 4 ≤ bb.b.data.length := by
    rw [hadd]; simp [BSONObjBuilder.new, BufBuilder.skip]
  have hlen := bb._done_length h4
  have heq := bb._done_eq h4
  constructor
  · rw [heq, ← List.append_assoc, List.getLast?_append]
    simp
  · rw [hlen] at hfit ⊢
    rw [heq]
    have : ((bb.b.data.length + 1 : Nat) : Int) = (bb.b.data.length : Int) + 1 := by push_cast; rfl
    rw [this]
    exact readInt_le32 _ _ (by omega) (by omega)

/-- Witness for C2: the builder state after `appendInt("a", 1)`. -/
theorem BSONObjBuilder.done_size_and_end_marker_witness :
    AppendCall.runAll [AppendCall.int [97] 1] BSONObjBuilder.new
        = .ok (BSONObjBuilder.new.appendInt [97] 1)
      ∧ (BSONObjBuilder.new.appendInt [97] 1)._done.length < 2147483648
      ∧ (BSONObjBuilder.new.appendInt [97] 1)._done.getLast? = some 0
      ∧ readInt (BSONObjBuilder.new.appendInt [97] 1)._done
          = .ok (((BSONObjBuilder.new.appendInt [97] 1)._done.length : Nat) : Int) :=
  ⟨by decide, by decide,
    BSONObjBuilder.done_size_and_end_marker [AppendCall.int [97] 1] _ (by decide) (by decide)⟩

/-- C3: for every sequence of supported append calls with well-formed arguments (the calls of
`appendBinDataArray`, `appendCodeWScope` and `appendDBRef` included) whose finalized buffer is
within the 16 MiB a document may have, iteration yields one element per call and then the end
marker; the first element starts right after the size field; `size()` of each element, computed
from its own bytes, is the number of bytes its append call wrote (on any builder); and each
next element, the end marker last, starts exactly `size()` bytes after the one before. -/
theorem BSONElement.size_eq_bytes_written (calls : List AppendCall)
    (hwf : ∀ c ∈ calls, c.wellFormed) :
    ∃ bb, AppendCall.runAll calls BSONObjBuilder.new = .ok bb
      ∧ (bb._done.length ≤ 16777216 →
          ∃ o es fields elast, bb.done = .ok o ∧ o.elements = .ok es
            ∧ es = fields ++ [elast] ∧ elast.eoo = true
            ∧ es.head?.map (fun e => e.data) = some (bb._done.drop 4)
            ∧ List.Forall₂ (fun e c => ∃ sz : Int, e.size = .ok sz
                ∧ ∀ b : BSONObjBuilder, ∃ b2, c.run b = .ok b2 ∧ b2.b.len = b.b.len + sz)
                fields calls
            ∧ List.Chain' BSONElement.NextAt es) := by
  obtain ⟨bb, hrun, -, h⟩ := BSONObjBuilder.done_wellFormed calls hwf
  refine ⟨bb, hrun, fun hsize => ?_⟩
  obtain ⟨hbound, o, hdone, hdata, -, ho⟩ := h hsize
  obtain ⟨tl, es, p, hp, hdrop, hes, hall⟩ := o.elements_wellFormed _ ho
  rw [hdata] at hp
  obtain rfl : bb._done = p := Except.ok.inj hp
  obtain ⟨e0, he0, hof0⟩ := forall₂_head_exists hall _ (starts_head _ _)
  obtain ⟨es1, elast, rfl, hlast, hviews, hchain⟩ :=
    AppendCall.elements_of_starts calls hwf hbound (0 :: tl) es hall
  refine ⟨o, _, es1, elast, hdone, hes, rfl, ?_, ?_, ?_, hchain⟩
  · rw [BSONElement.ofData_eoo_eq tl elast hlast]
    rfl
  · rw [he0, hdrop]
    simp only [Option.map_some', Option.some.injEq]
    exact BSONElement.ofData_data _ _ _ hof0
  · have himp : ∀ (e : BSONElement) (c : AppendCall), c ∈ calls →
        (e.size = .ok (c.encode.length : Int) ∧ e.view = .ok c.expected) →
        ∃ sz : Int, e.size = .ok sz
          ∧ ∀ b : BSONObjBuilder, ∃ b2, c.run b = .ok b2 ∧ b2.b.len = b.b.len + sz :=
      fun e c hc hx => ⟨_, hx.1, fun b => c.run_len (hwf c hc) b⟩
    exact forall₂_imp_mem hviews himp

/-- Witness for C3: `appendBinDataArray("a", {7, 8}, 2)` and `appendDBRef("b", "c", 0)`. -/
theorem BSONElement.size_eq_bytes_written_witness :
    (∀ c ∈ [AppendCall.binDataArray [97] [7, 8] 2, AppendCall.dbRef [98] [99] OID.zero],
        c.wellFormed)
      ∧ ∃ bb, AppendCall.runAll
            [AppendCall.binDataArray [97] [7, 8] 2, AppendCall.dbRef [98] [99] OID.zero]
            BSONObjBuilder.new = .ok bb
          ∧ bb._done.length ≤ 16777216
          ∧ ∃ o es fields elast, bb.done = .ok o ∧ o.elements = .ok es
            ∧ es = fields ++ [elast] ∧ elast.eoo = true
            ∧ es.head?.map (fun e => e.data) = some (bb._done.drop 4)
            ∧ List.Forall₂ (fun e c => ∃ sz : Int, e.size = .ok sz
                ∧ ∀ b : BSONObjBuilder, ∃ b2, c.run b = .ok b2 ∧ b2.b.len = b.b.len + sz)
                fields
                [AppendCall.binDataArray [97] [7, 8] 2, AppendCall.dbRef [98] [99] OID.zero]
            ∧ List.Chain' BSONElement.NextAt es := by
  refine ⟨by decide, ?_⟩
  obtain ⟨bb, hrun, h⟩ := BSONElement.size_eq_bytes_written
    [AppendCall.binDataArray [97] [7, 8] 2, AppendCall.dbRef [98] [99] OID.zero] (by decide)
  have hbb : AppendCall.runAll
      [AppendCall.binDataArray [97] [7, 8] 2, AppendCall.dbRef [98] [99] OID.zero]
      BSONObjBuilder.new
      = .ok ⟨⟨[0, 0, 0, 0, 5, 97, 0, 6, 0, 0, 0, 2, 2, 0, 0, 0, 7, 8, 12, 98, 0, 2, 0, 0, 0, 99, 0,
          0, 0, 0, 0, 0, 0, 0, 0, 0, 0, 0, 0]⟩⟩ := by decide
  rw [hbb] at hrun
  cases hrun
  exact ⟨_, hbb, by decide, h (by decide)⟩

/-- C4: finalizing a builder on which no append was called gives a document of `objsize()`
exactly 5, with bytes 05 00 00 00 00, for which `isEmpty()` is true (with `done()` and with
`doneAndDecouple()` alike). -/
theorem BSONObjBuilder.done_new_empty :
    BSONObjBuilder.new._done = [5, 0, 0, 0, 0]
      ∧ (∃ o, BSONObjBuilder.new.done = .ok o ∧ o.objsize = 5
          ∧ o.objdata = .ok [5, 0, 0, 0, 0] ∧ o.isEmpty = true)
      ∧ (∃ o, BSONObjBuilder.new.doneAndDecouple = .ok o ∧ o.objsize = 5
          ∧ o.objdata = .ok [5, 0, 0, 0, 0] ∧ o.isEmpty = true) :=
  ⟨by decide, ⟨⟨some ⟨[5, 0, 0, 0, 0], 5, -1⟩⟩, by decide, by decide, by decide, by decide⟩,
    ⟨⟨some ⟨[5, 0, 0, 0, 0], 5, 1⟩⟩, by decide, by decide, by decide, by decide⟩⟩

/-- C5: for the 5-byte empty document (owned or not), a fresh iterator has `more()` true, the
first `next()` returns an element with `eoo()` true, and after that single `next()` `more()` is
false; the iteration yields exactly that one element. -/
theorem BSONObjIterator.empty_document (refCount : Int) :
    ∃ it e it2, BSONObjIterator.ofObj ⟨some ⟨[5, 0, 0, 0, 0], 5, refCount⟩⟩ = .ok it
      ∧ it.more = true ∧ it.next = .ok (e, it2) ∧ e.eoo = true ∧ it2.more = false
      ∧ BSONObj.elements ⟨some ⟨[5, 0, 0, 0, 0], 5, refCount⟩⟩ = .ok [e] :=
  ⟨⟨[5, 0, 0, 0, 0], 4, 5⟩, ⟨[0], 0⟩, ⟨[5, 0, 0, 0, 0], 5, 5⟩, by rfl, by decide, by decide,
    by decide, by decide, by rfl⟩

/-- C6: for every document `d` (the null document of a default-constructed `BSONObj`, or a
well-formed document) and every name `n`, `findElement(n)` returns (no error is raised); if no
field of `d` (no element other than the end marker) is named `n`, the element returned has
`eoo()` true; otherwise it is the first element in document order whose field name equals `n`,
and it is a field. -/
theorem BSONObj.findElement_first_match (d : BSONObj) (fields : List Mem) (n : Mem)
    (hwf : d = BSONObj.new ∨ d.wellFormed fields) :
    ∃ es r, d.elements = .ok es ∧ d.findElement n = .ok r
      ∧ ((∀ e ∈ es, e.eoo = false → e.fieldName ≠ n) → r.eoo = true)
      ∧ ((∃ e ∈ es, e.eoo = false ∧ e.fieldName = n) →
          r.eoo = false ∧ r.fieldName = n
            ∧ ∃ l1 l2, es = l1 ++ r :: l2 ∧ ∀ e ∈ l1, e.fieldName ≠ n) := by
  rcases hwf with rfl | hwf
  · exact ⟨[], BSONElement.empty, rfl, rfl, fun _ => rfl, by simp⟩
  obtain ⟨tl, es, p, hp, -, hes, hall⟩ := d.elements_wellFormed fields hwf
  obtain ⟨es1, elast, rfl, hlast, hne, hlen⟩ := fields_of_starts fields
    (by obtain ⟨_ | x⟩ := d
        · exact absurd hwf (by simp [BSONObj.wellFormed])
        · exact hwf.1) (0 :: tl) es hall
  have hlast2 := BSONElement.ofData_eoo_eq tl elast hlast
  have heoo : elast.eoo = true := by rw [hlast2]; rfl
  obtain ⟨_ | x⟩ := d
  · exact absurd hwf (by simp [BSONObj.wellFormed])
  obtain ⟨hf, -, hsz, -⟩ := hwf
  by_cases hempty : (BSONObj.mk (some x)).isEmpty = true
  · -- `isEmpty()`: the document has no field, and the empty element is returned
    have h5 : x._objsize ≤ 5 := by simpa [BSONObj.isEmpty, BSONObj.objsize] using hempty
    have hfl := IsField.length_le_flatten fields hf
    have hes1 : es1 = [] := List.eq_nil_of_length_eq_zero (by omega)
    subst hes1
    refine ⟨_, BSONElement.empty, hes, by simp [BSONObj.findElement, hempty], fun _ => rfl, ?_⟩
    rintro ⟨e, he, hne2, -⟩
    simp only [List.nil_append, List.mem_singleton] at he
    rw [he, heoo] at hne2
    cases hne2
  · -- otherwise the scan returns the first element whose name matches
    have hfind : ∀ it, BSONObjIterator.ofObj ⟨some x⟩ = .ok it →
        BSONObj.findElementLoop n (BSONObj.mk (some x)).scanFuel it
          = .ok ((es1 ++ [elast]).find? (fun e => decide (n = e.fieldName))) := by
      intro it hit
      simp only [BSONObj.elements, hit] at hes
      exact BSONObj.findElementLoop_eq n _ it _ hes
    have hit : ∃ it, BSONObjIterator.ofObj ⟨some x⟩ = .ok it := by
      simp only [BSONObj.elements] at hes
      split at hes
      · cases hes
      · exact ⟨_, by assumption⟩
    obtain ⟨it, hit⟩ := hit
    have hloop := hfind it hit
    cases hf1 : es1.find? (fun e => decide (n = e.fieldName)) with
    | none =>
      have hnone : ∀ e ∈ es1, e.fieldName ≠ n := by
        intro e he hc
        have := List.find?_eq_none.mp hf1 e he
        simp [hc] at this
      by_cases hl : n = elast.fieldName
      · -- only the end marker matches (the name is empty)
        have hres : (es1 ++ [elast]).find? (fun e => decide (n = e.fieldName)) = some elast := by
          rw [List.find?_append, hf1]; simp [hl]
        rw [hres] at hloop
        refine ⟨_, elast, hes, by simp [BSONObj.findElement, hempty, hit, hloop],
          fun _ => heoo, ?_⟩
        rintro ⟨e, he, hne2, hname⟩
        rcases List.mem_append.mp he with h | h
        · exact absurd hname (hnone e h)
        · simp only [List.mem_singleton] at h
          rw [h, heoo] at hne2
          cases hne2
      · have hres : (es1 ++ [elast]).find? (fun e => decide (n = e.fieldName)) = none := by
          rw [List.find?_append, hf1]; simp [hl]
        rw [hres] at hloop
        refine ⟨_, BSONElement.empty, hes, by simp [BSONObj.findElement, hempty, hit, hloop],
          fun _ => rfl, ?_⟩
        rintro ⟨e, he, hne2, hname⟩
        rcases List.mem_append.mp he with h | h
        · exact absurd hname (hnone e h)
        · simp only [List.mem_singleton] at h
          rw [h, heoo] at hne2
          cases hne2
    | some r =>
      have hres : (es1 ++ [elast]).find? (fun e => decide (n = e.fieldName)) = some r := by
        rw [List.find?_append, hf1]; rfl
      rw [hres] at hloop
      obtain ⟨hpr, l1, l2, hsplit, hbefore⟩ := List.find?_eq_some.mp hf1
      have hrname : r.fieldName = n := by
        have : n = r.fieldName := by simpa using hpr
        exact this.symm
      have hreoo : r.eoo = false := hne r (List.mem_of_find?_eq_some hf1)
      refine ⟨_, r, hes, by simp [BSONObj.findElement, hempty, hit, hloop], ?_, ?_⟩
      · intro hno
        exact absurd hrname (hno r (by simp [List.mem_of_find?_eq_some hf1]) hreoo)
      · intro _
        refine ⟨hreoo, hrname, l1, l2 ++ [elast], by rw [hsplit]; simp, ?_⟩
        intro e he hc
        have := hbefore e he
        simp [hc] at this

/-- Witness for C6: the document `{ a : 1 }` and the name `a`. -/
theorem BSONObj.findElement_first_match_witness :
    (BSONObj.mk (some ⟨[12, 0, 0, 0, 16, 97, 0, 1, 0, 0, 0, 0], 12, -1⟩)).wellFormed
        [[16, 97, 0, 1, 0, 0, 0]]
      ∧ ∃ es r, (BSONObj.mk (some ⟨[12, 0, 0, 0, 16, 97, 0, 1, 0, 0, 0, 0], 12, -1⟩)).elements
            = .ok es
          ∧ (BSONObj.mk (some ⟨[12, 0, 0, 0, 16, 97, 0, 1, 0, 0, 0, 0], 12, -1⟩)).findElement
              [97] = .ok r
          ∧ ((∀ e ∈ es, e.eoo = false → e.fieldName ≠ [97]) → r.eoo = true)
          ∧ ((∃ e ∈ es, e.eoo = false ∧ e.fieldName = [97]) →
              r.eoo = false ∧ r.fieldName = [97]
                ∧ ∃ l1 l2, es = l1 ++ r :: l2 ∧ ∀ e ∈ l1, e.fieldName ≠ [97]) := by
  have hw : (BSONObj.mk (some ⟨[12, 0, 0, 0, 16, 97, 0, 1, 0, 0, 0, 0], 12, -1⟩)).wellFormed
      [[16, 97, 0, 1, 0, 0, 0]] := by
    refine ⟨?_, by decide, by decide, [], by decide⟩
    intro enc henc
    have henc2 : enc = (AppendCall.int [97] 1).encode := by
      rw [List.mem_singleton] at henc
      rw [henc]
      decide
    rw [henc2]
    exact AppendCall.isField_encode _ (by decide) (by decide)
  exact ⟨hw, BSONObj.findElement_first_match _ _ [97] (Or.inr hw)⟩

/-- C7, the code at the failing input: the document `{ a : 1 }` built by `appendInt("a", 1)`
has the single field `a` and no field named by the empty string, yet `hasElement("")` returns
true (the end marker, whose `fieldName()` is the empty string, is taken for a match). -/
theorem BSONObj.hasElement_empty_name_true :
    ∃ o e, (BSONObjBuilder.new.appendInt [97] 1).done = .ok o
      ∧ o.elements = .ok [e, ⟨[0], 0⟩]
      ∧ e.eoo = false ∧ e.fieldName = [97] ∧ e.fieldName ≠ []
      ∧ o.hasElement [] = .ok true :=
  ⟨⟨some ⟨[12, 0, 0, 0, 16, 97, 0, 1, 0, 0, 0, 0], 12, -1⟩⟩,
    ⟨[16, 97, 0, 1, 0, 0, 0, 0], 2⟩, by decide, by decide, by decide, by decide, by decide,
    by decide⟩

/-- C8: constructing a `BSONObj` from a raw buffer whose first four bytes declare the size `sz`
fails with a `massert` if and only if `sz <= 0` or `sz > 16777216`; otherwise construction
succeeds and `objsize()` is the declared size. -/
theorem BSONObj.ofData_massert_iff (data : Mem) (ifree : Bool) (sz : Int)
    (hsz : readInt data = .ok sz) :
    ((∃ msg, BSONObj.ofData data ifree = .error (.massert msg)) ↔ (sz ≤ 0 ∨ 16777216 < sz))
      ∧ (¬ (sz ≤ 0 ∨ 16777216 < sz) →
          ∃ o, BSONObj.ofData data ifree = .ok o ∧ o.objsize = sz) := by
  by_cases h1 : sz ≤ 0
  · have : ¬ (sz > 0) := by omega
    simp [BSONObj.ofData, BSONObj.init, hsz, this, h1]
  · by_cases h2 : 16777216 < sz
    · have h3 : sz > 0 := by omega
      have h4 : ¬ (sz ≤ 1024 * 1024 * 16) := by omega
      simp [BSONObj.ofData, BSONObj.init, hsz, h3, h4, h2]
    · have h3 : sz > 0 := by omega
      have h4 : sz ≤ 1024 * 1024 * 16 := by omega
      simp [BSONObj.ofData, BSONObj.init, hsz, h3, h4, h1, h2, BSONObj.objsize]

/-- Witness for C8: the buffer 05 00 00 00 00, which declares the size 5. -/
theorem BSONObj.ofData_massert_iff_witness :
    readInt [5, 0, 0, 0, 0] = .ok 5
      ∧ ((∃ msg, BSONObj.ofData [5, 0, 0, 0, 0] false = .error (.massert msg))
          ↔ ((5 : Int) ≤ 0 ∨ (16777216 : Int) < 5))
      ∧ (¬ ((5 : Int) ≤ 0 ∨ (16777216 : Int) < 5) →
          ∃ o, BSONObj.ofData [5, 0, 0, 0, 0] false = .ok o ∧ o.objsize = 5) :=
  ⟨by decide, BSONObj.ofData_massert_iff [5, 0, 0, 0, 0] false 5 (by decide)⟩

/-- C9 refuted as stated: the buffer 03 00 00 00 declares the total size 3, and constructing a
document from it succeeds, with `objsize()` 3. -/
theorem BSONObj.ofData_size_three_accepted :
    readInt [3, 0, 0, 0] = .ok 3
      ∧ ∃ o, BSONObj.ofData [3, 0, 0, 0] = .ok o ∧ o.objsize = 3 :=
  ⟨by decide, ⟨some ⟨[3, 0, 0, 0], 3, -1⟩⟩, by decide, by decide⟩

/-- C9 as amended: a buffer whose declared total size is zero or negative is rejected at
construction with "BSONObj size spec too small"; a declared size from 1 to 4, below the 5-byte
minimum, is accepted by the constructor and gives a document whose `objsize()` is the declared
size. -/
theorem BSONObj.ofData_below_minimum (data : Mem) (ifree : Bool) (sz : Int)
    (hsz : readInt data = .ok sz) (hlt : sz < 5) :
    (sz ≤ 0 → BSONObj.ofData data ifree = .error (.massert "BSONObj size spec too small"))
      ∧ (0 < sz → ∃ o, BSONObj.ofData data ifree = .ok o ∧ o.objsize = sz) := by
  constructor
  · intro h
    have : ¬ (sz > 0) := by omega
    simp [BSONObj.ofData, BSONObj.init, hsz, this]
  · intro h
    have h3 : sz > 0 := h
    have h4 : ¬ (16777216 < sz) := by omega
    simp [BSONObj.ofData, BSONObj.init, hsz, h3, h4, BSONObj.objsize]

/-- Witness for the amended C9: the buffer 03 00 00 00. -/
theorem BSONObj.ofData_below_minimum_witness :
    readInt [3, 0, 0, 0] = .ok 3 ∧ (3 : Int) < 5
      ∧ ((3 : Int) ≤ 0 →
          BSONObj.ofData [3, 0, 0, 0] true = .error (.massert "BSONObj size spec too small"))
      ∧ ((0 : Int) < 3 → ∃ o, BSONObj.ofData [3, 0, 0, 0] true = .ok o ∧ o.objsize = 3) :=
  ⟨by decide, by decide,
    BSONObj.ofData_below_minimum [3, 0, 0, 0] true 3 (by decide) (by decide)⟩

/-- C10 refuted as stated: a default-constructed document has `objsize()` 0, not 5, and
`woEqual` with the document obtained by finalizing a builder with no fields is false. -/
theorem BSONObj.new_not_canonical_empty :
    BSONObj.new.objsize = 0
      ∧ ∃ o, BSONObjBuilder.new.done = .ok o ∧ BSONObj.new.woEqual o = .ok false :=
  ⟨by decide, ⟨some ⟨[5, 0, 0, 0, 0], 5, -1⟩⟩, by decide, by decide⟩

/-- C10 as amended: a default-constructed document is the null document: its `objsize()` is
0, `isEmpty()` is true for it, it is `woEqual` to another default-constructed document, and it
is not `woEqual` (in either direction) to the 5-byte document obtained by finalizing a builder
with no fields. -/
theorem BSONObj.new_is_null_document :
    BSONObj.new.objsize = 0 ∧ BSONObj.new.isEmpty = true
      ∧ BSONObj.new.woEqual BSONObj.new = .ok true
      ∧ ∃ o, BSONObjBuilder.new.done = .ok o ∧ o.objsize = 5
          ∧ BSONObj.new.woEqual o = .ok false ∧ o.woEqual BSONObj.new = .ok false :=
  ⟨by decide, by decide, by decide, ⟨some ⟨[5, 0, 0, 0, 0], 5, -1⟩⟩, by decide, by decide,
    by decide, by decide⟩

/-! ## Shallow equality -/

theorem BSONObj.woEqual_eq (a b : BSONObj) (ha : a.readable) (hb : b.readable) :
    a.woEqual b = .ok (decide (a.objsize = b.objsize ∧ a.bytes = b.bytes)) := by
  obtain ⟨_ | x⟩ := a <;> obtain ⟨_ | y⟩ := b
  · rfl
  · by_cases h : (0 : Int) = y._objsize
    · simp [BSONObj.woEqual, BSONObj.objsize, BSONObj.bytes, ← h]
    · simp [BSONObj.woEqual, BSONObj.objsize, BSONObj.bytes, h]
  · by_cases h : x._objsize = 0
    · simp [BSONObj.woEqual, BSONObj.objsize, BSONObj.bytes, h]
    · simp [BSONObj.woEqual, BSONObj.objsize, BSONObj.bytes, h]
  · obtain ⟨ha0, ha1⟩ := ha
    obtain ⟨hb0, hb1⟩ := hb
    by_cases h : x._objsize = y._objsize
    · by_cases h0 : x._objsize = 0
      · have h0y : y._objsize = 0 := by omega
        simp [BSONObj.woEqual, BSONObj.objsize, BSONObj.bytes, h0, h0y]
      · have hy1 : x._objsize ≤ (y._objdata.length : Int) := by omega
        simp [BSONObj.woEqual, BSONObj.objsize, BSONObj.bytes, h0, BSONObj.objdata,
          BSONObj.memEq, ha0, ha1, hy1, ← h]
        rw [beq_eq_decide]
        exact decide_eq_decide.mpr Iff.rfl
    · simp [BSONObj.woEqual, BSONObj.objsize, BSONObj.bytes, h]

/-- C11: for every two documents `a` and `b` whose buffers hold the bytes they declare,
`a.woEqual(b)` returns, and it is true if and only if the two `objsize()` are equal and the
first `objsize()` bytes are identical (two null documents, of size 0, are equal); hence
`woEqual` is reflexive, symmetric and transitive. -/
theorem BSONObj.woEqual_iff_bytes (a b c : BSONObj) (ha : a.readable) (hb : b.readable)
    (hc : c.readable) :
    (∃ r, a.woEqual b = .ok r ∧ (r = true ↔ a.objsize = b.objsize ∧ a.bytes = b.bytes))
      ∧ BSONObj.new.woEqual BSONObj.new = .ok true
      ∧ a.woEqual a = .ok true
      ∧ a.woEqual b = b.woEqual a
      ∧ (a.woEqual b = .ok true → b.woEqual c = .ok true → a.woEqual c = .ok true) := by
  rw [BSONObj.woEqual_eq a b ha hb, BSONObj.woEqual_eq a a ha ha, BSONObj.woEqual_eq b a hb ha,
    BSONObj.woEqual_eq b c hb hc, BSONObj.woEqual_eq a c ha hc]
  refine ⟨⟨_, rfl, by simp⟩, rfl, by simp, ?_, ?_⟩
  · congr 1
    simp only [decide_eq_decide]
    constructor <;> rintro ⟨h1, h2⟩ <;> exact ⟨h1.symm, h2.symm⟩
  · intro h1 h2
    have h1' := of_decide_eq_true (Except.ok.inj h1)
    have h2' := of_decide_eq_true (Except.ok.inj h2)
    simp only [Except.ok.injEq, decide_eq_true_eq]
    exact ⟨h1'.1.trans h2'.1, h1'.2.trans h2'.2⟩

/-- Witness for C11: the document `{}`, the same bytes in a longer buffer, and `{}` again. -/
theorem BSONObj.woEqual_iff_bytes_witness :
    (BSONObj.mk (some ⟨[5, 0, 0, 0, 0], 5, -1⟩)).readable
      ∧ (BSONObj.mk (some ⟨[5, 0, 0, 0, 0, 7], 5, 1⟩)).readable
      ∧ (BSONObj.mk (some ⟨[5, 0, 0, 0, 0], 5, 1⟩)).readable
      ∧ (BSONObj.mk (some ⟨[5, 0, 0, 0, 0], 5, -1⟩)).woEqual
          (BSONObj.mk (some ⟨[5, 0, 0, 0, 0, 7], 5, 1⟩)) = .ok true
      ∧ (BSONObj.mk (some ⟨[5, 0, 0, 0, 0], 5, -1⟩)).woEqual
          (BSONObj.mk (some ⟨[5, 0, 0, 0, 0], 5, 1⟩)) = .ok true :=
  ⟨by decide, by decide, by decide, by decide,
    (BSONObj.woEqual_iff_bytes (BSONObj.mk (some ⟨[5, 0, 0, 0, 0], 5, -1⟩))
      (BSONObj.mk (some ⟨[5, 0, 0, 0, 0, 7], 5, 1⟩)) (BSONObj.mk (some ⟨[5, 0, 0, 0, 0], 5, 1⟩))
      (by decide) (by decide) (by decide)).2.2.2.2 (by decide) (by decide)⟩

/-! ## Element equality -/

theorem BSONElement.valueBytes_ok (e : BSONElement) (v : Mem) (h : e.valueBytes = .ok v) :
    ∃ n : Int, e.valuesize = .ok n ∧ 0 ≤ n ∧ n ≤ (e.value.length : Int)
      ∧ v = e.value.take n.toNat := by
  unfold BSONElement.valueBytes at h
  split at h
  · cases h
  · rename_i n hn
    split at h
    · rename_i hc
      cases h
      exact ⟨n, hn, hc.1, hc.2, rfl⟩
    · cases h

theorem BSONElement.valuesEqual_eq (a b : BSONElement) (va vb : Mem)
    (ha : a.isNumber = false) (hva : a.valueBytes = .ok va) (hvb : b.valueBytes = .ok vb) :
    a.valuesEqual b = .ok (decide (va = vb)) := by
  obtain ⟨n, hn, hn0, hn1, rfl⟩ := a.valueBytes_ok va hva
  obtain ⟨m, hm, hm0, hm1, rfl⟩ := b.valueBytes_ok vb hvb
  by_cases hnm : n = m
  · subst hnm
    simp only [BSONElement.valuesEqual, ha, Bool.false_eq_true, if_false, hn, hm, beq_self_eq_true,
      if_true, BSONObj.memEq, hn0, hn1, hm1, and_self]
    rw [beq_eq_decide]
    exact congrArg Except.ok (decide_eq_decide.mpr Iff.rfl)
  · have hne : (n == m) = false := by simpa using hnm
    simp only [BSONElement.valuesEqual, ha, Bool.false_eq_true, if_false, hn, hm, hne]
    congr 1
    symm
    rw [decide_eq_false_iff_not]
    intro hc
    have := congrArg List.length hc
    simp only [List.length_take] at this
    omega

/-- C13: for every two elements `a` and `b` of which `a` is not numeric and whose value
portions can be read (in particular when neither is numeric), `a.valuesEqual(b)` returns, and
it is true if and only if the two value portions have the same byte length and identical
bytes; `a == b` is true if and only if, in addition, the field names are equal. -/
theorem BSONElement.valuesEqual_iff_bytes (a b : BSONElement) (va vb : Mem)
    (ha : a.isNumber = false) (hva : a.valueBytes = .ok va) (hvb : b.valueBytes = .ok vb) :
    (∃ r, a.valuesEqual b = .ok r ∧ (r = true ↔ va.length = vb.length ∧ va = vb))
      ∧ (∃ r, a.equals b = .ok r
          ∧ (r = true ↔ a.fieldName = b.fieldName ∧ va.length = vb.length ∧ va = vb)) := by
  have h := BSONElement.valuesEqual_eq a b va vb ha hva hvb
  constructor
  · refine ⟨_, h, ?_⟩
    simp only [decide_eq_true_eq]
    exact ⟨fun hx => ⟨by rw [hx], hx⟩, fun hx => hx.2⟩
  · by_cases hn : a.fieldName = b.fieldName
    · refine ⟨decide (va = vb), by simp [BSONElement.equals, hn, h], ?_⟩
      simp only [decide_eq_true_eq]
      exact ⟨fun hx => ⟨hn, by rw [hx], hx⟩, fun hx => hx.2.2⟩
    · exact ⟨false, by simp [BSONElement.equals, hn], by simp [hn]⟩

/-- Witness for C13: the string elements `a : "x"` and `b : "x"`. -/
theorem BSONElement.valuesEqual_iff_bytes_witness :
    (BSONElement.mk [2, 97, 0, 2, 0, 0, 0, 120, 0, 0] 2).isNumber = false
      ∧ (BSONElement.mk [2, 97, 0, 2, 0, 0, 0, 120, 0, 0] 2).valueBytes
          = .ok [2, 0, 0, 0, 120, 0]
      ∧ (BSONElement.mk [2, 98, 0, 2, 0, 0, 0, 120, 0, 0] 2).valueBytes
          = .ok [2, 0, 0, 0, 120, 0]
      ∧ (∃ r, (BSONElement.mk [2, 97, 0, 2, 0, 0, 0, 120, 0, 0] 2).valuesEqual
            (BSONElement.mk [2, 98, 0, 2, 0, 0, 0, 120, 0, 0] 2) = .ok r
          ∧ (r = true ↔ ([2, 0, 0, 0, 120, 0] : Mem).length = ([2, 0, 0, 0, 120, 0] : Mem).length
              ∧ ([2, 0, 0, 0, 120, 0] : Mem) = [2, 0, 0, 0, 120, 0]))
      ∧ (∃ r, (BSONElement.mk [2, 97, 0, 2, 0, 0, 0, 120, 0, 0] 2).equals
            (BSONElement.mk [2, 98, 0, 2, 0, 0, 0, 120, 0, 0] 2) = .ok r
          ∧ (r = true ↔ (BSONElement.mk [2, 97, 0, 2, 0, 0, 0, 120, 0, 0] 2).fieldName
                = (BSONElement.mk [2, 98, 0, 2, 0, 0, 0, 120, 0, 0] 2).fieldName
              ∧ ([2, 0, 0, 0, 120, 0] : Mem).length = ([2, 0, 0, 0, 120, 0] : Mem).length
              ∧ ([2, 0, 0, 0, 120, 0] : Mem) = [2, 0, 0, 0, 120, 0])) :=
  ⟨by decide, by decide, by decide,
    BSONElement.valuesEqual_iff_bytes _ _ _ _ (by decide) (by decide) (by decide)⟩

theorem readLong_le64 (d : Nat) (rest : Mem) (hd : d < 2 ^ 64) :
    readLong (le64 d ++ rest) = .ok d := by
  simp only [le64, readLong, List.cons_append, List.nil_append, byteOf_val]
  congr 1
  norm_num at hd ⊢
  omega

theorem BSONObjBuilder.done_single (c : AppendCall) (hwf : c.wellFormed) (bb : BSONObjBuilder)
    (hrun : c.run BSONObjBuilder.new = .ok bb) (hsz : bb._done.length ≤ 16777216) :
    ∃ o, bb.done = .ok o ∧ o.objsize = (c.encode.length : Int) + 5
      ∧ o.firstElement = BSONElement.ofData (c.encode ++ [0])
      ∧ o.wellFormed [c.encode] := by
  obtain ⟨bb2, hrun2, hdata, h⟩ := BSONObjBuilder.done_wellFormed [c] (by simpa using hwf)
  have hbb : bb2 = bb := by
    simp only [AppendCall.runAll, hrun] at hrun2
    exact (Except.ok.inj hrun2).symm
  subst hbb
  obtain ⟨-, o, hdone, hobj, hsize, hwfo⟩ := h hsz
  have h4 : 4 ≤ bb2.b.data.length := by rw [hdata]; simp
  have heq := bb2._done_eq h4
  have hlen := bb2._done_length h4
  simp only [List.map_cons, List.map_nil, List.flatten_cons, List.flatten_nil,
    List.append_nil] at hdata
  have hdrop : bb2._done.drop 4 = c.encode ++ [0] := by
    rw [heq, List.drop_left' (le32_length _), hdata]
    rfl
  refine ⟨o, hdone, ?_, ?_, by simpa using hwfo⟩
  · rw [hsize, hlen, hdata]
    simp only [List.length_append, List.length_cons, List.length_nil]
    push_cast
    omega
  · simp only [BSONObj.firstElement, hobj, hdrop]

theorem compareElementValuesAux_number (fuel : Nat) (l r : BSONElement)
    (h : l.isNumber = true) (woc : BSONObj → BSONObj → Except Fault Int) :
    compareElementValuesAux fuel l r = l.compareElementValuesBy woc r := by
  cases fuel <;>
    simp only [compareElementValuesAux, BSONElement.compareElementValuesBy, h, if_true]

/-- C12: for every field name `n`, every int32 `v` and every double whose value is `v`, the
elements `n : int32(v)` and `n : double(v)` of the single-field documents built with
`appendInt` and `append(n, double)` are equal as elements (`valuesEqual` and `operator==` are
true in both directions, and the element comparison gives 0 whether or not the field name is
considered, the comparison of the two values giving 0 whatever the comparison of nested
documents is), while the two documents are not shallow-equal (`woEqual` is false in both
directions). -/
theorem BSONElement.int_double_equal (n : Mem) (v : Int) (d : Nat)
    (hn : (0 : Byte) ∉ n) (hv1 : -2147483648 ≤ v) (hv2 : v < 2147483648) (hd0 : d < 2 ^ 64)
    (hd : DoubleVal.ofBits d = .finite v) (hsz : n.length + 15 ≤ 16777216) :
    ∃ o1 o2 a b, (BSONObjBuilder.new.appendInt n v).done = .ok o1
      ∧ (BSONObjBuilder.new.appendDouble n d).done = .ok o2
      ∧ o1.firstElement = .ok a ∧ o2.firstElement = .ok b
      ∧ a.type = BSONType.NumberInt ∧ b.type = BSONType.NumberDouble
      ∧ a.fieldName = n ∧ b.fieldName = n
      ∧ a.valuesEqual b = .ok true ∧ b.valuesEqual a = .ok true
      ∧ a.equals b = .ok true ∧ b.equals a = .ok true
      ∧ (∀ k, a.woCompare b k = .ok 0 ∧ b.woCompare a k = .ok 0)
      ∧ (∀ woc, a.compareElementValuesBy woc b = .ok 0
          ∧ b.compareElementValuesBy woc a = .ok 0)
      ∧ o1.woEqual o2 = .ok false ∧ o2.woEqual o1 = .ok false := by
  have hl1 : (AppendCall.int n v).encode.length = n.length + 6 := by
    simp [AppendCall.encode, AppendCall.fieldName, AppendCall.valueBytes, le32_length]
  have hl2 : (AppendCall.double n d).encode.length = n.length + 10 := by
    simp [AppendCall.encode, AppendCall.fieldName, AppendCall.valueBytes, le64_length]
  have hr1 := AppendCall.run_encode (AppendCall.int n v) hn BSONObjBuilder.new
  have hr2 := AppendCall.run_encode (AppendCall.double n d) hn BSONObjBuilder.new
  have hd1 : (BSONObjBuilder.mk ⟨BSONObjBuilder.new.b.data
      ++ (AppendCall.int n v).encode⟩)._done.length ≤ 16777216 := by
    rw [BSONObjBuilder._done_length _ (by simp [BSONObjBuilder.new, BufBuilder.skip])]
    simp only [List.length_append, hl1]
    simp [BSONObjBuilder.new, BufBuilder.skip]
    omega
  have hd2 : (BSONObjBuilder.mk ⟨BSONObjBuilder.new.b.data
      ++ (AppendCall.double n d).encode⟩)._done.length ≤ 16777216 := by
    rw [BSONObjBuilder._done_length _ (by simp [BSONObjBuilder.new, BufBuilder.skip])]
    simp only [List.length_append, hl2]
    simp [BSONObjBuilder.new, BufBuilder.skip]
    omega
  obtain ⟨o1, ho1, hs1, hf1, -⟩ := BSONObjBuilder.done_single (AppendCall.int n v) hn _ hr1 hd1
  obtain ⟨o2, ho2, hs2, hf2, -⟩ := BSONObjBuilder.done_single (AppendCall.double n d) hn _ hr2 hd2
  have hrun1 : (AppendCall.int n v).run BSONObjBuilder.new
      = .ok (BSONObjBuilder.new.appendInt n v) := rfl
  have hrun2 : (AppendCall.double n d).run BSONObjBuilder.new
      = .ok (BSONObjBuilder.new.appendDouble n d) := rfl
  rw [hr1] at hrun1
  rw [hr2] at hrun2
  rw [Except.ok.inj hrun1] at ho1
  rw [Except.ok.inj hrun2] at ho2
  -- the two elements
  have he1 : (AppendCall.int n v).encode ++ [0]
      = charOf BSONType.NumberInt :: (n ++ 0 :: (le32 v ++ [0])) := by
    simp [AppendCall.encode, AppendCall.fieldName, AppendCall.valueBytes, AppendCall.kind]
  have he2 : (AppendCall.double n d).encode ++ [0]
      = charOf BSONType.NumberDouble :: (n ++ 0 :: (le64 d ++ [0])) := by
    simp [AppendCall.encode, AppendCall.fieldName, AppendCall.valueBytes, AppendCall.kind]
  rw [he1, BSONElement.ofData_field _ _ _ (by decide) hn] at hf1
  rw [he2, BSONElement.ofData_field _ _ _ (by decide) hn] at hf2
  have hva := BSONElement.value_field (charOf BSONType.NumberInt) n (le32 v ++ [0])
  have hvb := BSONElement.value_field (charOf BSONType.NumberDouble) n (le64 d ++ [0])
  have hta : (BSONElement.mk (charOf BSONType.NumberInt :: (n ++ 0 :: (le32 v ++ [0])))
      ((n.length : Int) + 1)).type = 16 := rfl
  have htb : (BSONElement.mk (charOf BSONType.NumberDouble :: (n ++ 0 :: (le64 d ++ [0])))
      ((n.length : Int) + 1)).type = 1 := rfl
  have hna := BSONElement.fieldName_field (charOf BSONType.NumberInt) n (le32 v ++ [0])
    (by decide) hn
  have hnb := BSONElement.fieldName_field (charOf BSONType.NumberDouble) n (le64 d ++ [0])
    (by decide) hn
  have hnuma : (BSONElement.mk (charOf BSONType.NumberInt :: (n ++ 0 :: (le32 v ++ [0])))
      ((n.length : Int) + 1)).number = .ok (.finite v) := by
    simp [BSONElement.number, hta, hva, readInt_le32 v [0] hv1 hv2, DoubleVal.ofInt]
  have hnumb : (BSONElement.mk (charOf BSONType.NumberDouble :: (n ++ 0 :: (le64 d ++ [0])))
      ((n.length : Int) + 1)).number = .ok (.finite v) := by
    simp [BSONElement.number, htb, hvb, readLong_le64 d [0] hd0, hd]
  refine ⟨o1, o2, _, _, ho1, ho2, hf1, hf2, hta, htb, hna, hnb, ?_, ?_, ?_, ?_, ?_, ?_, ?_,
    ?_⟩
  · simp [BSONElement.valuesEqual, BSONElement.isNumber, hta, htb, hnuma, hnumb, DoubleVal.eq]
  · simp [BSONElement.valuesEqual, BSONElement.isNumber, hta, htb, hnuma, hnumb, DoubleVal.eq]
  · simp [BSONElement.equals, hna, hnb, BSONElement.valuesEqual, BSONElement.isNumber, hta, htb,
      hnuma, hnumb, DoubleVal.eq]
  · simp [BSONElement.equals, hna, hnb, BSONElement.valuesEqual, BSONElement.isNumber, hta, htb,
      hnuma, hnumb, DoubleVal.eq]
  · intro k
    have hia : (BSONElement.mk (charOf BSONType.NumberInt :: (n ++ 0 :: (le32 v ++ [0])))
        ((n.length : Int) + 1)).isNumber = true := by simp [BSONElement.isNumber, hta]
    have hib : (BSONElement.mk (charOf BSONType.NumberDouble :: (n ++ 0 :: (le64 d ++ [0])))
        ((n.length : Int) + 1)).isNumber = true := by simp [BSONElement.isNumber, htb]
    constructor <;>
    simp [BSONElement.woCompare, BSONElement.woCompareBy, compareElementValues,
      compareElementValuesAux_number _ _ _ hia (fun _ _ => .ok 0),
      compareElementValuesAux_number _ _ _ hib (fun _ _ => .ok 0),
      BSONElement.compareElementValuesBy, hna, hnb, BSONElement.orderingKind,
      BSONElement.isNumber, hta, htb, hnuma, hnumb, DoubleVal.eq, DoubleVal.lt]
  · intro woc
    constructor <;>
    simp [BSONElement.compareElementValuesBy, BSONElement.isNumber, hta, htb, hnuma, hnumb,
      DoubleVal.eq, DoubleVal.lt]
  · have hne : o1.objsize ≠ o2.objsize := by rw [hs1, hs2, hl1, hl2]; push_cast; omega
    simp [BSONObj.woEqual, hne]
  · have hne : o2.objsize ≠ o1.objsize := by rw [hs1, hs2, hl1, hl2]; push_cast; omega
    simp [BSONObj.woEqual, hne]

/-- Witness for C12: the name `a`, the value 5 and the double 5.0 (0x4014000000000000). -/
theorem BSONElement.int_double_equal_witness :
    (0 : Byte) ∉ ([97] : Mem) ∧ DoubleVal.ofBits 4617315517961601024 = .finite 5
      ∧ ∃ o1 o2 a b, (BSONObjBuilder.new.appendInt [97] 5).done = .ok o1
        ∧ (BSONObjBuilder.new.appendDouble [97] 4617315517961601024).done = .ok o2
        ∧ o1.firstElement = .ok a ∧ o2.firstElement = .ok b
        ∧ a.type = BSONType.NumberInt ∧ b.type = BSONType.NumberDouble
        ∧ a.fieldName = [97] ∧ b.fieldName = [97]
        ∧ a.valuesEqual b = .ok true ∧ b.valuesEqual a = .ok true
        ∧ a.equals b = .ok true ∧ b.equals a = .ok true
        ∧ (∀ k, a.woCompare b k = .ok 0 ∧ b.woCompare a k = .ok 0)
      ∧ (∀ woc, a.compareElementValuesBy woc b = .ok 0
          ∧ b.compareElementValuesBy woc a = .ok 0)
        ∧ o1.woEqual o2 = .ok false ∧ o2.woEqual o1 = .ok false :=
  ⟨by decide, by norm_num [DoubleVal.ofBits],
    BSONElement.int_double_equal [97] 5 4617315517961601024 (by decide) (by decide) (by decide)
      (by norm_num) (by norm_num [DoubleVal.ofBits]) (by decide)⟩

/-- C18 refuted as stated: on a fresh builder a first `done()` yields the 5-byte empty
document, and a second `done()` on the builder so finalized is not rejected: it yields a
document of 6 bytes, with a second end marker. -/
theorem BSONObjBuilder.done_twice_accepted :
    ∃ o1 o2, BSONObjBuilder.new.done = .ok o1 ∧ o1.objsize = 5
      ∧ BSONObjBuilder.new.afterDone.done = .ok o2 ∧ o2.objsize = 6
      ∧ o2.objdata = .ok [6, 0, 0, 0, 0, 0] :=
  ⟨⟨some ⟨[5, 0, 0, 0, 0], 5, -1⟩⟩, ⟨some ⟨[6, 0, 0, 0, 0, 0], 6, -1⟩⟩, by decide, by decide,
    by decide, by decide, by decide⟩

/-- C18 as amended: a second `done()` on a builder that has already been finalized is not
rejected (the builder keeps no record of its finalization): as long as the buffer stays within
the 16 MiB of a document, both calls yield a document, and the second call appends one more end
marker and patches the size again, so that its document is one byte longer than the first. -/
theorem BSONObjBuilder.done_twice (calls : List AppendCall) (bb : BSONObjBuilder)
    (hrun : AppendCall.runAll calls BSONObjBuilder.new = .ok bb)
    (hsz : bb._done.length + 1 ≤ 16777216) :
    ∃ o1 o2, bb.done = .ok o1 ∧ bb.afterDone.done = .ok o2
      ∧ o2.objsize = o1.objsize + 1
      ∧ o2.objdata = .ok (le32 (o1.objsize + 1) ++ (bb._done.drop 4 ++ [0])) := by
  obtain ⟨added, hadd⟩ := AppendCall.runAll_extends calls _ _ hrun
  have h4 : 4 ≤ bb.b.data.length := by
    rw [hadd]; simp [BSONObjBuilder.new, BufBuilder.skip]
  have hlen := bb._done_length h4
  have heq := bb._done_eq h4
  have h4' : 4 ≤ bb.afterDone.b.data.length := by
    show 4 ≤ bb._done.length
    omega
  have heq' := bb.afterDone._done_eq h4'
  have hd : bb.afterDone.b.data = bb._done := rfl
  rw [hd] at heq'
  have hr1 : readInt bb._done = .ok ((bb.b.data.length : Int) + 1) := by
    rw [heq]; exact readInt_le32 _ _ (by omega) (by omega)
  have hr2 : readInt bb.afterDone._done = .ok ((bb._done.length : Int) + 1) := by
    rw [heq']; exact readInt_le32 _ _ (by omega) (by omega)
  have ha1 : (bb.b.data.length : Int) + 1 > 0 := by omega
  have ha2 : ¬ (16777216 < (bb.b.data.length : Int) + 1) := by omega
  have hb1 : (bb._done.length : Int) + 1 > 0 := by omega
  have hb2 : ¬ (16777216 < (bb._done.length : Int) + 1) := by omega
  refine ⟨⟨some ⟨bb._done, (bb.b.data.length : Int) + 1, -1⟩⟩,
    ⟨some ⟨bb.afterDone._done, (bb._done.length : Int) + 1, -1⟩⟩, ?_, ?_, ?_, ?_⟩
  · simp [BSONObjBuilder.done, BSONObj.ofData, BSONObj.init, hr1, ha1, ha2]
  · simp [BSONObjBuilder.done, BSONObj.ofData, BSONObj.init, hr2, hb1, hb2]
  · simp only [BSONObj.objsize, hlen]; push_cast; rfl
  · simp only [BSONObj.objdata, BSONObj.objsize, heq', hlen]
    push_cast
    rfl

/-- Witness for the amended C18: the builder after `appendInt("a", 1)`. -/
theorem BSONObjBuilder.done_twice_witness :
    AppendCall.runAll [AppendCall.int [97] 1] BSONObjBuilder.new
        = .ok (BSONObjBuilder.new.appendInt [97] 1)
      ∧ (BSONObjBuilder.new.appendInt [97] 1)._done.length + 1 ≤ 16777216
      ∧ ∃ o1 o2, (BSONObjBuilder.new.appendInt [97] 1).done = .ok o1
        ∧ (BSONObjBuilder.new.appendInt [97] 1).afterDone.done = .ok o2
        ∧ o2.objsize = o1.objsize + 1
        ∧ o2.objdata = .ok (le32 (o1.objsize + 1)
            ++ ((BSONObjBuilder.new.appendInt [97] 1)._done.drop 4 ++ [0])) :=
  ⟨by decide, by decide,
    BSONObjBuilder.done_twice [AppendCall.int [97] 1] _ (by decide) (by decide)⟩

/-! ## Copying the fields of a document, embedded documents -/

theorem take4_of_readInt (m : Mem) (n : Int) (h : readInt m = .ok n) : m.take 4 = le32 n := by
  match m, h with
  | b0 :: b1 :: b2 :: b3 :: tl, h =>
    simp only [readInt, Except.ok.injEq] at h
    have h0 := b0.isLt
    have h1 := b1.isLt
    have h2 := b2.isLt
    have h3 := b3.isLt
    simp only [List.take, le32, List.cons.injEq, and_true]
    refine ⟨?_, ?_, ?_, ?_⟩ <;> apply Fin.ext <;> simp only [byteOf_val] <;>
      split at h <;> omega

theorem BSONObjBuilder.appendElementsLoop_fields (fields : List Mem)
    (hf : ∀ enc ∈ fields, IsField enc) (tl : Mem) :
    ∀ (pre : Mem) (fuel : Nat) (bb : BSONObjBuilder), fields.length + 1 ≤ fuel →
      BSONObjBuilder.appendElementsLoop fuel
          ⟨pre ++ (fields.flatten ++ 0 :: tl), pre.length,
            (pre.length : Int) + (fields.flatten.length : Int) + 1⟩ bb
        = .ok ⟨⟨bb.b.data ++ fields.flatten⟩⟩ := by
  induction fields with
  | nil =>
    intro pre fuel bb hfuel
    obtain ⟨k, rfl⟩ : ∃ k, fuel = k + 1 := ⟨fuel - 1, by omega⟩
    have hmore0 : (BSONObjIterator.mk (pre ++ 0 :: tl) (pre.length : Int)
        ((pre.length : Int) + 0 + 1)).more = true := by
      simp [BSONObjIterator.more]
    have hnext := BSONObjIterator.next_at pre (0 :: tl) ((pre.length : Int) + 0 + 1) _ 1
      (by omega) (BSONElement.ofData_eoo tl) (BSONElement.size_eoo tl)
    have heoo : (BSONElement.mk (0 :: tl) 0).eoo = true := rfl
    simp only [List.flatten_nil, List.nil_append, List.length_nil, Nat.cast_zero,
      List.append_nil]
    rw [BSONObjBuilder.appendElementsLoop, hmore0]
    simp only [if_true, hnext, heoo]
  | cons f fs ih =>
    intro pre fuel bb hfuel
    obtain ⟨k, rfl⟩ : ∃ k, fuel = k + 1 := ⟨fuel - 1, by omega⟩
    obtain ⟨e, he, heoo, hsz⟩ := hf f (by simp) (fs.flatten ++ 0 :: tl)
    have hih := ih (fun enc henc => hf enc (by simp [henc])) (pre ++ f) k
      ⟨⟨bb.b.data ++ f⟩⟩ (by simp only [List.length_cons] at hfuel; omega)
    have hfl : (f :: fs).flatten = f ++ fs.flatten := List.flatten_cons
    rw [hfl]
    have hlen : ((f ++ fs.flatten).length : Int)
        = (f.length : Int) + (fs.flatten.length : Int) := by
      rw [List.length_append]; push_cast; rfl
    have hbuf : pre ++ ((f ++ fs.flatten) ++ 0 :: tl)
        = pre ++ (f ++ (fs.flatten ++ 0 :: tl)) := by
      rw [List.append_assoc]
    have hpos : (pre.length : Int) + (f.length : Int) = ((pre ++ f).length : Int) := by
      rw [List.length_append]; push_cast; rfl
    have hend : (pre.length : Int) + ((f ++ fs.flatten).length : Int) + 1
        = ((pre ++ f).length : Int) + (fs.flatten.length : Int) + 1 := by
      rw [hlen, ← hpos]; omega
    have hnext := BSONObjIterator.next_at pre (f ++ (fs.flatten ++ 0 :: tl))
      ((pre.length : Int) + ((f ++ fs.flatten).length : Int) + 1) e (f.length : Int)
      (by omega) he hsz
    have hmore : (BSONObjIterator.mk (pre ++ (f ++ (fs.flatten ++ 0 :: tl)))
        (pre.length : Int) ((pre.length : Int) + ((f ++ fs.flatten).length : Int) + 1)).more
          = true := by
      simp only [BSONObjIterator.more, decide_eq_true_eq]; omega
    have hdata := BSONElement.ofData_data _ _ _ he
    have happ : bb.appendElement e = .ok ⟨⟨bb.b.data ++ f⟩⟩ := by
      have h1 : (f.length : Int) ≤ ((f ++ (fs.flatten ++ 0 :: tl)).length : Int) := by
        rw [List.length_append]; push_cast; omega
      have h2 : (f ++ (fs.flatten ++ 0 :: tl)).take f.length = f := List.take_left' rfl
      have hcond : 0 ≤ (f.length : Int)
          ∧ (f.length : Int) ≤ ((f ++ (fs.flatten ++ 0 :: tl)).length : Int) := ⟨by omega, h1⟩
      simp only [BSONObjBuilder.appendElement, heoo, Bool.false_eq_true, if_false, hsz, hdata,
        BufBuilder.appendBuf, hcond, and_self, if_true, Int.toNat_ofNat, h2]
    rw [hbuf, BSONObjBuilder.appendElementsLoop, hmore]
    simp only [if_true, hnext, heoo, Bool.false_eq_true, if_false, happ]
    have hbuf2 : pre ++ (f ++ (fs.flatten ++ 0 :: tl))
        = (pre ++ f) ++ (fs.flatten ++ 0 :: tl) := by
      rw [List.append_assoc]
    rw [hbuf2, hpos, hend, hih, List.append_assoc]

theorem BSONObj.wellFormed_layout (x : BSONObj) (fields : List Mem)
    (hwf : x.wellFormed fields) :
    ∃ p tl, x.objdata = .ok p ∧ p = le32 x.objsize ++ (fields.flatten ++ 0 :: tl)
      ∧ x.objsize = 4 + (fields.flatten.length : Int) + 1
      ∧ x.bytes = le32 x.objsize ++ (fields.flatten ++ [0])
      ∧ fields.length ≤ fields.flatten.length := by
  obtain ⟨_ | d⟩ := x
  · exact absurd hwf (by simp [BSONObj.wellFormed])
  · obtain ⟨hf, hr, hsz, tl, hbuf⟩ := hwf
    have ht := take4_of_readInt _ _ hr
    rw [ht] at hbuf
    refine ⟨d._objdata, tl, rfl, hbuf, hsz, ?_, IsField.length_le_flatten fields hf⟩
    simp only [BSONObj.bytes, BSONObj.objsize]
    have hn : d._objsize.toNat = (le32 d._objsize ++ (fields.flatten ++ [0])).length := by
      simp only [List.length_append, le32_length, List.length_singleton]
      omega
    rw [hn]
    conv_lhs => rw [hbuf]
    rw [show le32 d._objsize ++ (fields.flatten ++ 0 :: tl)
      = (le32 d._objsize ++ (fields.flatten ++ [0])) ++ tl by simp]
    exact List.take_left' rfl

/-- C19: for every well-formed (non-null) document `x`, `appendElements(x)` extends the buffer
of any builder by exactly the bytes of `x` between its 4-byte size field and its end marker,
in order; and when `x` is within the 16 MiB of a document, a fresh builder on which
`appendElements(x)` is called and which is then finalized yields a document byte-identical
(`woEqual`) to `x`. -/
theorem BSONObjBuilder.appendElements_copies (x : BSONObj) (fields : List Mem)
    (bb : BSONObjBuilder) (hwf : x.wellFormed fields) :
    bb.appendElements x = .ok ⟨⟨bb.b.data ++ (x.bytes.drop 4).dropLast⟩⟩
      ∧ (x.bytes.drop 4).dropLast = fields.flatten
      ∧ (x.objsize ≤ 16777216 →
          ∃ bb2 o, BSONObjBuilder.new.appendElements x = .ok bb2 ∧ bb2.done = .ok o
            ∧ o.bytes = x.bytes ∧ o.woEqual x = .ok true) := by
  obtain ⟨p, tl, hp, hpeq, hsz, hbytes, hflen⟩ := x.wellFormed_layout fields hwf
  have hmid : (x.bytes.drop 4).dropLast = fields.flatten := by
    rw [hbytes, List.drop_left' (le32_length _)]
    simp
  have hloop : ∀ b : BSONObjBuilder, b.appendElements x = .ok ⟨⟨b.b.data ++ fields.flatten⟩⟩ := by
    intro b
    have hne : (x.objsize == 0) = false := by
      simp only [beq_eq_false_iff_ne, ne_eq]; omega
    have h := BSONObjBuilder.appendElementsLoop_fields fields
      (by obtain ⟨_ | d⟩ := x
          · exact absurd hwf (by simp [BSONObj.wellFormed])
          · exact hwf.1) tl (le32 x.objsize) x.scanFuel b
      (by simp only [BSONObj.scanFuel]; omega)
    simp only [BSONObjBuilder.appendElements, BSONObjIterator.ofObj, hne, hp,
      Bool.false_eq_true, if_false]
    rw [← h, hpeq, hsz]
    rfl
  refine ⟨by rw [hmid]; exact hloop bb, hmid, ?_⟩
  intro hmax
  have hnew := hloop BSONObjBuilder.new
  generalize hbb : (BSONObjBuilder.mk ⟨BSONObjBuilder.new.b.data ++ fields.flatten⟩) = bb2
    at hnew
  have hdata : bb2.b.data = [0, 0, 0, 0] ++ fields.flatten := by rw [← hbb]; rfl
  have h4 : 4 ≤ bb2.b.data.length := by rw [hdata]; simp
  have heq := bb2._done_eq h4
  have hl : (bb2.b.data.length : Int) + 1 = x.objsize := by
    rw [hdata, hsz, List.length_append]
    simp only [List.length_cons, List.length_nil]
    push_cast
    omega
  have hdrop : bb2.b.data.drop 4 = fields.flatten := by rw [hdata]; rfl
  rw [hl, hdrop] at heq
  have hread : readInt bb2._done = .ok x.objsize := by
    rw [heq]; exact readInt_le32 _ _ (by omega) (by omega)
  have h1 : x.objsize > 0 := by omega
  have h2 : ¬ (16777216 < x.objsize) := by omega
  have hdone : bb2.done = .ok ⟨some ⟨bb2._done, x.objsize, -1⟩⟩ := by
    simp [BSONObjBuilder.done, BSONObj.ofData, BSONObj.init, hread, h1, h2]
  have hob : (BSONObj.mk (some ⟨bb2._done, x.objsize, -1⟩)).bytes = x.bytes := by
    rw [hbytes]
    simp only [BSONObj.bytes]
    rw [heq]
    exact List.take_of_length_le (by
      simp only [List.length_append, le32_length, List.length_singleton]; omega)
  refine ⟨bb2, _, hnew, hdone, hob, ?_⟩
  have hrx : x.readable := by
    obtain ⟨_ | d⟩ := x
    · trivial
    · simp only [BSONObj.objdata, Except.ok.injEq] at hp
      subst hp
      simp only [BSONObj.objsize] at hsz hpeq
      refine ⟨by omega, ?_⟩
      have := congrArg List.length hpeq
      simp only [List.length_append, le32_length, List.length_cons] at this
      omega
  have hro : (BSONObj.mk (some ⟨bb2._done, x.objsize, -1⟩)).readable := by
    refine ⟨show 0 ≤ x.objsize by omega, ?_⟩
    show x.objsize ≤ (bb2._done.length : Int)
    rw [heq]
    simp only [List.length_append, le32_length, List.length_singleton]
    push_cast
    omega
  rw [BSONObj.woEqual_eq _ _ hro hrx, hob]
  simp [BSONObj.objsize]

theorem BSONObj.wellFormed_example :
    (BSONObj.mk (some ⟨[12, 0, 0, 0, 16, 97, 0, 1, 0, 0, 0, 0], 12, -1⟩)).wellFormed
      [[16, 97, 0, 1, 0, 0, 0]] := by
  refine ⟨?_, by decide, by decide, [], by decide⟩
  intro enc henc
  have henc2 : enc = (AppendCall.int [97] 1).encode := by
    rw [List.mem_singleton] at henc
    rw [henc]
    decide
  rw [henc2]
  exact AppendCall.isField_encode _ (by decide) (by decide)

/-- Witness for C19: the document `{ a : 1 }` appended to a fresh builder. -/
theorem BSONObjBuilder.appendElements_copies_witness :
    (BSONObj.mk (some ⟨[12, 0, 0, 0, 16, 97, 0, 1, 0, 0, 0, 0], 12, -1⟩)).wellFormed
        [[16, 97, 0, 1, 0, 0, 0]]
      ∧ BSONObjBuilder.new.appendElements
          (BSONObj.mk (some ⟨[12, 0, 0, 0, 16, 97, 0, 1, 0, 0, 0, 0], 12, -1⟩))
        = .ok ⟨⟨[0, 0, 0, 0, 16, 97, 0, 1, 0, 0, 0]⟩⟩
      ∧ ∃ bb2 o, BSONObjBuilder.new.appendElements
            (BSONObj.mk (some ⟨[12, 0, 0, 0, 16, 97, 0, 1, 0, 0, 0, 0], 12, -1⟩)) = .ok bb2
          ∧ bb2.done = .ok o
          ∧ o.bytes = (BSONObj.mk (some ⟨[12, 0, 0, 0, 16, 97, 0, 1, 0, 0, 0, 0], 12, -1⟩)).bytes
          ∧ o.woEqual (BSONObj.mk (some ⟨[12, 0, 0, 0, 16, 97, 0, 1, 0, 0, 0, 0], 12, -1⟩))
              = .ok true :=
  ⟨BSONObj.wellFormed_example,
    (BSONObjBuilder.appendElements_copies _ _ BSONObjBuilder.new BSONObj.wellFormed_example).1,
    (BSONObjBuilder.appendElements_copies _ _ BSONObjBuilder.new
      BSONObj.wellFormed_example).2.2 (by decide)⟩

theorem BSONObjBuilder.embedded_roundtrip (c : AppendCall) (n : Mem) (s : BSONObj) (k : Int)
    (hc : (c = AppendCall.object n s ∧ k = BSONType.Object)
      ∨ (c = AppendCall.array n s ∧ k = BSONType.Array))
    (hn : (0 : Byte) ∉ n) (hs : s.embeddable)
    (hsz : (n.length : Int) + s.objsize + 7 ≤ 16777216) :
    ∃ bb o e sub, c.run BSONObjBuilder.new = .ok bb ∧ bb.done = .ok o
      ∧ o.findElement n = .ok e ∧ e.type = k
      ∧ e.embeddedObject = .ok sub ∧ sub.bytes = s.bytes ∧ sub.woEqual s = .ok true := by
  have hwf : c.wellFormed := by
    rcases hc with ⟨rfl, -⟩ | ⟨rfl, -⟩ <;> exact ⟨hn, hs⟩
  have hkind : c.kind = k := by
    rcases hc with ⟨rfl, rfl⟩ | ⟨rfl, rfl⟩ <;> rfl
  have hname : c.fieldName = n := by
    rcases hc with ⟨rfl, -⟩ | ⟨rfl, -⟩ <;> rfl
  have hval : c.valueBytes = s.bytes := by
    rcases hc with ⟨rfl, -⟩ | ⟨rfl, -⟩ <;> rfl
  have hk3 : k = 3 ∨ k = 4 := by
    rcases hc with ⟨-, rfl⟩ | ⟨-, rfl⟩ <;> simp
  have hbl := s.bytes_length hs
  have hs4 : 4 ≤ s.objsize := by
    obtain ⟨_ | d⟩ := s
    · exact absurd hs (by simp [BSONObj.embeddable])
    · exact hs.2.1
  have hrun := c.run_encode hwf BSONObjBuilder.new
  have hel := c.encode_length
  rw [hval, hname, hbl] at hel
  have hd : (BSONObjBuilder.mk ⟨BSONObjBuilder.new.b.data ++ c.encode⟩)._done.length
      ≤ 16777216 := by
    rw [BSONObjBuilder._done_length _ (by simp [BSONObjBuilder.new, BufBuilder.skip])]
    have : (BSONObjBuilder.new.b.data ++ c.encode).length = 4 + c.encode.length := by
      rw [List.length_append]; rfl
    show (BSONObjBuilder.new.b.data ++ c.encode).length + 1 ≤ 16777216
    omega
  obtain ⟨o, hdone, hosz, hfirst, howf⟩ := BSONObjBuilder.done_single c hwf _ hrun hd
  -- the element
  have henc : c.encode ++ [0] = charOf k :: (n ++ 0 :: (s.bytes ++ [0])) := by
    simp [AppendCall.encode, hkind, hname, hval]
  have hkne : charToInt (charOf k) ≠ 0 := by
    rcases hk3 with rfl | rfl <;> decide
  have hof := BSONElement.ofData_field (charOf k) n (s.bytes ++ [0]) hkne hn
  have hty : (BSONElement.mk (charOf k :: (n ++ 0 :: (s.bytes ++ [0])))
      ((n.length : Int) + 1)).type = k := by
    rw [BSONElement.type_field]
    rcases hk3 with rfl | rfl <;> decide
  have hfn := BSONElement.fieldName_field (charOf k) n (s.bytes ++ [0]) hkne hn
  have hv := BSONElement.value_field (charOf k) n (s.bytes ++ [0])
  -- the scan finds it first
  obtain ⟨tl, es, p, hp, hdrop, hes, hall⟩ := o.elements_wellFormed _ howf
  have hne : o.isEmpty = false := by
    simp only [BSONObj.isEmpty, hosz, decide_eq_false_iff_not]; omega
  have hit : ∃ it, BSONObjIterator.ofObj o = .ok it := by
    simp only [BSONObj.elements] at hes
    split at hes
    · cases hes
    · exact ⟨_, by assumption⟩
  obtain ⟨it, hit⟩ := hit
  have hloop : BSONObj.findElementLoop n o.scanFuel it
      = .ok (es.find? (fun e => decide (n = e.fieldName))) := by
    simp only [BSONObj.elements, hit] at hes
    exact BSONObj.findElementLoop_eq n _ it _ hes
  simp only [BSONObj.firstElement, hp] at hfirst
  simp only [starts, List.flatten_nil, List.nil_append, List.flatten_cons,
    List.append_nil] at hall hdrop
  cases hall with
  | cons h1 h2 =>
    rename_i e1 es2
    rw [hdrop] at hfirst
    rw [h1, henc, hof] at hfirst
    have he1 := Except.ok.inj hfirst
    subst he1
    have hfind : (BSONElement.mk (charOf k :: (n ++ 0 :: (s.bytes ++ [0])))
        ((n.length : Int) + 1) :: es2).find? (fun e => decide (n = e.fieldName))
          = some ⟨charOf k :: (n ++ 0 :: (s.bytes ++ [0])), (n.length : Int) + 1⟩ := by
      simp [List.find?_cons, hfn]
    rw [hfind] at hloop
    refine ⟨_, o, _, ⟨some ⟨s.bytes ++ [0], s.objsize, -1⟩⟩, hrun, hdone, ?_, hty, ?_, ?_, ?_⟩
    · simp [BSONObj.findElement, hne, hit, hloop]
    · have hr := s.readInt_bytes hs [0]
      have h1 : s.objsize > 0 := by omega
      have h2 : ¬ (16777216 < s.objsize) := by omega
      have hob : (k == BSONType.Object || k == BSONType.Array) = true := by
        rcases hk3 with rfl | rfl <;> rfl
      simp only [BSONElement.embeddedObject, hty, hob, if_true, hv]
      simp [BSONObj.ofData, BSONObj.init, hr, h1, h2]
    · show List.take s.objsize.toNat (s.bytes ++ [0]) = s.bytes
      exact List.take_left' (by omega)
    · have hrs : s.readable := by
        obtain ⟨_ | d⟩ := s
        · trivial
        · exact ⟨by have := hs.2.1; omega, hs.2.2⟩
      have hrsub : (BSONObj.mk (some ⟨s.bytes ++ [0], s.objsize, -1⟩)).readable := by
        refine ⟨show 0 ≤ s.objsize by omega, ?_⟩
        show s.objsize ≤ ((s.bytes ++ [0]).length : Int)
        rw [List.length_append]; push_cast; omega
      have hb : (BSONObj.mk (some ⟨s.bytes ++ [0], s.objsize, -1⟩)).bytes = s.bytes := by
        show List.take s.objsize.toNat (s.bytes ++ [0]) = s.bytes
        exact List.take_left' (by omega)
      rw [BSONObj.woEqual_eq _ _ hrsub hrs, hb]
      simp [BSONObj.objsize]

/-- C20: for every field name `n` and every embeddable (in particular every well-formed,
non-null) document `s` such that the finalized buffer is within the 16 MiB of a document, after
`append(n, s)` (respectively `appendArray(n, s)`) on a fresh builder and `done()`,
`findElement(n)` is an element of kind Object (respectively Array) whose `embeddedObject()` is
byte-identical (`woEqual`) to `s`. -/
theorem BSONObjBuilder.append_object_embedded (n : Mem) (s : BSONObj)
    (hn : (0 : Byte) ∉ n) (hs : s.embeddable)
    (hsz : (n.length : Int) + s.objsize + 7 ≤ 16777216) :
    (∃ bb o e sub, BSONObjBuilder.new.appendObject n s = .ok bb ∧ bb.done = .ok o
        ∧ o.findElement n = .ok e ∧ e.type = BSONType.Object
        ∧ e.embeddedObject = .ok sub ∧ sub.bytes = s.bytes ∧ sub.woEqual s = .ok true)
      ∧ (∃ bb o e sub, BSONObjBuilder.new.appendArray n s = .ok bb ∧ bb.done = .ok o
        ∧ o.findElement n = .ok e ∧ e.type = BSONType.Array
        ∧ e.embeddedObject = .ok sub ∧ sub.bytes = s.bytes ∧ sub.woEqual s = .ok true) :=
  ⟨BSONObjBuilder.embedded_roundtrip (AppendCall.object n s) n s BSONType.Object
      (Or.inl ⟨rfl, rfl⟩) hn hs hsz,
    BSONObjBuilder.embedded_roundtrip (AppendCall.array n s) n s BSONType.Array
      (Or.inr ⟨rfl, rfl⟩) hn hs hsz⟩

/-- Witness for C20: the name `a` and the empty document `{}`. -/
theorem BSONObjBuilder.append_object_embedded_witness :
    (0 : Byte) ∉ ([97] : Mem) ∧ (BSONObj.mk (some ⟨[5, 0, 0, 0, 0], 5, -1⟩)).embeddable
      ∧ (∃ bb o e sub, BSONObjBuilder.new.appendObject [97]
            (BSONObj.mk (some ⟨[5, 0, 0, 0, 0], 5, -1⟩)) = .ok bb ∧ bb.done = .ok o
          ∧ o.findElement [97] = .ok e ∧ e.type = BSONType.Object
          ∧ e.embeddedObject = .ok sub
          ∧ sub.bytes = (BSONObj.mk (some ⟨[5, 0, 0, 0, 0], 5, -1⟩)).bytes
          ∧ sub.woEqual (BSONObj.mk (some ⟨[5, 0, 0, 0, 0], 5, -1⟩)) = .ok true)
      ∧ (∃ bb o e sub, BSONObjBuilder.new.appendArray [97]
            (BSONObj.mk (some ⟨[5, 0, 0, 0, 0], 5, -1⟩)) = .ok bb ∧ bb.done = .ok o
          ∧ o.findElement [97] = .ok e ∧ e.type = BSONType.Array
          ∧ e.embeddedObject = .ok sub
          ∧ sub.bytes = (BSONObj.mk (some ⟨[5, 0, 0, 0, 0], 5, -1⟩)).bytes
          ∧ sub.woEqual (BSONObj.mk (some ⟨[5, 0, 0, 0, 0], 5, -1⟩)) = .ok true) :=
  ⟨by decide, by decide,
    BSONObjBuilder.append_object_embedded [97] (BSONObj.mk (some ⟨[5, 0, 0, 0, 0], 5, -1⟩))
      (by decide) (by decide) (by decide)⟩


/-! ## Ownership of the buffer -/

/-! ## Ownership -/

theorem Heap.cell_eq (st : Heap) (a : Addr) (c : DetailsCell) :
    st.cell a = .ok c ↔ st.details[a]? = some (some c) := by
  unfold Heap.cell
  constructor
  · intro h
    split at h
    · rename_i c2 hc
      cases h
      exact hc
    · cases h
  · intro h
    rw [h]

theorem Heap.cell_lt (st : Heap) (a : Addr) (c : DetailsCell) (h : st.cell a = .ok c) :
    a < st.details.length := by
  rw [Heap.cell_eq] at h
  exact (List.getElem?_eq_some.mp h).1

theorem Heap.cell_setCell_self (st : Heap) (a : Addr) (c : DetailsCell)
    (h : a < st.details.length) : (st.setCell a (some c)).cell a = .ok c := by
  rw [Heap.cell_eq]
  simp [Heap.setCell, h]

theorem wrapInt_eq (n : Int) (h1 : -2147483648 ≤ n) (h2 : n ≤ 2147483647) : wrapInt n = n := by
  unfold wrapInt
  omega

theorem Heap.copyConstruct_owned (st : Heap) (a buf : Addr) (sz m : Int)
    (hcell : st.cell a = .ok ⟨buf, sz, m⟩) (hm : 0 ≤ m) (hm2 : m < 2147483647) :
    st.copyConstruct ⟨some a⟩ = .ok (st.setCell a (some ⟨buf, sz, m + 1⟩), ⟨some a⟩) := by
  have hw : wrapInt (m + 1) = m + 1 := wrapInt_eq _ (by omega) (by omega)
  simp [Heap.copyConstruct, hcell, DetailsCell.owned, hm, hw]

theorem Heap.copies_owned (a buf : Addr) (sz : Int) :
    ∀ (N : Nat) (st : Heap) (m : Int), st.cell a = .ok ⟨buf, sz, m⟩ → 0 ≤ m →
      m + N ≤ 2147483647 →
      ∃ st1, st.copies N ⟨some a⟩ = .ok (st1, List.replicate N ⟨some a⟩)
        ∧ st1.cell a = .ok ⟨buf, sz, m + N⟩ ∧ st1.buffers = st.buffers
        ∧ st1.freed = st.freed := by
  intro N
  induction N with
  | zero =>
    intro st m hcell hm _
    exact ⟨st, rfl, by simpa using hcell, rfl, rfl⟩
  | succ n ih =>
    intro st m hcell hm hmax
    have hlt := st.cell_lt a _ hcell
    push_cast at hmax
    obtain ⟨st1, h1, h2, h3, h4⟩ := ih (st.setCell a (some ⟨buf, sz, m + 1⟩)) (m + 1)
      (st.cell_setCell_self a _ hlt) (by omega) (by omega)
    refine ⟨st1, ?_, ?_, h3, h4⟩
    · simp only [Heap.copies, Heap.copyConstruct_owned st a buf sz m hcell hm (by omega), h1,
        List.replicate_succ]
    · rw [h2]; congr 2; push_cast; omega

theorem Heap.destroy_shared (st : Heap) (a buf : Addr) (sz m : Int)
    (hcell : st.cell a = .ok ⟨buf, sz, m⟩) (hm : 2 ≤ m) (hm2 : m ≤ 2147483647) :
    st.destroy ⟨some a⟩ = .ok (st.setCell a (some ⟨buf, sz, m - 1⟩), ⟨none⟩) := by
  have : ¬ (m - 1 ≤ 0) := by omega
  have hw : wrapInt (m - 1) = m - 1 := wrapInt_eq _ (by omega) (by omega)
  simp [Heap.destroy, hcell, this, hw]

theorem Heap.destroy_last (st : Heap) (a buf : Addr) (sz : Int)
    (hcell : st.cell a = .ok ⟨buf, sz, 1⟩) :
    st.destroy ⟨some a⟩
      = .ok (⟨st.details.set a none, st.buffers, st.freed ++ [buf]⟩, ⟨none⟩) := by
  have hlt := st.cell_lt a _ hcell
  have h2 := st.cell_setCell_self a ⟨buf, sz, 0⟩ hlt
  simp only [Heap.destroy, hcell, Heap.delete]
  simp only [show wrapInt ((1 : Int) - 1) = 0 by rfl, le_refl, if_true, h2, not_true_eq_false,
    if_false, DetailsCell.owned, ge_iff_le, decide_True]
  simp [Heap.setCell, List.set_set]

theorem Heap.destroyAll_shared (a buf : Addr) (sz : Int) :
    ∀ (k : Nat) (st : Heap) (m : Int), st.cell a = .ok ⟨buf, sz, m⟩ → (k : Int) < m →
      m ≤ 2147483647 →
      ∃ st2, st.destroyAll (List.replicate k ⟨some a⟩) = .ok st2
        ∧ st2.cell a = .ok ⟨buf, sz, m - k⟩ ∧ st2.buffers = st.buffers
        ∧ st2.freed = st.freed := by
  intro k
  induction k with
  | zero =>
    intro st m hcell hm _
    exact ⟨st, rfl, by simpa using hcell, rfl, rfl⟩
  | succ n ih =>
    intro st m hcell hm hmax
    have hlt := st.cell_lt a _ hcell
    obtain ⟨st2, h1, h2, h3, h4⟩ := ih (st.setCell a (some ⟨buf, sz, m - 1⟩)) (m - 1)
      (st.cell_setCell_self a _ hlt) (by push_cast at hm; omega) (by omega)
    refine ⟨st2, ?_, ?_, h3, h4⟩
    · simp only [List.replicate_succ, Heap.destroyAll,
        Heap.destroy_shared st a buf sz m hcell (by push_cast at hm; omega) hmax, h1]
    · rw [h2]; congr 2; push_cast; omega

theorem Heap.destroyAll_append (st : Heap) (l1 l2 : List Handle) :
    st.destroyAll (l1 ++ l2)
      = match st.destroyAll l1 with
        | .error f => .error f
        | .ok st2 => st2.destroyAll l2 := by
  induction l1 generalizing st with
  | nil => rfl
  | cons h t ih =>
    simp only [List.cons_append, Heap.destroyAll]
    cases st.destroy h with
    | error f => rfl
    | ok x => exact ih x.1

theorem Heap.buffer_congr (st st2 : Heap) (p : Addr) (h1 : st2.buffers = st.buffers)
    (h2 : st2.freed = st.freed) : st2.buffer p = st.buffer p := by
  simp only [Heap.buffer, h1, h2]

theorem Heap.buffer_not_freed (st : Heap) (p : Addr) (m : Mem) (h : st.buffer p = .ok m) :
    p ∉ st.freed := by
  intro hc
  simp [Heap.buffer, hc] at h

/-- C14: from a document that owns its buffer (reference count 1), copy-constructing `N`
handles, as long as the count `N + 1` is one an `int` can hold (`N + 1 <= INT_MAX`), succeeds
and gives the count `N + 1`; destroying any `k <= N` of the `N + 1` handles leaves the buffer
unfreed, with reference count `N + 1 - k`, every handle still reading the same bytes; and
destroying all `N + 1` frees the buffer, exactly once, with the last handle. -/
theorem Heap.shared_buffer_lifetime (st : Heap) (a buf : Addr) (sz : Int) (bytes : Mem)
    (N : Nat) (hN : N + 1 ≤ 2147483647) (hcell : st.cell a = .ok ⟨buf, sz, 1⟩)
    (hbuf : st.buffer buf = .ok bytes) :
    ∃ st1 hs, st.copies N ⟨some a⟩ = .ok (st1, hs) ∧ hs.length = N
      ∧ st1.cell a = .ok ⟨buf, sz, (N : Int) + 1⟩
      ∧ ∀ ds : List Handle, ds.Sublist ((⟨some a⟩ : Handle) :: hs) →
          ∃ st2, st1.destroyAll ds = .ok st2
            ∧ (ds.length ≤ N →
                st2.cell a = .ok ⟨buf, sz, (N : Int) + 1 - ds.length⟩
                ∧ st2.freed = st.freed
                ∧ ∀ h ∈ (⟨some a⟩ : Handle) :: hs,
                    st2.view h = .ok ⟨some ⟨bytes, sz, (N : Int) + 1 - ds.length⟩⟩)
            ∧ (ds.length = N + 1 →
                st2.freed = st.freed ++ [buf] ∧ st2.freed.count buf = 1
                ∧ st2.details[a]? = some none) := by
  obtain ⟨st1, h1, h2, h3, h4⟩ := Heap.copies_owned a buf sz N st 1 hcell (by omega)
    (by omega)
  have h2' : st1.cell a = .ok ⟨buf, sz, (N : Int) + 1⟩ := by rw [h2]; congr 2; omega
  refine ⟨st1, _, h1, List.length_replicate _ _, h2', ?_⟩
  intro ds hds
  have hall : ∀ h ∈ (⟨some a⟩ : Handle) :: List.replicate N ⟨some a⟩, h = ⟨some a⟩ := by
    intro h hh
    rcases List.mem_cons.mp hh with rfl | hh
    · rfl
    · exact (List.mem_replicate.mp hh).2
  have hrep : ds = List.replicate ds.length ⟨some a⟩ :=
    List.eq_replicate_iff.mpr ⟨rfl, fun b hb => hall b (hds.subset hb)⟩
  have hle : ds.length ≤ N + 1 := by
    have := hds.length_le
    simpa using this
  by_cases hk : ds.length ≤ N
  · obtain ⟨st2, hd1, hd2, hd3, hd4⟩ := Heap.destroyAll_shared a buf sz ds.length st1
      ((N : Int) + 1) h2' (by omega) (by omega)
    rw [← hrep] at hd1
    refine ⟨st2, hd1, fun _ => ⟨hd2, by rw [hd4, h4], ?_⟩, fun hc => by omega⟩
    intro h hh
    rw [hall h hh]
    have hb : st2.buffer buf = .ok bytes := by
      rw [Heap.buffer_congr st st2 buf (by rw [hd3, h3]) (by rw [hd4, h4])]
      exact hbuf
    simp only [Heap.view, hd2, hb]
  · have hk2 : ds.length = N + 1 := by omega
    obtain ⟨st2, hd1, hd2, hd3, hd4⟩ := Heap.destroyAll_shared a buf sz N st1
      ((N : Int) + 1) h2' (by omega) (by omega)
    have hd2' : st2.cell a = .ok ⟨buf, sz, 1⟩ := by rw [hd2]; congr 2; omega
    have hlast := Heap.destroy_last st2 a buf sz hd2'
    have hlt := st2.cell_lt a _ hd2'
    refine ⟨⟨st2.details.set a none, st2.buffers, st2.freed ++ [buf]⟩, ?_,
      fun hc => by omega, fun _ => ⟨by rw [hd4, h4], ?_, by simp [hlt]⟩⟩
    · rw [hrep, hk2, List.replicate_succ', Heap.destroyAll_append, hd1]
      simp only [Heap.destroyAll, hlast]
    · have hnf := Heap.buffer_not_freed st buf bytes hbuf
      rw [hd4, h4, List.count_append, List.count_eq_zero.mpr hnf]
      simp

/-- Witness for C14: an owned 5-byte document, copied twice. -/
theorem Heap.shared_buffer_lifetime_witness :
    2 + 1 ≤ 2147483647
      ∧ (Heap.mk [some ⟨0, 5, 1⟩] [[5, 0, 0, 0, 0]] []).cell 0 = .ok ⟨0, 5, 1⟩
      ∧ (Heap.mk [some ⟨0, 5, 1⟩] [[5, 0, 0, 0, 0]] []).buffer 0 = .ok [5, 0, 0, 0, 0]
      ∧ ∃ st1 hs, (Heap.mk [some ⟨0, 5, 1⟩] [[5, 0, 0, 0, 0]] []).copies 2 ⟨some 0⟩
            = .ok (st1, hs) ∧ hs.length = 2
          ∧ st1.cell 0 = .ok ⟨0, 5, ((2 : Nat) : Int) + 1⟩
          ∧ ∀ ds : List Handle, ds.Sublist ((⟨some 0⟩ : Handle) :: hs) →
              ∃ st2, st1.destroyAll ds = .ok st2
                ∧ (ds.length ≤ 2 →
                    st2.cell 0 = .ok ⟨0, 5, ((2 : Nat) : Int) + 1 - ds.length⟩
                    ∧ st2.freed = []
                    ∧ ∀ h ∈ (⟨some 0⟩ : Handle) :: hs,
                        st2.view h
                          = .ok ⟨some ⟨[5, 0, 0, 0, 0], 5, ((2 : Nat) : Int) + 1 - ds.length⟩⟩)
                ∧ (ds.length = 2 + 1 →
                    st2.freed = [] ++ [0] ∧ st2.freed.count 0 = 1
                    ∧ st2.details[0]? = some none) :=
  ⟨by decide, by decide, by decide,
    Heap.shared_buffer_lifetime (Heap.mk [some ⟨0, 5, 1⟩] [[5, 0, 0, 0, 0]] []) 0 0 5
      [5, 0, 0, 0, 0] 2 (by decide) (by decide) (by decide)⟩

/-- At `INT_MAX` the increment of the copy constructor wraps around: the count becomes
`INT_MIN`, and the `Details` no longer counts as owning its buffer. -/
theorem Heap.copyConstruct_wraps :
    (Heap.mk [some ⟨0, 5, 2147483647⟩] [[5, 0, 0, 0, 0]] []).copyConstruct ⟨some 0⟩
        = .ok (Heap.mk [some ⟨0, 5, -2147483648⟩] [[5, 0, 0, 0, 0]] [], ⟨some 0⟩)
      ∧ (DetailsCell.mk 0 5 (-2147483648)).owned = false := by
  decide

theorem nodup_set {α : Type} (x : α) :
    ∀ (l : List α) (i : Nat), l.Nodup → x ∉ l → (l.set i x).Nodup := by
  intro l
  induction l with
  | nil => intro i _ _; simp
  | cons h t ih =>
    intro i hnd hx
    have hnd2 := List.nodup_cons.mp hnd
    have hxt : x ∉ t := fun hc => hx (List.mem_cons_of_mem _ hc)
    cases i with
    | zero =>
      simp only [List.set_cons_zero]
      exact List.nodup_cons.mpr ⟨hxt, hnd2.2⟩
    | succ j =>
      simp only [List.set_cons_succ]
      refine List.nodup_cons.mpr ⟨?_, ih j hnd2.2 hxt⟩
      intro hc
      rcases List.mem_or_eq_of_mem_set hc with h1 | h1
      · exact hnd2.1 h1
      · exact hx (by rw [← h1]; simp)

theorem Heap.cell_newCell_old (st : Heap) (c c2 : DetailsCell) (b : Addr)
    (h : st.cell b = .ok c2) : (st.newCell c).1.cell b = .ok c2 := by
  have hlt := st.cell_lt b _ h
  rw [Heap.cell_eq] at h ⊢
  simp only [Heap.newCell]
  rw [List.getElem?_append_left hlt]
  exact h

theorem Heap.cell_newCell_new (st : Heap) (c : DetailsCell) :
    (st.newCell c).1.cell st.details.length = .ok c := by
  rw [Heap.cell_eq]
  simp [Heap.newCell]

theorem Heap.copyConstruct_borrowed (st : Heap) (b ext : Addr) (sz : Int)
    (h : st.cell b = .ok ⟨ext, sz, -1⟩) :
    st.copyConstruct ⟨some b⟩ = .ok (st.newCell ⟨ext, sz, -1⟩) := by
  simp [Heap.copyConstruct, h, DetailsCell.owned]

theorem Heap.Borrowing.fresh {ext : Addr} {st : Heap} {hs : List Handle}
    (hinv : Heap.Borrowing ext st hs) : (⟨some st.details.length⟩ : Handle) ∉ hs := by
  intro hc
  obtain ⟨b, sz, hb, hcell⟩ := hinv.2 _ hc
  have hlt := st.cell_lt b _ hcell
  have hd := congrArg Handle.details hb
  simp only [Option.some.injEq] at hd
  rw [← hd] at hlt
  exact Nat.lt_irrefl _ hlt

theorem Heap.Borrowing.newCell {ext : Addr} {st : Heap} {hs : List Handle} (sz : Int)
    (hinv : Heap.Borrowing ext st hs) :
    ∀ h ∈ (st.newCell ⟨ext, sz, -1⟩).2 :: hs,
      ∃ b sz2, h = ⟨some b⟩ ∧ (st.newCell ⟨ext, sz, -1⟩).1.cell b = .ok ⟨ext, sz2, -1⟩ := by
  intro h hh
  rcases List.mem_cons.mp hh with rfl | hh
  · exact ⟨st.details.length, sz, rfl, st.cell_newCell_new _⟩
  · obtain ⟨b, sz2, hb, hcell⟩ := hinv.2 h hh
    exact ⟨b, sz2, hb, st.cell_newCell_old _ _ b hcell⟩

theorem Heap.step_borrowing (ext : Addr) (st : Heap) (hs : List Handle) (op : HandleOp)
    (hinv : Heap.Borrowing ext st hs) :
    ∃ st2 hs2, st.step hs op = .ok (st2, hs2) ∧ Heap.Borrowing ext st2 hs2
      ∧ st2.freed = st.freed ∧ st2.buffers = st.buffers := by
  cases op with
  | copyConstruct src =>
    cases hsrc : hs[src]? with
    | none => exact ⟨st, hs, by simp [Heap.step, hsrc], hinv, rfl, rfl⟩
    | some r =>
      obtain ⟨b, sz, rfl, hcell⟩ := hinv.2 r (List.getElem?_mem hsrc)
      have hcc := st.copyConstruct_borrowed b ext sz hcell
      refine ⟨(st.newCell ⟨ext, sz, -1⟩).1, hs ++ [(st.newCell ⟨ext, sz, -1⟩).2],
        by simp [Heap.step, hsrc, hcc], ⟨?_, ?_⟩, rfl, rfl⟩
      · rw [← List.concat_eq_append]
        exact List.Nodup.concat hinv.fresh hinv.1
      · intro h hh
        exact hinv.newCell sz h (by
          rcases List.mem_append.mp hh with h1 | h1
          · exact List.mem_cons_of_mem _ h1
          · rw [List.mem_singleton.mp h1]; exact List.mem_cons_self _ _)
  | assign dst src =>
    cases hdst : hs[dst]? with
    | none => exact ⟨st, hs, by simp [Heap.step, hdst], hinv, rfl, rfl⟩
    | some self =>
      cases hsrc : hs[src]? with
      | none => exact ⟨st, hs, by simp [Heap.step, hdst, hsrc], hinv, rfl, rfl⟩
      | some r =>
        obtain ⟨b1, sz1, rfl, hcell1⟩ := hinv.2 self (List.getElem?_mem hdst)
        obtain ⟨b, sz, rfl, hcell⟩ := hinv.2 r (List.getElem?_mem hsrc)
        have hrel : st.release ⟨some b1⟩ = .ok st := by
          simp [Heap.release, hcell1, DetailsCell.owned]
        have hcc := st.copyConstruct_borrowed b ext sz hcell
        refine ⟨(st.newCell ⟨ext, sz, -1⟩).1, hs.set dst (st.newCell ⟨ext, sz, -1⟩).2,
          by simp [Heap.step, hdst, hsrc, Heap.assign, hrel, hcc], ⟨?_, ?_⟩, rfl, rfl⟩
        · exact nodup_set _ hs dst hinv.1 hinv.fresh
        · intro h hh
          exact hinv.newCell sz h (by
            rcases List.mem_or_eq_of_mem_set hh with h1 | h1
            · exact List.mem_cons_of_mem _ h1
            · rw [h1]; exact List.mem_cons_self _ _)
  | destroy i =>
    cases hi : hs[i]? with
    | none => exact ⟨st, hs, by simp [Heap.step, hi], hinv, rfl, rfl⟩
    | some h0 =>
      obtain ⟨b, sz, rfl, hcell⟩ := hinv.2 h0 (List.getElem?_mem hi)
      have hlt := st.cell_lt b _ hcell
      have h2 := st.cell_setCell_self b ⟨ext, sz, -2⟩ hlt
      have hdes : st.destroy ⟨some b⟩
          = .ok (⟨st.details.set b none, st.buffers, st.freed⟩, ⟨none⟩) := by
        simp only [Heap.destroy, hcell, Heap.delete]
        simp only [show wrapInt ((-1 : Int) - 1) = -2 by rfl, show (-2 : Int) ≤ 0 by decide,
          if_true, h2,
          not_true_eq_false, if_false, DetailsCell.owned, ge_iff_le,
          show ¬ ((0 : Int) ≤ -2) by decide, decide_False, Bool.false_eq_true]
        simp [Heap.setCell, List.set_set]
      refine ⟨⟨st.details.set b none, st.buffers, st.freed⟩, hs.eraseIdx i,
        by simp [Heap.step, hi, hdes], ⟨hinv.1.eraseIdx i, ?_⟩, rfl, rfl⟩
      intro h hh
      obtain ⟨j, hji, hj⟩ := List.mem_eraseIdx_iff_getElem?.mp hh
      obtain ⟨b2, sz2, rfl, hcell2⟩ := hinv.2 h (List.getElem?_mem hj)
      have hne : b ≠ b2 := by
        intro hc
        subst hc
        have hjl := (List.getElem?_eq_some.mp hj).1
        have hil := (List.getElem?_eq_some.mp hi).1
        have hinj : hs[j] = hs[i] ↔ j = i := hinv.1.getElem_inj_iff
        exact hji (hinj.mp (by
          rw [(List.getElem?_eq_some.mp hj).2, (List.getElem?_eq_some.mp hi).2]))
      refine ⟨b2, sz2, rfl, ?_⟩
      rw [Heap.cell_eq] at hcell2 ⊢
      show (st.details.set b none)[b2]? = _
      rw [List.getElem?_set_ne hne]
      exact hcell2

theorem Heap.run_borrowing (ext : Addr) (ops : List HandleOp) :
    ∀ (st : Heap) (hs : List Handle), Heap.Borrowing ext st hs →
      ∃ st2 hs2, st.run hs ops = .ok (st2, hs2) ∧ Heap.Borrowing ext st2 hs2
        ∧ st2.freed = st.freed ∧ st2.buffers = st.buffers := by
  induction ops with
  | nil => intro st hs hinv; exact ⟨st, hs, rfl, hinv, rfl, rfl⟩
  | cons op ops ih =>
    intro st hs hinv
    obtain ⟨st1, hs1, h1, hinv1, hf1, hb1⟩ := Heap.step_borrowing ext st hs op hinv
    obtain ⟨st2, hs2, h2, hinv2, hf2, hb2⟩ := ih st1 hs1 hinv1
    exact ⟨st2, hs2, by simp only [Heap.run, h1, h2], hinv2, by rw [hf2, hf1],
      by rw [hb2, hb1]⟩

/-- C15: for every document constructed as borrowing an external buffer (`ifree = false`,
reference count `-1`), every sequence of copy-constructions, assignments and destructions on
that handle and the handles derived from it runs without fault and calls `free` on nothing: the
external buffer is never freed (and no buffer is created). -/
theorem Heap.borrowed_never_freed (st st1 : Heap) (ext : Addr) (h : Handle)
    (ops : List HandleOp) (hinit : st.init ext false = .ok (st1, h)) :
    ∃ st2 hs2, st1.run [h] ops = .ok (st2, hs2) ∧ st2.freed = st.freed
      ∧ st2.buffers = st.buffers ∧ Heap.Borrowing ext st2 hs2 := by
  have hinv : Heap.Borrowing ext st1 [h] ∧ st1.freed = st.freed ∧ st1.buffers = st.buffers := by
    unfold Heap.init at hinit
    split at hinit
    · cases hinit
    · split at hinit
      · cases hinit
      · split at hinit
        · cases hinit
        · split at hinit
          · cases hinit
          · rename_i sz _ _ _
            simp only [Bool.false_eq_true, if_false, Except.ok.injEq, Prod.mk.injEq] at hinit
            obtain ⟨rfl, rfl⟩ := hinit
            refine ⟨⟨List.nodup_singleton _, ?_⟩, rfl, rfl⟩
            intro h hh
            rw [List.mem_singleton] at hh
            exact ⟨st.details.length, sz, hh, st.cell_newCell_new _⟩
  obtain ⟨st2, hs2, hrun, hinv2, hf, hb⟩ := Heap.run_borrowing ext ops st1 [h] hinv.1
  exact ⟨st2, hs2, hrun, by rw [hf, hinv.2.1], by rw [hb, hinv.2.2], hinv2⟩

/-- Witness for C15: a borrowed 5-byte document, copied, assigned and destroyed. -/
theorem Heap.borrowed_never_freed_witness :
    (Heap.mk [] [[5, 0, 0, 0, 0]] []).init 0 false
        = .ok (Heap.mk [some ⟨0, 5, -1⟩] [[5, 0, 0, 0, 0]] [], ⟨some 0⟩)
      ∧ ∃ st2 hs2, (Heap.mk [some ⟨0, 5, -1⟩] [[5, 0, 0, 0, 0]] []).run [⟨some 0⟩]
            [.copyConstruct 0, .assign 0 1, .assign 1 1, .destroy 0, .destroy 0]
            = .ok (st2, hs2)
          ∧ st2.freed = [] ∧ st2.buffers = [[5, 0, 0, 0, 0]] ∧ Heap.Borrowing 0 st2 hs2 :=
  ⟨by decide, Heap.borrowed_never_freed (Heap.mk [] [[5, 0, 0, 0, 0]] []) _ 0 _
    [.copyConstruct 0, .assign 0 1, .assign 1 1, .destroy 0, .destroy 0] (by decide)⟩

/-- C16 refuted as stated: copy-constructing from a document that borrows the buffer at
address 0 gives a handle whose `Details` points to that same buffer; no new buffer exists
afterwards, no byte has been cloned. -/
theorem Heap.copy_of_borrowed_not_cloned :
    ∃ st1 h st2 h2 c c2, (Heap.mk [] [[5, 0, 0, 0, 0]] []).init 0 false = .ok (st1, h)
      ∧ st1.copyConstruct h = .ok (st2, h2)
      ∧ Heap.cell st2 0 = .ok c ∧ h = ⟨some 0⟩ ∧ Heap.cell st2 1 = .ok c2 ∧ h2 = ⟨some 1⟩
      ∧ c._objdata = 0 ∧ c2._objdata = 0 ∧ st2.buffers = [[5, 0, 0, 0, 0]] :=
  ⟨Heap.mk [some ⟨0, 5, -1⟩] [[5, 0, 0, 0, 0]] [], ⟨some 0⟩,
    Heap.mk [some ⟨0, 5, -1⟩, some ⟨0, 5, -1⟩] [[5, 0, 0, 0, 0]] [], ⟨some 1⟩, ⟨0, 5, -1⟩,
    ⟨0, 5, -1⟩, by decide, by decide, by decide, rfl, by decide, rfl, rfl, rfl, rfl⟩

theorem Heap.release_keeps_borrowed (st st1 : Heap) (self : Handle) (a : Addr)
    (c : DetailsCell) (hcell : st.cell a = .ok c) (hc : c.owned = false)
    (hrel : st.release self = .ok st1) : st1.cell a = .ok c := by
  unfold Heap.release at hrel
  split at hrel
  · cases hrel; exact hcell
  · rename_i b _
    split at hrel
    · cases hrel
    · rename_i cb hcb
      by_cases hown : cb.owned = true
      · have hne : b ≠ a := by
          intro hba
          subst hba
          rw [hcell] at hcb
          cases hcb
          rw [hc] at hown
          cases hown
        have hkeep : ∀ x : Option DetailsCell, (st.setCell b x).cell a = .ok c := by
          intro x
          rw [Heap.cell_eq] at hcell ⊢
          show (st.details.set b x)[a]? = _
          rw [List.getElem?_set_ne hne]
          exact hcell
        simp only [hown, if_true] at hrel
        split at hrel
        · unfold Heap.delete at hrel
          split at hrel
          · cases hrel
          · split at hrel
            · cases hrel
            · split at hrel
              · cases hrel
                rw [Heap.cell_eq] at hcell ⊢
                show ((st.details.set b _).set b none)[a]? = _
                rw [List.getElem?_set_ne hne, List.getElem?_set_ne hne]
                exact hcell
              · cases hrel
                rw [Heap.cell_eq] at hcell ⊢
                show ((st.details.set b _).set b none)[a]? = _
                rw [List.getElem?_set_ne hne, List.getElem?_set_ne hne]
                exact hcell
        · cases hrel
          exact hkeep _
      · simp only [hown, Bool.false_eq_true, if_false] at hrel
        cases hrel
        exact hcell

/-- C16 as amended: copy-constructing or assigning from a document that borrows its buffer
does not clone the bytes: the resulting handle gets a new `Details` object, a copy of the
source's (same buffer address, same size, reference count `-1`), and no buffer is created;
whereas copy-constructing from a document that owns its buffer shares its `Details` and buffer
and increments the reference count by one (in `int` arithmetic: the new count is the old one
plus one for every count below `INT_MAX`). -/
theorem Heap.copy_shares_buffer (st : Heap) (a : Addr) (c : DetailsCell)
    (hcell : st.cell a = .ok c) :
    (c.owned = false →
        st.copyConstruct ⟨some a⟩
          = .ok (⟨st.details ++ [some c], st.buffers, st.freed⟩, ⟨some st.details.length⟩)
        ∧ ∀ self st1, st.release self = .ok st1 →
            st.assign self ⟨some a⟩
              = .ok (⟨st1.details ++ [some c], st1.buffers, st1.freed⟩,
                  ⟨some st1.details.length⟩))
      ∧ (c.owned = true →
        st.copyConstruct ⟨some a⟩
          = .ok (⟨st.details.set a (some ⟨c._objdata, c._objsize, wrapInt (c.refCount + 1)⟩),
              st.buffers, st.freed⟩, ⟨some a⟩)
        ∧ (c.refCount < 2147483647 → wrapInt (c.refCount + 1) = c.refCount + 1)) := by
  refine ⟨fun hc => ⟨?_, ?_⟩, fun hc => ⟨?_, fun hlt => ?_⟩⟩
  · simp [Heap.copyConstruct, hcell, hc, Heap.newCell]
  · intro self st1 hrel
    have h1 := Heap.release_keeps_borrowed st st1 self a c hcell hc hrel
    simp [Heap.assign, hrel, Heap.copyConstruct, h1, hc, Heap.newCell]
  · simp [Heap.copyConstruct, hcell, hc, Heap.setCell]
  · have h0 : 0 ≤ c.refCount := by simpa [DetailsCell.owned] using hc
    exact wrapInt_eq _ (by omega) (by omega)

/-- Witness for the amended C16: a borrowed 5-byte document. -/
theorem Heap.copy_shares_buffer_witness :
    (Heap.mk [some ⟨0, 5, -1⟩] [[5, 0, 0, 0, 0]] []).cell 0 = .ok ⟨0, 5, -1⟩
      ∧ (Heap.mk [some ⟨0, 5, -1⟩] [[5, 0, 0, 0, 0]] []).copyConstruct ⟨some 0⟩
        = .ok (⟨[some ⟨0, 5, -1⟩] ++ [some ⟨0, 5, -1⟩], [[5, 0, 0, 0, 0]], []⟩, ⟨some 1⟩) :=
  ⟨by decide,
    ((Heap.copy_shares_buffer (Heap.mk [some ⟨0, 5, -1⟩] [[5, 0, 0, 0, 0]] []) 0 ⟨0, 5, -1⟩
      (by decide)).1 (by decide)).1⟩

/-- C17: let the handle `⟨some a⟩` stand for a document `d` whose buffer holds the `objsize()`
bytes it declares (at most 16 MiB), in a heap whose freed addresses are addresses of buffers
that were allocated. If `objsize() > 5`, then, whether `d` owns or borrows its buffer,
`d.copy()` succeeds with a new `Details` of reference count 1 over a freshly allocated buffer
(an address distinct from the buffer of `d`, which is left as it was and is not freed), and the
copy is `woEqual` to `d`. If `isEmpty()` (`objsize() ≤ 5`), `copy()` is the copy constructor
applied to `d`, and no buffer is allocated. -/
theorem Heap.copy_fresh_owned (st : Heap) (a : Addr) (c : DetailsCell) (src : Mem)
    (hfreed : ∀ p ∈ st.freed, p < st.buffers.length)
    (hcell : st.cell a = .ok c) (hbuf : st.buffer c._objdata = .ok src)
    (hread : readInt src = .ok c._objsize) (hlen : c._objsize ≤ (src.length : Int))
    (hmax : c._objsize ≤ 16777216) :
    (5 < c._objsize →
        ∃ st2 d d2, st.copy ⟨some a⟩ = .ok (st2, ⟨some st.details.length⟩)
          ∧ st2.cell st.details.length = .ok ⟨st.buffers.length, c._objsize, 1⟩
          ∧ st.buffers.length ≠ c._objdata
          ∧ st2.buffers = st.buffers ++ [src.take c._objsize.toNat]
          ∧ st2.freed = st.freed
          ∧ st2.cell a = .ok c
          ∧ st2.view ⟨some a⟩ = .ok d ∧ st2.view ⟨some st.details.length⟩ = .ok d2
          ∧ d2.woEqual d = .ok true ∧ d.woEqual d2 = .ok true)
      ∧ (c._objsize ≤ 5 →
        ∃ st2 h2, st.copy ⟨some a⟩ = .ok (st2, h2)
          ∧ st.copyConstruct ⟨some a⟩ = .ok (st2, h2)
          ∧ st2.buffers = st.buffers ∧ st2.freed = st.freed) := by
  have hsrc : c._objdata ∉ st.freed ∧ st.buffers[c._objdata]? = some src := by
    unfold Heap.buffer at hbuf
    split at hbuf
    · cases hbuf
    · rename_i hnf
      split at hbuf
      · cases hbuf
      · rename_i b hb
        cases hbuf
        exact ⟨hnf, hb⟩
  have hlt : c._objdata < st.buffers.length := by
    rcases Nat.lt_or_ge c._objdata st.buffers.length with h | h
    · exact h
    · rw [List.getElem?_eq_none h] at hsrc
      cases hsrc.2
  have ha := st.cell_lt a c hcell
  refine ⟨fun h5 => ?_, fun h5 => ?_⟩
  · have h0 : 0 ≤ c._objsize := by omega
    have hn : c._objsize.toNat ≤ src.length := by omega
    have h4 : 4 ≤ c._objsize.toNat := by omega
    have hread2 : readInt (src.take c._objsize.toNat) = .ok c._objsize :=
      readInt_take _ _ _ h4 hread
    have hcopy : st.copy ⟨some a⟩
        = .ok (⟨st.details ++ [some ⟨st.buffers.length, c._objsize, 1⟩],
            st.buffers ++ [src.take c._objsize.toNat], st.freed⟩,
            ⟨some st.details.length⟩) := by
      have hcond : 0 ≤ c._objsize ∧ c._objsize ≤ (src.length : Int) := ⟨h0, hlen⟩
      have hnot : ¬ c._objsize ≤ 5 := by omega
      have hpos : c._objsize > 0 := by omega
      have hmax2 : c._objsize ≤ 1024 * 1024 * 16 := by omega
      simp only [Heap.copy, Heap.objsize, hcell, hnot, if_false, hbuf, Heap.mallocCopy, hcond,
        and_self, if_true, Heap.init, List.getElem?_concat_length, hread2, hpos, hmax2,
        not_true_eq_false, Heap.newCell]
    have hcellnew : Heap.cell (⟨st.details ++ [some ⟨st.buffers.length, c._objsize, 1⟩],
        st.buffers ++ [src.take c._objsize.toNat], st.freed⟩ : Heap) st.details.length
          = .ok ⟨st.buffers.length, c._objsize, 1⟩ := by
      rw [Heap.cell_eq]
      exact List.getElem?_concat_length _ _
    have hcellold : Heap.cell (⟨st.details ++ [some ⟨st.buffers.length, c._objsize, 1⟩],
        st.buffers ++ [src.take c._objsize.toNat], st.freed⟩ : Heap) a = .ok c := by
      rw [Heap.cell_eq] at hcell ⊢
      show (st.details ++ _)[a]? = _
      rw [List.getElem?_append_left ha]
      exact hcell
    have hfr : st.buffers.length ∉ st.freed := fun h => Nat.lt_irrefl _ (hfreed _ h)
    have hra : (BSONObj.mk (some ⟨src, c._objsize, c.refCount⟩)).readable := ⟨h0, hlen⟩
    have hrb : (BSONObj.mk (some ⟨src.take c._objsize.toNat, c._objsize, 1⟩)).readable := by
      refine ⟨h0, ?_⟩
      show c._objsize ≤ ((src.take c._objsize.toNat).length : Int)
      rw [List.length_take, Nat.min_eq_left hn]
      omega
    have hbytes : (BSONObj.mk (some ⟨src.take c._objsize.toNat, c._objsize, 1⟩)).bytes
        = (BSONObj.mk (some ⟨src, c._objsize, c.refCount⟩)).bytes := by
      show (src.take c._objsize.toNat).take c._objsize.toNat = src.take c._objsize.toNat
      rw [List.take_take, Nat.min_self]
    refine ⟨_, ⟨some ⟨src, c._objsize, c.refCount⟩⟩,
      ⟨some ⟨src.take c._objsize.toNat, c._objsize, 1⟩⟩, hcopy, hcellnew, ne_of_gt hlt, rfl, rfl,
      hcellold, ?_, ?_, ?_, ?_⟩
    · have hb2 : (st.buffers ++ [src.take c._objsize.toNat])[c._objdata]? = some src := by
        rw [List.getElem?_append_left hlt]
        exact hsrc.2
      simp only [Heap.view, hcellold, Heap.buffer, hsrc.1, if_false, hb2]
    · simp only [Heap.view, hcellnew, Heap.buffer, hfr, if_false,
        List.getElem?_concat_length]
    · rw [BSONObj.woEqual_eq _ _ hrb hra]
      exact congrArg Except.ok (decide_eq_true ⟨rfl, hbytes⟩)
    · rw [BSONObj.woEqual_eq _ _ hra hrb]
      exact congrArg Except.ok (decide_eq_true ⟨rfl, hbytes.symm⟩)
  · have hcopy : st.copy ⟨some a⟩ = st.copyConstruct ⟨some a⟩ := by
      simp only [Heap.copy, Heap.objsize, hcell, h5, if_true]
    rw [hcopy]
    by_cases hown : c.owned = true
    · have hcc : st.copyConstruct ⟨some a⟩
          = .ok (st.setCell a (some ⟨c._objdata, c._objsize, wrapInt (c.refCount + 1)⟩),
              ⟨some a⟩) := by
        simp only [Heap.copyConstruct, hcell, hown, if_true]
      exact ⟨_, _, hcc, hcc, rfl, rfl⟩
    · have hcc : st.copyConstruct ⟨some a⟩ = .ok (st.newCell c) := by
        simp only [Heap.copyConstruct, hcell, hown, Bool.false_eq_true, if_false]
      exact ⟨_, _, hcc, hcc, rfl, rfl⟩

/-- Witness for C17: the 8-byte document `{a: null}` borrowed from an external buffer, and
its copy. -/
theorem Heap.copy_fresh_owned_witness :
    ∃ st2 d d2, (Heap.mk [some ⟨0, 8, -1⟩] [[8, 0, 0, 0, 10, 97, 0, 0]] []).copy ⟨some 0⟩
        = .ok (st2, ⟨some 1⟩)
      ∧ st2.cell 1 = .ok ⟨1, 8, 1⟩
      ∧ st2.view ⟨some 0⟩ = .ok d ∧ st2.view ⟨some 1⟩ = .ok d2
      ∧ d2.woEqual d = .ok true :=
  have h := (Heap.copy_fresh_owned (Heap.mk [some ⟨0, 8, -1⟩] [[8, 0, 0, 0, 10, 97, 0, 0]] [])
    0 ⟨0, 8, -1⟩ [8, 0, 0, 0, 10, 97, 0, 0] (by decide) (by decide) (by decide) (by decide)
    (by decide) (by decide)).1 (by decide)
  match h with
  | ⟨st2, d, d2, h1, h2, _, _, _, _, h7, h8, h9, _⟩ => ⟨st2, d, d2, h1, h2, h7, h8, h9⟩

/-! ## Kinds, object ids -/

/-- C25: the values of the kinds of `enum BSONType` are pairwise distinct and totally ordered
(they are declared in strictly increasing order), `MinKey` is strictly below and `MaxKey`
strictly above every other kind, and each value is the one read back from the kind byte it is
written to. -/
theorem BSONType.kinds_ordered :
    BSONType.kinds.Nodup
      ∧ BSONType.kinds.Pairwise (fun a b => a < b)
      ∧ BSONType.kinds.head? = some BSONType.MinKey
      ∧ BSONType.kinds.getLast? = some BSONType.MaxKey
      ∧ (∀ k ∈ BSONType.kinds, k ≠ BSONType.MinKey → BSONType.MinKey < k)
      ∧ (∀ k ∈ BSONType.kinds, k ≠ BSONType.MaxKey → k < BSONType.MaxKey)
      ∧ (∀ a ∈ BSONType.kinds, ∀ b ∈ BSONType.kinds, a < b ∨ a = b ∨ b < a)
      ∧ (∀ k ∈ BSONType.kinds, charToInt (charOf k) = k) := by
  decide

/-- Witness for C25: `MinKey` is below `NumberInt`, which is below `MaxKey`. -/
theorem BSONType.kinds_ordered_witness :
    BSONType.MinKey < BSONType.NumberInt ∧ BSONType.NumberInt < BSONType.MaxKey :=
  ⟨BSONType.kinds_ordered.2.2.2.2.1 BSONType.NumberInt (by decide) (by decide),
    BSONType.kinds_ordered.2.2.2.2.2.1 BSONType.NumberInt (by decide) (by decide)⟩

theorem OID.str_byte (b : Byte) :
    (if b.val < 16 then 48 :: formatNat 16 b.val else formatNat 16 b.val)
      = [digitChar (b.val / 16), digitChar (b.val % 16)] := by
  obtain ⟨n, hn⟩ := b
  by_cases h : n < 16
  · have h0 : n / 16 = 0 := by omega
    have h1 : n % 16 = n := by omega
    simp only [h, if_true, formatNat, formatNatAux, h0, h1]
    rfl
  · obtain ⟨k, rfl⟩ : ∃ k, n = k + 1 := ⟨n - 1, by omega⟩
    have h0 : ¬ (k + 1) / 16 = 0 := by omega
    have h1 : (k + 1) / 16 / 16 = 0 := by omega
    have h2 : (k + 1) / 16 % 16 = (k + 1) / 16 := by omega
    simp only [h, if_false, formatNat, formatNatAux, h0, h1, h2, if_true]

theorem digitChar_hex (d : Fin 16) :
    (48 ≤ (digitChar d.val).val ∧ (digitChar d.val).val ≤ 57)
      ∨ (97 ≤ (digitChar d.val).val ∧ (digitChar d.val).val ≤ 102) := by
  revert d
  decide

theorem digitChar_inj (a b : Fin 16) (h : digitChar a.val = digitChar b.val) : a = b := by
  revert a b
  decide

theorem flatMap_pair_getElem {α β : Type} (f g : α → β) (l : List α) :
    ∀ i : Nat, (l.flatMap (fun b => [f b, g b]))[2 * i]? = l[i]?.map f
      ∧ (l.flatMap (fun b => [f b, g b]))[2 * i + 1]? = l[i]?.map g := by
  induction l with
  | nil => intro i; simp
  | cons a l ih =>
    intro i
    cases i with
    | zero => simp
    | succ i =>
      have h := ih i
      have e1 : 2 * (i + 1) = 2 * i + 1 + 1 := by omega
      have e2 : 2 * (i + 1) + 1 = 2 * i + 1 + 1 + 1 := by omega
      simp only [List.flatMap_cons, List.cons_append, List.nil_append, e1, e2,
        List.getElem?_cons_succ]
      exact h

theorem flatMap_pair_length {α β : Type} (f g : α → β) (l : List α) :
    (l.flatMap (fun b => [f b, g b])).length = 2 * l.length := by
  induction l with
  | nil => rfl
  | cons a l ih =>
    simp only [List.flatMap_cons, List.length_append, List.length_cons, List.length_nil, ih]
    omega

theorem flatMap_pair_inj {α β : Type} (f g : α → β)
    (hinj : ∀ a b, f a = f b → g a = g b → a = b) :
    ∀ l1 l2 : List α, l1.flatMap (fun b => [f b, g b]) = l2.flatMap (fun b => [f b, g b]) →
      l1 = l2 := by
  intro l1
  induction l1 with
  | nil =>
    intro l2 h
    cases l2 with
    | nil => rfl
    | cons b l2 => simp at h
  | cons a l1 ih =>
    intro l2 h
    cases l2 with
    | nil => simp at h
    | cons b l2 =>
      simp only [List.flatMap_cons, List.cons_append, List.nil_append, List.cons.injEq] at h
      obtain ⟨h1, h2, h3⟩ := h
      rw [hinj a b h1 h2, ih l2 h3]

theorem OID.str_eq (o : OID) :
    o.str = o.data.flatMap (fun b => [digitChar (b.val / 16), digitChar (b.val % 16)]) := by
  unfold OID.str
  congr 1
  funext b
  exact OID.str_byte b

/-- C28: for every OID, `str()` has exactly 24 characters, each a lowercase hexadecimal digit
(`0`-`9`, `a`-`f`); the characters `2i` and `2i+1` are the two hexadecimal digits, high then
low, of byte `i`, for `i` from 0 to 11; and two OIDs have the same `str()` if and only if their
12 bytes are equal. -/
theorem OID.str_hex (o : OID) :
    o.str.length = 24
      ∧ (∀ c ∈ o.str, (48 ≤ c.val ∧ c.val ≤ 57) ∨ (97 ≤ c.val ∧ c.val ≤ 102))
      ∧ (∀ i : Nat, i < 12 → ∃ b, o.data[i]? = some b
          ∧ o.str[2 * i]? = some (digitChar (b.val / 16))
          ∧ o.str[2 * i + 1]? = some (digitChar (b.val % 16)))
      ∧ (∀ o2 : OID, o.str = o2.str ↔ o.data = o2.data)
      ∧ (∀ o2 : OID, o.str = o2.str ↔ o = o2) := by
  have hinj : ∀ o2 : OID, o.str = o2.str ↔ o.data = o2.data := by
    intro o2
    constructor
    · intro h
      rw [OID.str_eq, OID.str_eq] at h
      refine flatMap_pair_inj _ _ ?_ _ _ h
      intro a b h1 h2
      have e1 := digitChar_inj ⟨a.val / 16, by omega⟩ ⟨b.val / 16, by omega⟩ h1
      have e2 := digitChar_inj ⟨a.val % 16, by omega⟩ ⟨b.val % 16, by omega⟩ h2
      simp only [Fin.mk.injEq] at e1 e2
      exact Fin.ext (by omega)
    · intro h
      unfold OID.str
      rw [h]
  refine ⟨?_, ?_, ?_, hinj, ?_⟩
  · rw [OID.str_eq, flatMap_pair_length, o.h]
  · intro c hc
    rw [OID.str_eq, List.mem_flatMap] at hc
    obtain ⟨b, _, hb⟩ := hc
    simp only [List.mem_cons, List.mem_singleton, List.not_mem_nil, or_false] at hb
    rcases hb with rfl | rfl
    · exact digitChar_hex ⟨b.val / 16, by omega⟩
    · exact digitChar_hex ⟨b.val % 16, by omega⟩
  · intro i hi
    have hlt : i < o.data.length := by rw [o.h]; exact hi
    refine ⟨o.data[i], List.getElem?_eq_getElem hlt, ?_⟩
    have h := flatMap_pair_getElem (fun b : Byte => digitChar (b.val / 16))
      (fun b : Byte => digitChar (b.val % 16)) o.data i
    rw [OID.str_eq, h.1, h.2, List.getElem?_eq_getElem hlt]
    exact ⟨rfl, rfl⟩
  · intro o2
    rw [hinj o2]
    constructor
    · intro h
      obtain ⟨d1, h1⟩ := o
      obtain ⟨d2, h2⟩ := o2
      simp only at h
      subst h
      rfl
    · intro h
      rw [h]

/-- Witness for C28: the first two characters of `str()` of the zero id. -/
theorem OID.str_hex_witness :
    ∃ b, OID.zero.data[0]? = some b
      ∧ OID.zero.str[2 * 0]? = some (digitChar (b.val / 16))
      ∧ OID.zero.str[2 * 0 + 1]? = some (digitChar (b.val % 16)) :=
  (OID.str_hex OID.zero).2.2.1 0 (by decide)

/-! ## Binary data and code with scope -/

theorem AppendCall.written (c : AppendCall) (hwf : c.wellFormed)
    (hlen : (c.encode.length : Int) < 2147483648) (rest : Mem) :
    ∃ e, BSONElement.ofData (c.encode ++ rest) = .ok e ∧ e.type = c.kind
      ∧ e.fieldName = c.fieldName ∧ e.value = c.valueBytes ++ rest
      ∧ e.valuesize = .ok (c.valueBytes.length : Int) ∧ e.valueBytes = .ok c.valueBytes := by
  have hname := c.wellFormed_name hwf
  have hk := c.kind_ne_eoo
  have hlen2 := c.encode_length
  have hdata : c.encode ++ rest
      = charOf c.kind :: (c.fieldName ++ 0 :: (c.valueBytes ++ rest)) := by
    simp [AppendCall.encode]
  have hof := BSONElement.ofData_field (charOf c.kind) c.fieldName (c.valueBytes ++ rest) hk hname
  have hvl := c.valueLength_encode hwf (by omega) rest
  have hv := BSONElement.value_field (charOf c.kind) c.fieldName (c.valueBytes ++ rest)
  have hfn := BSONElement.fieldName_field (charOf c.kind) c.fieldName (c.valueBytes ++ rest) hk
    hname
  have hty := BSONElement.type_field (charOf c.kind)
    (c.fieldName ++ 0 :: (c.valueBytes ++ rest)) ((c.fieldName.length : Int) + 1)
  rw [c.charToInt_kind] at hty
  have hvs : (BSONElement.mk (charOf c.kind :: (c.fieldName ++ 0 :: (c.valueBytes ++ rest)))
      ((c.fieldName.length : Int) + 1)).valuesize = .ok (c.valueBytes.length : Int) := by
    simp only [BSONElement.valuesize, BSONElement.size, hvl]
    congr 1
    omega
  refine ⟨_, hdata ▸ hof, hty, hfn, hv, hvs, ?_⟩
  have htake : (c.valueBytes ++ rest).take c.valueBytes.length = c.valueBytes :=
    List.take_left' rfl
  simp only [BSONElement.valueBytes, hvs, hv, List.length_append, Int.toNat_ofNat, htake]
  simp

/-- C27: for every field name, every length `len >= 0`, subtype `t` and data of (at least)
`len` bytes, `appendBinData` writes an element of kind BinData whose value is
`<int32 len><byte t><len data bytes>`, `len + 5` bytes in all, and `binData(l)` on the element
read back (whatever bytes `rest` follow it) sets `l = len` and returns a pointer to exactly
those `len` data bytes. -/
theorem BSONElement.binData_roundtrip (bb : BSONObjBuilder) (n : Mem) (len t : Int)
    (data rest : Mem) (hn : (0 : Byte) ∉ n) (h0 : 0 ≤ len) (h1 : len ≤ (data.length : Int))
    (hfit : (n.length : Int) + len + 7 < 2147483648) :
    ∃ e p, bb.appendBinData n len t data
        = .ok ⟨⟨bb.b.data ++ charOf BSONType.BinData
            :: (n ++ 0 :: (le32 len ++ charOf t :: data.take len.toNat))⟩⟩
      ∧ BSONElement.ofData (charOf BSONType.BinData
            :: (n ++ 0 :: (le32 len ++ charOf t :: data.take len.toNat)) ++ rest) = .ok e
      ∧ e.type = BSONType.BinData ∧ e.fieldName = n
      ∧ e.valueBytes = .ok (le32 len ++ charOf t :: data.take len.toNat)
      ∧ e.valuesize = .ok (len + 5)
      ∧ (0 ≤ t → t < 256 → ((charOf t).val : Int) = t)
      ∧ e.binData = .ok (p, len) ∧ p.take len.toNat = data.take len.toNat
      ∧ (data.take len.toNat).length = len.toNat := by
  have hwf : (AppendCall.binData n len t data).wellFormed := ⟨hn, h0, h1⟩
  have htk : (data.take len.toNat).length = len.toNat := by
    rw [List.length_take]; omega
  have hvb : (AppendCall.binData n len t data).valueBytes
      = le32 len ++ charOf t :: data.take len.toNat := by
    simp [AppendCall.valueBytes]
  have henc : (AppendCall.binData n len t data).encode
      = charOf BSONType.BinData :: (n ++ 0 :: (le32 len ++ charOf t :: data.take len.toNat)) := by
    simp [AppendCall.encode, AppendCall.kind, AppendCall.fieldName, AppendCall.valueBytes]
  have hvl : ((AppendCall.binData n len t data).valueBytes.length : Int) = len + 5 := by
    rw [hvb]
    simp only [List.length_append, List.length_cons, le32_length, htk]
    push_cast
    omega
  have hel := (AppendCall.binData n len t data).encode_length
  rw [hvl] at hel
  have hfn : (AppendCall.binData n len t data).fieldName = n := rfl
  rw [hfn] at hel
  have hrun := (AppendCall.binData n len t data).run_encode hwf bb
  obtain ⟨e, he, hty, hname, hv, hvs, hvbs⟩ :=
    (AppendCall.binData n len t data).written hwf (by omega) rest
  rw [henc] at hrun he
  rw [hvb] at hv hvbs
  rw [hvl] at hvs
  have hread : readInt e.value = .ok len := by
    rw [hv, List.append_assoc]
    exact readInt_le32 len _ (by omega) (by omega)
  refine ⟨e, data.take len.toNat ++ rest, hrun, he, hty, hname, hvbs, hvs, ?_, ?_, ?_, htk⟩
  · intro ht0 ht1
    simp only [charOf, byteOf]
    omega
  · have hty2 : (e.type == BSONType.BinData) = true := by rw [hty]; rfl
    have hdrop : e.value.drop 5 = data.take len.toNat ++ rest := by
      rw [hv]
      simp [le32]
    simp only [BSONElement.binData, hty2, if_true, BSONElement.valuestrsize, hread, hdrop]
  · exact List.take_left' htk

/-- Witness for C27: `appendBinData("a", 2, ByteArray, {7, 8})` on a fresh builder. -/
theorem BSONElement.binData_roundtrip_witness :
    ∃ e p, BSONObjBuilder.new.appendBinData [97] 2 2 [7, 8]
        = .ok ⟨⟨[0, 0, 0, 0, 5, 97, 0, 2, 0, 0, 0, 2, 7, 8]⟩⟩
      ∧ BSONElement.ofData [5, 97, 0, 2, 0, 0, 0, 2, 7, 8, 0] = .ok e
      ∧ e.valueBytes = .ok [2, 0, 0, 0, 2, 7, 8]
      ∧ e.binData = .ok (p, 2) ∧ p.take 2 = [7, 8] :=
  match BSONElement.binData_roundtrip BSONObjBuilder.new [97] 2 2 [7, 8] [0] (by decide)
    (by decide) (by decide) (by decide) with
  | ⟨e, p, h1, h2, _, _, h5, _, _, h8, h9, _⟩ => ⟨e, p, h1, h2, h5, h8, h9⟩

/-- C21: for every field name `n`, NUL-free code string `c` and embeddable (in particular
well-formed, non-null) scope document `s` of at most 16 MiB, `appendCodeWScope(n, c, s)` writes
an element of kind CodeWScope whose value starts with an int32 equal to the byte length of the
whole value, `4 + 4 + len(c) + 1 + s.objsize()`; read back (whatever bytes `rest` follow it),
`codeWScopeCode()` is the string `c` and `codeWScopeObject()` is a document byte-identical
(`woEqual`) to `s`. -/
theorem BSONElement.codeWScope_roundtrip (bb : BSONObjBuilder) (n c : Mem) (s : BSONObj)
    (rest : Mem) (hn : (0 : Byte) ∉ n) (hc : (0 : Byte) ∉ c) (hs : s.embeddable)
    (hmax : s.objsize ≤ 16777216)
    (hfit : (n.length : Int) + (c.length : Int) + s.objsize + 11 < 2147483648) :
    ∃ enc e v sub, bb.appendCodeWScope n c s = .ok ⟨⟨bb.b.data ++ enc⟩⟩
      ∧ BSONElement.ofData (enc ++ rest) = .ok e
      ∧ e.type = BSONType.CodeWScope ∧ e.fieldName = n
      ∧ e.valueBytes = .ok v
      ∧ (v.length : Int) = 4 + 4 + (c.length : Int) + 1 + s.objsize
      ∧ readInt e.value = .ok (4 + 4 + (c.length : Int) + 1 + s.objsize)
      ∧ cstr e.codeWScopeCode = c
      ∧ e.codeWScopeScopeData = .ok (s.bytes ++ rest)
      ∧ e.codeWScopeObject = .ok sub
      ∧ sub.bytes = s.bytes ∧ sub.woEqual s = .ok true ∧ s.woEqual sub = .ok true := by
  have hwf : (AppendCall.codeWScope n c s).wellFormed := ⟨hn, hc, hs⟩
  have hbl := s.bytes_length hs
  have hs4 : 4 ≤ s.objsize := by
    obtain ⟨_ | d⟩ := s
    · exact absurd hs (by simp [BSONObj.embeddable])
    · exact hs.2.1
  have hvb : (AppendCall.codeWScope n c s).valueBytes
      = le32 (4 + 4 + (c.length : Int) + 1 + s.objsize)
        ++ (le32 ((c.length : Int) + 1) ++ (c ++ 0 :: s.bytes)) := by
    simp [AppendCall.valueBytes]
  have hvl : ((AppendCall.codeWScope n c s).valueBytes.length : Int)
      = 4 + 4 + (c.length : Int) + 1 + s.objsize := by
    rw [hvb]
    simp only [List.length_append, List.length_cons, le32_length]
    push_cast
    omega
  have hel := (AppendCall.codeWScope n c s).encode_length
  rw [hvl] at hel
  have hfn : (AppendCall.codeWScope n c s).fieldName = n := rfl
  rw [hfn] at hel
  have hrun := (AppendCall.codeWScope n c s).run_encode hwf bb
  obtain ⟨e, he, hty, hname, hv, hvs, hvbs⟩ :=
    (AppendCall.codeWScope n c s).written hwf (by omega) rest
  rw [hvb] at hv
  have hv2 : e.value = le32 (4 + 4 + (c.length : Int) + 1 + s.objsize)
      ++ (le32 ((c.length : Int) + 1) ++ (c ++ 0 :: (s.bytes ++ rest))) := by
    rw [hv]; simp
  have hread : readInt e.value = .ok (4 + 4 + (c.length : Int) + 1 + s.objsize) := by
    rw [hv2]
    exact readInt_le32 _ _ (by omega) (by omega)
  have hdrop4 : e.value.drop 4 = le32 ((c.length : Int) + 1) ++ (c ++ 0 :: (s.bytes ++ rest)) := by
    rw [hv2]
    exact List.drop_left' (le32_length _)
  have hcode : e.codeWScopeCode = c ++ 0 :: (s.bytes ++ rest) := by
    show e.value.drop 8 = _
    have : e.value.drop 8 = (e.value.drop 4).drop 4 := by rw [List.drop_drop]
    rw [this, hdrop4]
    exact List.drop_left' (le32_length _)
  have hread2 : readInt (e.value.drop 4) = .ok ((c.length : Int) + 1) := by
    rw [hdrop4]
    exact readInt_le32 _ _ (by omega) (by omega)
  have hvlen : (e.value.length : Int)
      = 4 + 4 + (c.length : Int) + 1 + s.objsize + (rest.length : Int) := by
    rw [hv2]
    simp only [List.length_append, List.length_cons, le32_length]
    push_cast
    omega
  have hscope : e.value.drop (4 + 4 + ((c.length : Int) + 1)).toNat = s.bytes ++ rest := by
    have h8 : (4 + 4 + ((c.length : Int) + 1)).toNat = 8 + (c.length + 1) := by omega
    have : e.value.drop (8 + (c.length + 1)) = (e.value.drop 8).drop (c.length + 1) := by
      rw [List.drop_drop]
    rw [h8, this]
    have h8' : e.value.drop 8 = c ++ 0 :: (s.bytes ++ rest) := hcode
    rw [h8']
    have : c ++ 0 :: (s.bytes ++ rest) = (c ++ [0]) ++ (s.bytes ++ rest) := by simp
    rw [this]
    exact List.drop_left' (by simp)
  have hrs : s.readable := by
    obtain ⟨_ | d⟩ := s
    · trivial
    · exact ⟨by have := hs.2.1; omega, hs.2.2⟩
  have hrsub : (BSONObj.mk (some ⟨s.bytes ++ rest, s.objsize, -1⟩)).readable := by
    refine ⟨show 0 ≤ s.objsize by omega, ?_⟩
    show s.objsize ≤ ((s.bytes ++ rest).length : Int)
    rw [List.length_append]; push_cast; omega
  have hb : (BSONObj.mk (some ⟨s.bytes ++ rest, s.objsize, -1⟩)).bytes = s.bytes := by
    show List.take s.objsize.toNat (s.bytes ++ rest) = s.bytes
    exact List.take_left' (by omega)
  refine ⟨_, e, _, ⟨some ⟨s.bytes ++ rest, s.objsize, -1⟩⟩, hrun, he, hty, hname, hvbs, hvl,
    hread, ?_, ?_, ?_, hb, ?_, ?_⟩
  · rw [hcode]
    exact cstr_append c _ hc
  · simp only [BSONElement.codeWScopeScopeData, hcode, strlen_append c _ hc]
    congr 1
    have : c ++ 0 :: (s.bytes ++ rest) = (c ++ [0]) ++ (s.bytes ++ rest) := by simp
    rw [this]
    exact List.drop_left' (by simp)
  · have hty2 : (e.type == BSONType.CodeWScope) = true := by rw [hty]; rfl
    have hcond : 0 ≤ 4 + 4 + ((c.length : Int) + 1)
        ∧ 4 + 4 + ((c.length : Int) + 1) ≤ (e.value.length : Int) := by
      constructor <;> omega
    have hr := s.readInt_bytes hs rest
    have h1 : s.objsize > 0 := by omega
    have h2 : ¬ (16777216 < s.objsize) := by omega
    simp only [BSONElement.codeWScopeObject, hty2, if_true, hread2, hcond, and_self, hscope]
    simp [BSONObj.ofData, BSONObj.init, hr, h1, h2]
  · rw [BSONObj.woEqual_eq _ _ hrsub hrs, hb]
    simp [BSONObj.objsize]
  · rw [BSONObj.woEqual_eq _ _ hrs hrsub, hb]
    simp [BSONObj.objsize]

/-- Witness for C21: `appendCodeWScope("a", "x", {})` on a fresh builder. -/
theorem BSONElement.codeWScope_roundtrip_witness :
    ∃ enc e v sub, BSONObjBuilder.new.appendCodeWScope [97] [120]
          ⟨some ⟨[5, 0, 0, 0, 0], 5, -1⟩⟩ = .ok ⟨⟨BSONObjBuilder.new.b.data ++ enc⟩⟩
      ∧ BSONElement.ofData (enc ++ [0]) = .ok e
      ∧ e.valueBytes = .ok v ∧ (v.length : Int) = 4 + 4 + 1 + 1 + 5
      ∧ readInt e.value = .ok (4 + 4 + 1 + 1 + 5)
      ∧ cstr e.codeWScopeCode = [120]
      ∧ e.codeWScopeObject = .ok sub
      ∧ sub.woEqual ⟨some ⟨[5, 0, 0, 0, 0], 5, -1⟩⟩ = .ok true :=
  match BSONElement.codeWScope_roundtrip BSONObjBuilder.new [97] [120]
    ⟨some ⟨[5, 0, 0, 0, 0], 5, -1⟩⟩ [0] (by decide) (by decide) (by decide) (by decide)
    (by decide) with
  | ⟨enc, e, v, sub, h1, h2, _, _, h5, h6, h7, h8, _, h10, _, h12, _⟩ =>
    ⟨enc, e, v, sub, h1, h2, h5, h6, h7, h8, h10, h12⟩

/-! ## Embedded documents: the asserting and the checked accessor -/

/-- C22 refuted as stated: the element written by `appendCodeWScope("a", "", {})` has kind
CodeWScope and `mayEncapsulate()` true, yet the assertion of `embeddedObject()` fails on it
(its scope document is reached with `codeWScopeObject()`). -/
theorem BSONElement.embeddedObject_codeWScope_asserts :
    ∃ bb o e sub, BSONObjBuilder.new.appendCodeWScope [97] [] ⟨some ⟨[5, 0, 0, 0, 0], 5, -1⟩⟩
        = .ok bb
      ∧ bb.done = .ok o ∧ o.firstElement = .ok e
      ∧ e.type = BSONType.CodeWScope ∧ e.mayEncapsulate = true
      ∧ e.embeddedObject = .error .assertion
      ∧ e.codeWScopeObject = .ok sub ∧ sub.bytes = [5, 0, 0, 0, 0] :=
  ⟨⟨⟨[0, 0, 0, 0, 15, 97, 0, 14, 0, 0, 0, 1, 0, 0, 0, 0, 5, 0, 0, 0, 0]⟩⟩,
    ⟨some ⟨[22, 0, 0, 0, 15, 97, 0, 14, 0, 0, 0, 1, 0, 0, 0, 0, 5, 0, 0, 0, 0, 0], 22, -1⟩⟩,
    ⟨[15, 97, 0, 14, 0, 0, 0, 1, 0, 0, 0, 0, 5, 0, 0, 0, 0, 0], 2⟩,
    ⟨some ⟨[5, 0, 0, 0, 0, 0], 5, -1⟩⟩,
    by decide, by decide, by decide, by decide, by decide, by decide, by decide, by decide⟩

/-- C22 as amended: `mayEncapsulate()` is true exactly for the kinds object, array and
code-with-scope, but `embeddedObject()` is valid for the kinds object and array only: for each
such element whose value starts with the size of the nested document (positive, at most
16 MiB) the assertion holds and the result is a borrowing view (reference count `-1`) over the
nested bytes at `value()`; for every other kind, code-with-scope included, the assertion
fails. -/
theorem BSONElement.embeddedObject_valid (e : BSONElement) :
    (e.mayEncapsulate = true ↔ (e.type = BSONType.Object ∨ e.type = BSONType.Array
        ∨ e.type = BSONType.CodeWScope))
      ∧ (∀ sz : Int, readInt e.value = .ok sz → 0 < sz → sz ≤ 16777216 →
          e.type = BSONType.Object ∨ e.type = BSONType.Array →
          e.embeddedObject = .ok ⟨some ⟨e.value, sz, -1⟩⟩
            ∧ (BSONObj.mk (some ⟨e.value, sz, -1⟩)).objdata = .ok e.value
            ∧ (BSONObj.mk (some ⟨e.value, sz, -1⟩)).objsize = sz)
      ∧ (¬ (e.type = BSONType.Object ∨ e.type = BSONType.Array) →
          e.embeddedObject = .error .assertion)
      ∧ (e.type = BSONType.CodeWScope → e.embeddedObject = .error .assertion) := by
  have hno : ¬ (e.type = BSONType.Object ∨ e.type = BSONType.Array) →
      e.embeddedObject = .error .assertion := by
    intro h
    have h2 : (e.type == BSONType.Object || e.type == BSONType.Array) = false := by
      simpa [not_or] using h
    simp only [BSONElement.embeddedObject, h2, Bool.false_eq_true, if_false]
  refine ⟨?_, ?_, hno, ?_⟩
  · simp [BSONElement.mayEncapsulate, or_assoc]
  · intro sz hread hpos hmax h
    have h2 : (e.type == BSONType.Object || e.type == BSONType.Array) = true := by
      simpa using h
    have h3 : ¬ (16777216 < sz) := by omega
    refine ⟨?_, rfl, rfl⟩
    simp only [BSONElement.embeddedObject, h2, if_true]
    simp [BSONObj.ofData, BSONObj.init, hread, hpos, h3]
  · intro h
    apply hno
    rw [h]
    decide

/-- Witness for the amended C22: the array element `a : []` and the memory after it. -/
theorem BSONElement.embeddedObject_valid_witness :
    (BSONElement.mk [4, 97, 0, 5, 0, 0, 0, 0, 0] 2).embeddedObject
      = .ok ⟨some ⟨[5, 0, 0, 0, 0, 0], 5, -1⟩⟩ :=
  ((BSONElement.embeddedObject_valid (BSONElement.mk [4, 97, 0, 5, 0, 0, 0, 0, 0] 2)).2.1 5
    (by decide) (by decide) (by decide) (by decide)).1

/-- C23 refuted as stated: on the element written by `appendCodeWScope("a", "", {})`, of kind
CodeWScope, `embeddedObjectUserCheck()` reports "invalid parameter: expected an object". -/
theorem BSONElement.embeddedObjectUserCheck_codeWScope :
    ∃ e, BSONElement.ofData [15, 97, 0, 14, 0, 0, 0, 1, 0, 0, 0, 0, 5, 0, 0, 0, 0, 0] = .ok e
      ∧ e.type = BSONType.CodeWScope
      ∧ e.embeddedObjectUserCheck = .error (.uassert "invalid parameter: expected an object") :=
  ⟨⟨[15, 97, 0, 14, 0, 0, 0, 1, 0, 0, 0, 0, 5, 0, 0, 0, 0, 0], 2⟩, by decide, by decide,
    by decide⟩

/-- C23 as amended: for every element `e`, `embeddedObjectUserCheck()` reports the user error
"invalid parameter: expected an object" if and only if the kind of `e` is neither object nor
array (so also for code-with-scope); when the kind is object or array and the value starts
with the size of the nested document (positive, at most 16 MiB), it raises nothing and returns
the embedded document, the same one as `embeddedObject()`. -/
theorem BSONElement.embeddedObjectUserCheck_iff (e : BSONElement) :
    (e.embeddedObjectUserCheck = .error (.uassert "invalid parameter: expected an object")
        ↔ ¬ (e.type = BSONType.Object ∨ e.type = BSONType.Array))
      ∧ ((∃ msg, e.embeddedObjectUserCheck = .error (.uassert msg))
        ↔ ¬ (e.type = BSONType.Object ∨ e.type = BSONType.Array))
      ∧ (e.type = BSONType.Object ∨ e.type = BSONType.Array →
          e.embeddedObjectUserCheck = e.embeddedObject
            ∧ ∀ sz : Int, readInt e.value = .ok sz → 0 < sz → sz ≤ 16777216 →
                e.embeddedObjectUserCheck = .ok ⟨some ⟨e.value, sz, -1⟩⟩) := by
  by_cases h : e.type = BSONType.Object ∨ e.type = BSONType.Array
  · have h2 : (e.type == BSONType.Object || e.type == BSONType.Array) = true := by
      simpa using h
    have hsame : e.embeddedObjectUserCheck = e.embeddedObject := by
      simp only [BSONElement.embeddedObjectUserCheck, BSONElement.embeddedObject, h2, if_true]
    have hof : e.embeddedObjectUserCheck = BSONObj.ofData e.value := by
      simp only [BSONElement.embeddedObjectUserCheck, h2, if_true]
    have hnu : ∀ msg, BSONObj.ofData e.value ≠ .error (.uassert msg) := by
      intro msg
      simp only [BSONObj.ofData, BSONObj.init]
      cases hr : readInt e.value with
      | error f =>
        simp only [ne_eq, Except.error.injEq]
        intro hf
        subst hf
        unfold readInt at hr
        split at hr <;> cases hr
      | ok v =>
        simp only
        split
        · simp
        · split <;> simp
    refine ⟨?_, ?_, fun _ => ⟨hsame, ?_⟩⟩
    · rw [hof]
      exact ⟨fun hx => absurd hx (hnu _), fun hx => absurd h hx⟩
    · rw [hof]
      exact ⟨fun ⟨msg, hx⟩ => absurd hx (hnu msg), fun hx => absurd h hx⟩
    · intro sz hread hpos hmax
      have h3 : ¬ (16777216 < sz) := by omega
      rw [hof]
      simp [BSONObj.ofData, BSONObj.init, hread, hpos, h3]
  · have h2 : (e.type == BSONType.Object || e.type == BSONType.Array) = false := by
      simpa [not_or] using h
    have herr : e.embeddedObjectUserCheck
        = .error (.uassert "invalid parameter: expected an object") := by
      simp only [BSONElement.embeddedObjectUserCheck, h2, Bool.false_eq_true, if_false]
    exact ⟨⟨fun _ => h, fun _ => herr⟩, ⟨fun _ => h, fun _ => ⟨_, herr⟩⟩,
      fun h4 => absurd h4 h⟩

/-- Witness for the amended C23: the object element `a : {}` and the memory after it. -/
theorem BSONElement.embeddedObjectUserCheck_iff_witness :
    (BSONElement.mk [3, 97, 0, 5, 0, 0, 0, 0, 0] 2).embeddedObjectUserCheck
      = .ok ⟨some ⟨[5, 0, 0, 0, 0, 0], 5, -1⟩⟩ :=
  ((BSONElement.embeddedObjectUserCheck_iff (BSONElement.mk [3, 97, 0, 5, 0, 0, 0, 0, 0]
    2)).2.2 (by decide)).2 5 (by decide) (by decide) (by decide)

/-! ## The element constructor with a scan bound -/

theorem strnlenAux_spec (s : Mem) :
    ∀ n i : Nat, n ≤ s.length →
      ((0 : Byte) ∉ s.take n → strnlenAux s n i = .ok (-1))
        ∧ ((0 : Byte) ∈ s.take n →
            strnlenAux s n i = .ok ((i : Int) + ((cstr s).length : Int))
              ∧ (cstr s).length < n) := by
  induction s with
  | nil =>
    intro n i hn
    have h0 : n = 0 := by simpa using hn
    subst h0
    exact ⟨fun _ => rfl, fun h => absurd h (by simp)⟩
  | cons b rest ih =>
    intro n i hn
    cases n with
    | zero => exact ⟨fun _ => rfl, fun h => absurd h (by simp)⟩
    | succ m =>
      have hm : m ≤ rest.length := by simpa using hn
      by_cases hb : b = 0
      · subst hb
        refine ⟨fun h => absurd (by simp) h, fun _ => ?_⟩
        simp [strnlenAux, cstr]
      · have hb2 : (0 : Byte) ≠ b := fun h => hb h.symm
        obtain ⟨h1, h2⟩ := ih m (i + 1) hm
        have hc : cstr (b :: rest) = b :: cstr rest := by
          simp [cstr, List.takeWhile_cons, hb]
        constructor
        · intro h
          have h3 : (0 : Byte) ∉ rest.take m := by
            intro hx
            exact h (by simp [List.take_succ_cons, hx])
          simp only [strnlenAux, hb, if_false]
          exact h1 h3
        · intro h
          have h3 : (0 : Byte) ∈ rest.take m := by
            simp only [List.take_succ_cons, List.mem_cons] at h
            rcases h with h | h
            · exact absurd h hb2
            · exact h
          obtain ⟨h4, h5⟩ := h2 h3
          simp only [strnlenAux, hb, if_false, h4, hc, List.length_cons]
          refine ⟨?_, by omega⟩
          congr 1
          push_cast
          omega

theorem cstr_cons_ne (b : Byte) (rest : Mem) (hb : b ≠ 0) :
    cstr (b :: rest) = b :: cstr rest := by
  simp [cstr, List.takeWhile_cons, hb]

theorem cstr_take (s : Mem) : ∀ m : Nat, (0 : Byte) ∈ s.take m → cstr (s.take m) = cstr s := by
  induction s with
  | nil => intro m h; simp at h
  | cons b rest ih =>
    intro m h
    cases m with
    | zero => simp at h
    | succ m =>
      by_cases hb : b = 0
      · subst hb
        simp [cstr]
      · have hb2 : (0 : Byte) ≠ b := fun h => hb h.symm
        simp only [List.take_succ_cons, List.mem_cons] at h
        rcases h with h | h
        · exact absurd h hb2
        · rw [List.take_succ_cons, cstr_cons_ne b _ hb, cstr_cons_ne b _ hb, ih m h]

theorem cstr_split (s : Mem) (h : (0 : Byte) ∈ s) : ∃ xs, s = cstr s ++ [0] ++ xs := by
  induction s with
  | nil => simp at h
  | cons b rest ih =>
    by_cases hb : b = 0
    · subst hb
      exact ⟨rest, by simp [cstr]⟩
    · have hb2 : (0 : Byte) ≠ b := fun h => hb h.symm
      rcases List.mem_cons.mp h with h | h
      · exact absurd h hb2
      · obtain ⟨xs, hxs⟩ := ih h
        refine ⟨xs, ?_⟩
        rw [cstr_cons_ne b _ hb]
        simp only [List.cons_append]
        congr 1

theorem cstr_nul_free (s : Mem) : (0 : Byte) ∉ cstr s := by
  intro h
  have := List.mem_takeWhile_imp h
  simp at this

/-- C24 refuted as stated: at the end marker of a document, which an iterator with
`checkEnd` reads with the bound `theend - pos = 1`, the construction succeeds and the recorded
`fieldNameSize` is 0, not the length of the name (`fieldName()` is the empty string) plus
one; and the kind byte and a terminator would not fit within the bound of 1 byte. -/
theorem BSONElement.bounded_end_marker_size_zero :
    ∃ e, BSONElement.ofData [0] 1 = .ok e ∧ e.eoo = true ∧ e.fieldName = []
      ∧ e.fieldNameSize = 0 ∧ e.fieldNameSize ≠ (e.fieldName.length : Int) + 1
      ∧ ¬ (1 + ((e.fieldName.length : Int) + 1) ≤ 1) :=
  ⟨⟨[0], 0⟩, by decide, by decide, by decide, rfl, by decide, by decide⟩

/-- C24 as amended: constructing an element view at `t :: rest` with a scan bound `maxLen`
(not the default `-1`), the memory holding the bytes up to the bound: the construction fails
with "Invalid field name" if and only if the element is not an end marker and there is no NUL
among the first `maxLen - 1` bytes after the kind byte; otherwise it succeeds, and then, for
an element that is not an end marker, `fieldNameSize` is the length of the name plus one and
the kind byte and the name with its terminator fit within `maxLen` bytes, while for an end
marker, which has no name, `fieldNameSize` is 0. No byte past the bound is read: on the memory
cut off at the bound the outcome is the same. -/
theorem BSONElement.ofData_bounded (t : Byte) (rest : Mem) (maxLen : Int)
    (hmax : maxLen ≠ -1) (hbuf : (maxLen - 1).toNat ≤ rest.length) :
    (BSONElement.ofData (t :: rest) maxLen = .error (.massert "Invalid field name")
        ↔ (charToInt t ≠ BSONType.EOO ∧ (0 : Byte) ∉ rest.take (maxLen - 1).toNat))
      ∧ (¬ (charToInt t ≠ BSONType.EOO ∧ (0 : Byte) ∉ rest.take (maxLen - 1).toNat) →
          ∃ e, BSONElement.ofData (t :: rest) maxLen = .ok e ∧ e.data = t :: rest
            ∧ (charToInt t = BSONType.EOO → e.fieldNameSize = 0 ∧ e.fieldName = [])
            ∧ (charToInt t ≠ BSONType.EOO →
                e.fieldNameSize = (e.fieldName.length : Int) + 1
                  ∧ 1 + e.fieldNameSize ≤ maxLen
                  ∧ (0 : Byte) ∉ e.fieldName
                  ∧ rest.take e.fieldNameSize.toNat = e.fieldName ++ [0]))
      ∧ (1 ≤ maxLen →
          (BSONElement.ofData ((t :: rest).take maxLen.toNat) maxLen).map
              (fun e => e.fieldNameSize)
            = (BSONElement.ofData (t :: rest) maxLen).map (fun e => e.fieldNameSize)) := by
  have hmax2 : (maxLen != -1) = true := by simpa using hmax
  by_cases ht : charToInt t = BSONType.EOO
  · have ht2 : (charToInt t == BSONType.EOO) = true := by simpa using ht
    have hof : ∀ r : Mem, BSONElement.ofData (t :: r) maxLen = .ok ⟨t :: r, 0⟩ := by
      intro r
      simp only [BSONElement.ofData, ht2, if_true]
    refine ⟨?_, ?_, ?_⟩
    · rw [hof]
      simp [ht]
    · intro _
      refine ⟨_, hof rest, rfl, fun _ => ⟨rfl, ?_⟩, fun h => absurd ht h⟩
      simp [BSONElement.fieldName, BSONElement.eoo, BSONElement.type, ht]
    · intro h1
      obtain ⟨k, hk⟩ : ∃ k, maxLen.toNat = k + 1 := ⟨maxLen.toNat - 1, by omega⟩
      rw [hk, List.take_succ_cons, hof, hof]
      rfl
  · have ht2 : (charToInt t == BSONType.EOO) = false := by simpa using ht
    have hof : ∀ r : Mem, BSONElement.ofData (t :: r) maxLen
        = match strnlen r (maxLen - 1) with
          | .error f => .error f
          | .ok size =>
            if size != -1 then .ok ⟨t :: r, size + 1⟩
            else .error (.massert "Invalid field name") := by
      intro r
      simp only [BSONElement.ofData, ht2, Bool.false_eq_true, if_false, hmax2, if_true]
    obtain ⟨h1, h2⟩ := strnlenAux_spec rest (maxLen - 1).toNat 0 hbuf
    have hcut : (rest.take (maxLen - 1).toNat).take (maxLen - 1).toNat
        = rest.take (maxLen - 1).toNat := by
      rw [List.take_take, Nat.min_self]
    have hcutlen : (maxLen - 1).toNat ≤ (rest.take (maxLen - 1).toNat).length := by
      rw [List.length_take]; omega
    obtain ⟨h1c, h2c⟩ := strnlenAux_spec (rest.take (maxLen - 1).toNat) (maxLen - 1).toNat 0
      hcutlen
    rw [hcut] at h1c h2c
    by_cases hz : (0 : Byte) ∈ rest.take (maxLen - 1).toNat
    · obtain ⟨h3, h4⟩ := h2 hz
      obtain ⟨h3c, -⟩ := h2c hz
      rw [cstr_take rest _ hz] at h3c
      simp only [Nat.cast_zero, zero_add] at h3 h3c
      have hne : (((cstr rest).length : Int) != -1) = true := by
        simp only [bne_iff_ne, ne_eq]; omega
      have hok : BSONElement.ofData (t :: rest) maxLen
          = .ok ⟨t :: rest, ((cstr rest).length : Int) + 1⟩ := by
        rw [hof]
        simp only [strnlen, h3, hne, if_true]
      have hfn : (BSONElement.mk (t :: rest) (((cstr rest).length : Int) + 1)).fieldName
          = cstr rest := by
        simp [BSONElement.fieldName, BSONElement.eoo, BSONElement.type, ht]
      refine ⟨?_, ?_, ?_⟩
      · rw [hok]
        exact ⟨fun h => (by cases h), fun h => absurd hz h.2⟩
      · intro _
        refine ⟨_, hok, rfl, fun h => absurd h ht, fun _ => ?_⟩
        rw [hfn]
        refine ⟨rfl, by show 1 + (((cstr rest).length : Int) + 1) ≤ maxLen; omega,
          cstr_nul_free rest, ?_⟩
        show rest.take (((cstr rest).length : Int) + 1).toNat = cstr rest ++ [0]
        obtain ⟨xs, hxs⟩ := cstr_split rest (List.mem_of_mem_take hz)
        have key : (cstr rest ++ [0] ++ xs).take (cstr rest ++ [0]).length = cstr rest ++ [0] :=
          List.take_left' rfl
        have e : cstr rest ++ [0] ++ xs = rest := hxs.symm
        have hl : (((cstr rest).length : Int) + 1).toNat = (cstr rest ++ [0]).length := by
          simp
        rw [e] at key
        rw [hl]
        exact key
      · intro hm1
        obtain ⟨k, hk⟩ : ∃ k, maxLen.toNat = k + 1 := ⟨maxLen.toNat - 1, by omega⟩
        have hk2 : k = (maxLen - 1).toNat := by omega
        rw [hk, List.take_succ_cons, hof, hok, hk2]
        simp only [strnlen, h3c, hne, if_true]
        rfl
    · have h3 := h1 hz
      have h3c := h1c hz
      have herr : BSONElement.ofData (t :: rest) maxLen
          = .error (.massert "Invalid field name") := by
        rw [hof]
        simp only [strnlen, h3]
        rfl
      refine ⟨?_, ?_, ?_⟩
      · rw [herr]
        exact ⟨fun _ => ⟨ht, hz⟩, fun _ => rfl⟩
      · intro h
        exact absurd ⟨ht, hz⟩ h
      · intro hm1
        obtain ⟨k, hk⟩ : ∃ k, maxLen.toNat = k + 1 := ⟨maxLen.toNat - 1, by omega⟩
        have hk2 : k = (maxLen - 1).toNat := by omega
        rw [hk, List.take_succ_cons, hof, herr, hk2]
        simp only [strnlen, h3c]
        rfl

/-- Witness for the amended C24: the element `a : null` read with the bound 2, and with the
bound 3. -/
theorem BSONElement.ofData_bounded_witness :
    (BSONElement.ofData [10, 97, 0, 0] 2 = .error (.massert "Invalid field name")
        ↔ (charToInt 10 ≠ BSONType.EOO
          ∧ (0 : Byte) ∉ ([97, 0, 0] : Mem).take ((2 : Int) - 1).toNat))
      ∧ (BSONElement.ofData (([10, 97, 0, 0] : Mem).take (3 : Int).toNat) 3).map
            (fun e => e.fieldNameSize)
          = (BSONElement.ofData [10, 97, 0, 0] 3).map (fun e => e.fieldNameSize) :=
  ⟨(BSONElement.ofData_bounded 10 [97, 0, 0] 2 (by decide) (by decide)).1,
    (BSONElement.ofData_bounded 10 [97, 0, 0] 3 (by decide) (by decide)).2.2 (by decide)⟩

/-! ## Iteration ends at the end of the buffer -/

theorem BSONObjIterator.nexts_fields (fields : List Mem)
    (hf : ∀ enc ∈ fields, IsField enc) (tl : Mem) :
    ∀ pre : Mem, ∃ init last,
      BSONObjIterator.nexts (fields.length + 1)
          ⟨pre ++ (fields.flatten ++ 0 :: tl), pre.length,
            (pre.length : Int) + (fields.flatten.length : Int) + 1⟩ = .ok (init ++ [last])
        ∧ init.length = fields.length
        ∧ List.Chain (fun p q : Int => p < q) (pre.length : Int)
            ((init ++ [last]).map (fun s => s.2.pos))
        ∧ (∀ s ∈ init, s.1.eoo = false
            ∧ s.2.pos < (pre.length : Int) + (fields.flatten.length : Int) + 1
            ∧ s.2.theend = (pre.length : Int) + (fields.flatten.length : Int) + 1)
        ∧ last.1.eoo = true
        ∧ last.2.pos = (pre.length : Int) + (fields.flatten.length : Int) + 1
        ∧ last.2.theend = (pre.length : Int) + (fields.flatten.length : Int) + 1 := by
  induction fields with
  | nil =>
    intro pre
    have hnext := BSONObjIterator.next_at pre (0 :: tl) ((pre.length : Int) + 0 + 1) _ 1
      (by omega) (BSONElement.ofData_eoo tl) (BSONElement.size_eoo tl)
    refine ⟨[], (⟨0 :: tl, 0⟩, ⟨pre ++ 0 :: tl, (pre.length : Int) + 1,
      (pre.length : Int) + 0 + 1⟩), ?_, rfl, ?_, ?_, rfl, ?_, ?_⟩
    · simp only [List.flatten_nil, List.nil_append, List.length_nil, Nat.cast_zero,
        BSONObjIterator.nexts, hnext]
    · simp
    · intro s hs
      cases hs
    · simp
    · simp
  | cons f fs ih =>
    intro pre
    obtain ⟨e, he, heoo, hsz⟩ := hf f (by simp) (fs.flatten ++ 0 :: tl)
    have hf1 := IsField.ne_nil f (hf f (by simp))
    obtain ⟨init, last, hn, hlen, hchain, hinit, hl1, hl2, hl3⟩ :=
      ih (fun enc henc => hf enc (by simp [henc])) (pre ++ f)
    have hfl : (f :: fs).flatten = f ++ fs.flatten := List.flatten_cons
    have hlenf : ((f ++ fs.flatten).length : Int)
        = (f.length : Int) + (fs.flatten.length : Int) := by
      rw [List.length_append]; push_cast; rfl
    have hbuf : pre ++ ((f ++ fs.flatten) ++ 0 :: tl)
        = pre ++ (f ++ (fs.flatten ++ 0 :: tl)) := by
      rw [List.append_assoc]
    have hpos : (pre.length : Int) + (f.length : Int) = ((pre ++ f).length : Int) := by
      rw [List.length_append]; push_cast; rfl
    have hend : (pre.length : Int) + ((f ++ fs.flatten).length : Int) + 1
        = ((pre ++ f).length : Int) + (fs.flatten.length : Int) + 1 := by
      rw [hlenf, ← hpos]; omega
    have hnext := BSONObjIterator.next_at pre (f ++ (fs.flatten ++ 0 :: tl))
      ((pre.length : Int) + ((f ++ fs.flatten).length : Int) + 1) e (f.length : Int)
      (by omega) he hsz
    have hbuf2 : pre ++ (f ++ (fs.flatten ++ 0 :: tl))
        = (pre ++ f) ++ (fs.flatten ++ 0 :: tl) := by
      rw [List.append_assoc]
    rw [hfl, hend]
    refine ⟨(e, ⟨(pre ++ f) ++ (fs.flatten ++ 0 :: tl), ((pre ++ f).length : Int),
      ((pre ++ f).length : Int) + (fs.flatten.length : Int) + 1⟩) :: init, last, ?_, ?_, ?_,
      ?_, hl1, hl2, hl3⟩
    · rw [hbuf, ← hend]
      rw [show (f :: fs).length + 1 = (fs.length + 1) + 1 from rfl, BSONObjIterator.nexts,
        hnext]
      simp only []
      rw [hbuf2, hpos, hend, hn]
      rfl
    · simp [hlen]
    · simp only [List.cons_append, List.map_cons, List.chain_cons]
      exact ⟨by omega, hchain⟩
    · intro s hs
      rcases List.mem_cons.mp hs with rfl | hs
      · exact ⟨heoo, by simp only; omega, rfl⟩
      · exact hinit s hs

/-- C30: for the document produced by `done()` after `n` well-formed append calls (within the
16 MiB of a document), an iterator starts at offset 4 with `theend` the length of the buffer,
and `n + 1` successive calls of `next()` all succeed (each finds its assertion
`pos < theend` true); the cursor strictly advances on each call and stays below `theend`
after each of the first `n` calls, which return the fields; the call `n + 1` returns the end
marker and leaves the cursor equal to `theend` exactly, so `more()` is false (and one more
call of `next()` would fail its assertion). -/
theorem BSONObjIterator.iteration_ends_at_end (calls : List AppendCall)
    (hwf : ∀ c ∈ calls, c.wellFormed) :
    ∃ bb, AppendCall.runAll calls BSONObjBuilder.new = .ok bb
      ∧ (bb._done.length ≤ 16777216 →
          ∃ o it init last, bb.done = .ok o ∧ o.objdata = .ok bb._done
            ∧ BSONObjIterator.ofObj o = .ok it
            ∧ it.pos = 4 ∧ it.theend = (bb._done.length : Int) ∧ it.more = true
            ∧ it.nexts (calls.length + 1) = .ok (init ++ [last])
            ∧ init.length = calls.length
            ∧ List.Chain (fun p q : Int => p < q) it.pos
                ((init ++ [last]).map (fun s => s.2.pos))
            ∧ (∀ s ∈ init, s.1.eoo = false ∧ s.2.pos < it.theend ∧ s.2.more = true)
            ∧ last.1.eoo = true ∧ last.2.pos = it.theend ∧ last.2.more = false
            ∧ last.2.next = .error .assertion) := by
  obtain ⟨bb, hrun, hdata, hdone⟩ := BSONObjBuilder.done_wellFormed calls hwf
  refine ⟨bb, hrun, fun hsz => ?_⟩
  obtain ⟨-, o, ho, hod, hos, howf⟩ := hdone hsz
  obtain ⟨_ | d⟩ := o
  · exact absurd howf (by simp [BSONObj.wellFormed])
  · obtain ⟨hf, hr, hsz2, tl, hbuf⟩ := howf
    have hd : d._objdata = bb._done := Except.ok.inj hod
    have hsz3 : d._objsize = (bb._done.length : Int) := hos
    have h4 : (d._objdata.take 4).length = 4 := by
      have : 4 ≤ d._objdata.length := by
        rw [hd]
        have := IsField.length_le_flatten _ hf
        omega
      simp [List.length_take, this]
    obtain ⟨init, last, hn, hlen, hchain, hinit, hl1, hl2, hl3⟩ :=
      BSONObjIterator.nexts_fields _ hf tl (d._objdata.take 4)
    rw [← hbuf] at hn
    rw [h4] at hn hchain hinit hl2 hl3
    have hend : ((4 : Nat) : Int) + (((calls.map AppendCall.encode).flatten.length : Nat) : Int)
        + 1 = d._objsize := by
      rw [hsz2]; push_cast; rfl
    rw [hend] at hn hinit hl2 hl3
    have hne : (d._objsize == 0) = false := by
      simp only [beq_eq_false_iff_ne, ne_eq]; omega
    have hit : BSONObjIterator.ofObj ⟨some d⟩ = .ok ⟨d._objdata, 4, d._objsize⟩ := by
      simp [BSONObjIterator.ofObj, BSONObj.objsize, hne, BSONObj.objdata]
    have hlen2 : init.length = calls.length := by
      rw [hlen, List.length_map]
    rw [List.length_map] at hn
    refine ⟨⟨some d⟩, ⟨d._objdata, 4, d._objsize⟩, init, last, ho, hod, hit, rfl, hsz3, ?_,
      hn, hlen2, hchain, ?_, hl1, hl2, ?_, ?_⟩
    · simp only [BSONObjIterator.more, decide_eq_true_eq]
      omega
    · intro s hs
      obtain ⟨h1, h2, h3⟩ := hinit s hs
      refine ⟨h1, h2, ?_⟩
      simp only [BSONObjIterator.more, decide_eq_true_eq, h3]
      exact h2
    · simp only [BSONObjIterator.more, hl2, hl3, decide_eq_false_iff_not]
      omega
    · have : ¬ (last.2.pos < last.2.theend) := by rw [hl2, hl3]; omega
      simp only [BSONObjIterator.next, this, not_false_eq_true, if_true]

/-- Witness for C30: the document built by `appendInt("a", 1)` and `appendNull("b")`. -/
theorem BSONObjIterator.iteration_ends_at_end_witness :
    ∃ bb, AppendCall.runAll [AppendCall.int [97] 1, AppendCall.null [98]] BSONObjBuilder.new
        = .ok bb
      ∧ bb._done.length ≤ 16777216
      ∧ ∃ o it init last, bb.done = .ok o ∧ BSONObjIterator.ofObj o = .ok it
          ∧ it.nexts 3 = .ok (init ++ [last])
          ∧ last.1.eoo = true ∧ last.2.pos = it.theend ∧ last.2.more = false :=
  match BSONObjIterator.iteration_ends_at_end
    [AppendCall.int [97] 1, AppendCall.null [98]] (by decide) with
  | ⟨bb, h1, h2⟩ =>
    have hrun : AppendCall.runAll [AppendCall.int [97] 1, AppendCall.null [98]]
        BSONObjBuilder.new = .ok ⟨⟨[0, 0, 0, 0, 16, 97, 0, 1, 0, 0, 0, 10, 98, 0]⟩⟩ := by
      decide
    have hb : bb = ⟨⟨[0, 0, 0, 0, 16, 97, 0, 1, 0, 0, 0, 10, 98, 0]⟩⟩ :=
      Except.ok.inj (h1.symm.trans hrun)
    have hl : bb._done.length ≤ 16777216 := by rw [hb]; decide
    match h2 hl with
    | ⟨o, it, init, last, g1, _, g3, _, _, _, g7, _, _, _, g11, g12, g13, _⟩ =>
      ⟨bb, h1, hl, o, it, init, last, g1, g3, g7, g11, g12, g13⟩

/-! ## Comparison of documents -/

theorem readLong_total (m : Mem) (h : 8 ≤ m.length) : ∃ x, readLong m = .ok x := by
  match m, h with
  | b0 :: b1 :: b2 :: b3 :: b4 :: b5 :: b6 :: b7 :: _, _ => exact ⟨_, rfl⟩

theorem readInt_total (m : Mem) (h : 4 ≤ m.length) : ∃ x, readInt m = .ok x := by
  match m, h with
  | b0 :: b1 :: b2 :: b3 :: _, _ => exact ⟨_, rfl⟩

theorem readInt_range (m : Mem) (n : Int) (h : readInt m = .ok n) :
    -2147483648 ≤ n ∧ n < 2147483648 := by
  match m, h with
  | b0 :: b1 :: b2 :: b3 :: _, h =>
    simp only [readInt, Except.ok.injEq] at h
    have h0 := b0.isLt
    have h1 := b1.isLt
    have h2 := b2.isLt
    have h3 := b3.isLt
    split at h <;> omega

theorem fields_takeWhile_starts (fields : List Mem) (hf : ∀ enc ∈ fields, IsField enc)
    (tl : Mem) :
    ∀ es : List BSONElement,
      List.Forall₂ (fun e m => BSONElement.ofData m = .ok e) es (starts fields (0 :: tl)) →
      ∀ f ∈ es.takeWhile (fun e => !e.eoo),
        ∃ enc ∈ fields, ∃ rest, BSONElement.ofData (enc ++ rest) = .ok f := by
  induction fields with
  | nil =>
    intro es h f hfm
    simp only [starts] at h
    cases h with
    | cons h1 h2 =>
      cases h2
      rw [BSONElement.ofData_eoo_eq tl _ h1] at hfm
      simp [BSONElement.eoo, BSONElement.type, charToInt] at hfm
  | cons x xs ih =>
    intro es h f hfm
    simp only [starts] at h
    cases h with
    | cons h1 h2 =>
      rename_i e es2
      obtain ⟨e0, he0, heoo, -⟩ := hf x (by simp) (xs.flatten ++ 0 :: tl)
      rw [he0] at h1
      cases h1
      simp only [List.takeWhile_cons, heoo, Bool.not_false, if_true, List.mem_cons] at hfm
      rcases hfm with rfl | hfm
      · exact ⟨x, by simp, _, he0⟩
      · obtain ⟨enc, henc, rest, hr⟩ := ih (fun y hy => hf y (by simp [hy])) es2 h2 f hfm
        exact ⟨enc, by simp [henc], rest, hr⟩

theorem BSONObj.wellFormed_isField (o : BSONObj) (fields : List Mem)
    (h : o.wellFormed fields) : ∀ enc ∈ fields, IsField enc := by
  obtain ⟨_ | d⟩ := o
  · exact absurd h (by simp [BSONObj.wellFormed])
  · exact h.1

theorem BSONObj.fields_wellFormed (o : BSONObj) (fields : List Mem)
    (h : o.wellFormed fields) :
    ∃ fs, o.fields = .ok fs
      ∧ ∀ f ∈ fs, ∃ enc ∈ fields, ∃ rest, BSONElement.ofData (enc ++ rest) = .ok f := by
  obtain ⟨tl, es, p, -, -, hel, hall⟩ := o.elements_wellFormed fields h
  refine ⟨es.takeWhile (fun e => !e.eoo), by simp only [BSONObj.fields, hel], ?_⟩
  exact fields_takeWhile_starts fields (o.wellFormed_isField fields h) tl es hall

theorem AppendCall.flat_comparableBy (c : AppendCall) (hf : c.flat = true)
    (hwf : c.wellFormed) (hlen : (c.encode.length : Int) < 2147483648) (rest : Mem)
    (e : BSONElement) (hty : e.type = c.kind) (hval : e.value = c.valueBytes ++ rest)
    (nested : BSONObj → Bool) : e.comparableBy nested = true := by
  have hel := c.encode_length
  cases c with
  | double n d =>
    simp only [AppendCall.kind, AppendCall.valueBytes] at hty hval
    obtain ⟨x, hx⟩ := readLong_total e.value (by rw [hval]; simp [le64_length])
    simp [BSONElement.comparableBy, BSONElement.isNumber, returns, BSONElement.number, hty, hx]
  | int n v =>
    simp only [AppendCall.kind, AppendCall.valueBytes] at hty hval
    obtain ⟨x, hx⟩ := readInt_total e.value (by rw [hval]; simp [le32_length])
    simp [BSONElement.comparableBy, BSONElement.isNumber, returns, BSONElement.number, hty, hx]
  | bool n v =>
    simp only [AppendCall.kind, AppendCall.valueBytes] at hty hval
    simp [BSONElement.comparableBy, BSONElement.isNumber, hty, hval]
  | date n d =>
    simp only [AppendCall.kind, AppendCall.valueBytes] at hty hval
    simp [BSONElement.comparableBy, BSONElement.isNumber, hty, hval, le64_length]
  | string n s =>
    simp only [AppendCall.kind] at hty
    simp [BSONElement.comparableBy, BSONElement.isNumber, hty]
  | code n s =>
    simp only [AppendCall.kind] at hty
    simp [BSONElement.comparableBy, BSONElement.isNumber, hty]
  | symbol n s =>
    simp only [AppendCall.kind] at hty
    simp [BSONElement.comparableBy, BSONElement.isNumber, hty]
  | object n o => simp [AppendCall.flat] at hf
  | array n o => simp [AppendCall.flat] at hf
  | oid n o =>
    simp only [AppendCall.kind] at hty
    have h12 : 12 ≤ e.value.length := by
      rw [hval]
      cases o with
      | none => simp [AppendCall.valueBytes]
      | some o => simp [AppendCall.valueBytes, o.h]
    simp [BSONElement.comparableBy, BSONElement.isNumber, hty, h12]
  | regex n re options =>
    simp only [AppendCall.kind, AppendCall.valueBytes] at hty hval
    have hre : (0 : Byte) ∉ re := hwf.2.1
    have hs : strlen e.value = .ok re.length := by
      rw [hval]
      simpa using strlen_append re (options ++ 0 :: rest) hre
    simp [BSONElement.comparableBy, BSONElement.isNumber, hty, returns, BSONElement.regexFlags,
      BSONElement.regex, hs]
  | binData n len t data =>
    simp only [AppendCall.kind, AppendCall.valueBytes] at hty hval
    obtain ⟨-, h0, hle⟩ := hwf
    simp only [AppendCall.valueBytes, AppendCall.fieldName, List.length_append, le32_length,
      List.length_singleton, List.length_take] at hel
    have hmin : min len.toNat data.length = len.toNat := by omega
    rw [hmin] at hel
    have hr : readInt e.value = .ok len := by
      rw [hval, List.append_assoc, List.append_assoc]
      exact readInt_le32 _ _ (by omega) (by omega)
    have hlv : e.value.length = 4 + 1 + len.toNat + rest.length := by
      rw [hval]
      simp only [List.length_append, le32_length, List.length_singleton, List.length_take, hmin]
    simp only [BSONElement.comparableBy, BSONElement.isNumber, hty, BSONElement.binData,
      BSONElement.valuestrsize, hr, List.length_drop, hlv]
    simp
    omega
  | binDataArray n data len =>
    simp only [AppendCall.kind, AppendCall.valueBytes] at hty hval
    obtain ⟨-, h0, hle⟩ := hwf
    simp only [AppendCall.valueBytes, AppendCall.fieldName, List.length_append, le32_length,
      List.length_singleton, List.length_take] at hel
    have hmin : min len.toNat data.length = len.toNat := by omega
    rw [hmin] at hel
    have hr : readInt e.value = .ok (len + 4) := by
      rw [hval, List.append_assoc, List.append_assoc, List.append_assoc]
      exact readInt_le32 _ _ (by omega) (by omega)
    have hlv : e.value.length = 4 + 1 + 4 + len.toNat + rest.length := by
      rw [hval]
      simp only [List.length_append, le32_length, List.length_singleton, List.length_take, hmin]
    simp only [BSONElement.comparableBy, BSONElement.isNumber, hty, BSONElement.binData,
      BSONElement.valuestrsize, hr, List.length_drop, hlv]
    simp
    omega
  | codeWScope n cd sc => simp [AppendCall.flat] at hf
  | null n =>
    simp only [AppendCall.kind] at hty
    simp [BSONElement.comparableBy, BSONElement.isNumber, hty]
  | minKey n =>
    simp only [AppendCall.kind] at hty
    simp [BSONElement.comparableBy, BSONElement.isNumber, hty]
  | maxKey n =>
    simp only [AppendCall.kind] at hty
    simp [BSONElement.comparableBy, BSONElement.isNumber, hty]
  | dbRef n ns o => simp [AppendCall.flat] at hf

theorem BSONElement.comparableAux_of_by (e : BSONElement)
    (h : ∀ nested, e.comparableBy nested = true) (n : Nat) : e.comparableAux n = true := by
  cases n <;> simp only [BSONElement.comparableAux] <;> exact h _

theorem BSONObj.wellFormed_embedded (s : BSONObj) (fields : List Mem) (rest : Mem)
    (hs : s.wellFormed fields) (rc : Int) :
    (BSONObj.mk (some ⟨s.bytes ++ rest, s.objsize, rc⟩)).wellFormed fields := by
  obtain ⟨p, tl, hp, hpe, hsz, hb, -⟩ := s.wellFormed_layout fields hs
  have hf := s.wellFormed_isField fields hs
  have hrange : -2147483648 ≤ s.objsize ∧ s.objsize < 2147483648 := by
    obtain ⟨_ | d⟩ := s
    · exact absurd hs (by simp [BSONObj.wellFormed])
    · exact readInt_range _ _ hs.2.1
  refine ⟨hf, ?_, hsz, [] ++ rest, ?_⟩
  · show readInt (s.bytes ++ rest) = .ok s.objsize
    rw [hb, List.append_assoc]
    exact readInt_le32 _ _ hrange.1 hrange.2
  · show s.bytes ++ rest = (s.bytes ++ rest).take 4 ++ (fields.flatten ++ 0 :: ([] ++ rest))
    rw [hb]
    simp [List.take_append_of_le_length, le32_length]

theorem AppendCall.Comparable.comparableAux (c : AppendCall) (h : c.Comparable) :
    c.wellFormed → (c.encode.length : Int) < 2147483648 →
      ∀ (rest : Mem) (e : BSONElement) (n : Nat),
        BSONElement.ofData (c.encode ++ rest) = .ok e → c.encode.length ≤ n →
        e.comparableAux n = true := by
  induction h with
  | flat c hf =>
    intro hwf hlen rest e n he _
    obtain ⟨e', he', hty, -, hval, -, -⟩ := c.written hwf hlen rest
    rw [he] at he'
    cases he'
    exact e.comparableAux_of_by (c.flat_comparableBy hf hwf hlen rest e hty hval) n
  | object nm s calls hwfc _ hs hsz ih =>
    intro hwf hlen rest e n he hn
    obtain ⟨e', he', hty, -, hval, -, -⟩ := (AppendCall.object nm s).written hwf hlen rest
    rw [he] at he'
    cases he'
    simp only [AppendCall.kind, AppendCall.valueBytes] at hty hval
    have hemb := hwf.2
    have hbl := s.bytes_length hemb
    obtain ⟨-, -, -, -, hsize, -, -⟩ := s.wellFormed_layout _ hs
    have hel := (AppendCall.object nm s).encode_length
    simp only [AppendCall.valueBytes, AppendCall.fieldName] at hel
    have hpos : s.objsize > 0 := by omega
    have hmax : s.objsize ≤ 1024 * 1024 * 16 := by omega
    have heo : e.embeddedObject = .ok ⟨some ⟨s.bytes ++ rest, s.objsize, -1⟩⟩ := by
      simp [BSONElement.embeddedObject, hty, hval, BSONObj.ofData, BSONObj.init,
        s.readInt_bytes hemb rest, hpos, hmax, hsz]
    obtain ⟨fs, hfs, hall⟩ := BSONObj.fields_wellFormed _ _
      (s.wellFormed_embedded _ rest hs (-1))
    obtain ⟨n', rfl⟩ : ∃ n', n = n' + 1 := ⟨n - 1, by omega⟩
    have hnum : e.isNumber = false := by simp [BSONElement.isNumber, hty]
    simp only [BSONElement.comparableAux, BSONElement.comparableBy, hnum, Bool.false_eq_true,
      if_false, hty, heo, hfs, List.all_eq_true]
    simp only [BSONType.Object, BSONType.String, BSONType.Symbol, BSONType.Code,
      BSONType.Array]
    norm_num
    intro f hf
    obtain ⟨enc, henc, rest', hr⟩ := hall f hf
    obtain ⟨c', hc', rfl⟩ := List.mem_map.mp henc
    have hle := AppendCall.encode_le_flatten calls c' hc'
    exact ih c' hc' (hwfc c' hc') (by omega) rest' f n' hr (by omega)
  | array nm s calls hwfc _ hs hsz ih =>
    intro hwf hlen rest e n he hn
    obtain ⟨e', he', hty, -, hval, -, -⟩ := (AppendCall.array nm s).written hwf hlen rest
    rw [he] at he'
    cases he'
    simp only [AppendCall.kind, AppendCall.valueBytes] at hty hval
    have hemb := hwf.2
    have hbl := s.bytes_length hemb
    obtain ⟨-, -, -, -, hsize, -, -⟩ := s.wellFormed_layout _ hs
    have hel := (AppendCall.array nm s).encode_length
    simp only [AppendCall.valueBytes, AppendCall.fieldName] at hel
    have hpos : s.objsize > 0 := by omega
    have hmax : s.objsize ≤ 1024 * 1024 * 16 := by omega
    have heo : e.embeddedObject = .ok ⟨some ⟨s.bytes ++ rest, s.objsize, -1⟩⟩ := by
      simp [BSONElement.embeddedObject, hty, hval, BSONObj.ofData, BSONObj.init,
        s.readInt_bytes hemb rest, hpos, hmax, hsz]
    obtain ⟨fs, hfs, hall⟩ := BSONObj.fields_wellFormed _ _
      (s.wellFormed_embedded _ rest hs (-1))
    obtain ⟨n', rfl⟩ : ∃ n', n = n' + 1 := ⟨n - 1, by omega⟩
    have hnum : e.isNumber = false := by simp [BSONElement.isNumber, hty]
    simp only [BSONElement.comparableAux, BSONElement.comparableBy, hnum, Bool.false_eq_true,
      if_false, hty, heo, hfs, List.all_eq_true]
    simp only [BSONType.Object, BSONType.String, BSONType.Symbol, BSONType.Code,
      BSONType.Array]
    norm_num
    intro f hf
    obtain ⟨enc, henc, rest', hr⟩ := hall f hf
    obtain ⟨c', hc', rfl⟩ := List.mem_map.mp henc
    have hle := AppendCall.encode_le_flatten calls c' hc'
    exact ih c' hc' (hwfc c' hc') (by omega) rest' f n' hr (by omega)

theorem digitChar_ne_zero (d : Nat) (h : d < 10) : digitChar d ≠ 0 := by
  intro h0
  have := congrArg Fin.val h0
  simp only [digitChar, h, if_true, byteOf] at this
  simp only [Fin.val_zero] at this
  omega

theorem formatNatAux_nul_free :
    ∀ (fuel n : Nat) (acc : Mem), (0 : Byte) ∉ acc → (0 : Byte) ∉ formatNatAux 10 fuel n acc := by
  intro fuel
  induction fuel with
  | zero => intro n acc h; exact h
  | succ fuel ih =>
    intro n acc h
    have hd : (0 : Byte) ∉ digitChar (n % 10) :: acc := by
      intro hm
      rcases List.mem_cons.mp hm with h1 | h1
      · exact digitChar_ne_zero (n % 10) (Nat.mod_lt n (by decide)) h1.symm
      · exact h h1
    simp only [formatNatAux]
    split
    · exact hd
    · exact ih _ _ hd

theorem BSONObjBuilder.numStr_nul_free (i : Int) : (0 : Byte) ∉ BSONObjBuilder.numStr i := by
  unfold BSONObjBuilder.numStr
  split
  · intro hm
    rcases List.mem_cons.mp hm with h1 | h1
    · exact absurd h1 (by decide)
    · exact formatNatAux_nul_free _ _ [] (by simp) h1
  · exact formatNatAux_nul_free _ _ [] (by simp)

theorem formatNatAux_digits :
    ∀ (fuel n : Nat) (acc : Mem), 0 < n → n < fuel →
      formatNatAux 10 fuel n acc = (Nat.digits 10 n).reverse.map digitChar ++ acc := by
  intro fuel
  induction fuel with
  | zero => intro n acc _ h; omega
  | succ fuel ih =>
    intro n acc hn hlt
    have hdig : Nat.digits 10 n = (n % 10) :: Nat.digits 10 (n / 10) :=
      Nat.digits_def' (by decide) hn
    simp only [formatNatAux]
    by_cases h0 : n / 10 = 0
    · simp [h0, hdig]
    · simp only [h0, if_false]
      rw [ih (n / 10) _ (Nat.pos_of_ne_zero h0) (by omega), hdig]
      simp

theorem BSONObjBuilder.numStr_digits (i : Nat) (hi : 0 < i) :
    BSONObjBuilder.numStr (i : Int)
      = (Nat.digits 10 i).reverse.map (fun d => byteOf (48 + d)) := by
  have hneg : ¬ ((i : Int) < 0) := by omega
  simp only [BSONObjBuilder.numStr, hneg, if_false, Int.toNat_ofNat, formatNat]
  rw [formatNatAux_digits (i + 1) i [] hi (by omega), List.append_nil]
  apply List.map_congr_left
  intro d hd
  have hd10 : d < 10 := Nat.digits_lt_base (by decide) (List.mem_reverse.mp hd)
  simp [digitChar, hd10]

theorem intOfUnsigned_small (i : Nat) (h : i < 2147483648) : intOfUnsigned i = (i : Int) := by
  have h1 : i % 4294967296 = i := Nat.mod_eq_of_lt (by omega)
  simp [intOfUnsigned, h1, h]

theorem highBit_spec : ∀ (fuel n : Nat), 0 < n → n < 2 ^ fuel →
    2 ^ highBit fuel n ≤ n ∧ n < 2 ^ (highBit fuel n + 1) ∧ highBit fuel n < fuel := by
  intro fuel
  induction fuel with
  | zero => intro n h0 h1; simp at h1; omega
  | succ fuel ih =>
    intro n h0 h1
    simp only [highBit]
    by_cases h2 : n < 2
    · simp only [h2, if_true]
      have : n = 1 := by omega
      subst this
      simp
    · simp only [h2, if_false]
      have h3 : n / 2 < 2 ^ fuel := by
        rw [pow_succ] at h1
        omega
      obtain ⟨i1, i2, i3⟩ := ih (n / 2) (by omega) h3
      rw [pow_succ] at i2
      refine ⟨?_, ?_, by omega⟩
      · rw [pow_succ]; omega
      · rw [pow_succ, pow_succ]; omega

theorem doubleOfInt_value (v : Int) (h1 : -2147483648 ≤ v) (h2 : v < 2147483648) :
    DoubleVal.ofBits (doubleOfInt v) = .finite (v : ℚ) ∧ doubleOfInt v < 2 ^ 64 := by
  by_cases hv : v = 0
  · subst hv
    constructor
    · norm_num [DoubleVal.ofBits, doubleOfInt]
    · norm_num [doubleOfInt]
  · have ha0 : 0 < v.natAbs := Int.natAbs_pos.mpr hv
    have ha1 : v.natAbs < 2 ^ 32 := by
      have : v.natAbs ≤ 2147483648 := by omega
      have : (2 : Nat) ^ 32 = 4294967296 := by norm_num
      omega
    obtain ⟨e1, e2, e3⟩ := highBit_spec 32 v.natAbs ha0 ha1
    generalize he : highBit 32 v.natAbs = e at e1 e2 e3
    have hsplit : (52 - e) + e = 52 := by omega
    have hp52 : (2 : Nat) ^ 52 = 2 ^ (52 - e) * 2 ^ e := by rw [← pow_add, hsplit]
    have hlow : 2 ^ 52 ≤ v.natAbs * 2 ^ (52 - e) := by
      rw [hp52, Nat.mul_comm]
      exact Nat.mul_le_mul_right _ e1
    have hhigh : v.natAbs * 2 ^ (52 - e) < 2 ^ 53 := by
      have : (2 : Nat) ^ 53 = 2 ^ (e + 1) * 2 ^ (52 - e) := by
        rw [← pow_add]; congr 1; omega
      rw [this]
      exact Nat.mul_lt_mul_of_pos_right e2 (by positivity)
    generalize hF : v.natAbs * 2 ^ (52 - e) = F at hlow hhigh
    have hbits : doubleOfInt v
        = (if v < 0 then 2 ^ 63 else 0) + (1023 + e) * 2 ^ 52 + (F - 2 ^ 52) := by
      simp only [doubleOfInt, hv, if_false, he, hF]
    have c52 : (2 : Nat) ^ 52 = 4503599627370496 := by norm_num
    have c53 : (2 : Nat) ^ 53 = 9007199254740992 := by norm_num
    have c63 : (2 : Nat) ^ 63 = 9223372036854775808 := by norm_num
    have c64 : (2 : Nat) ^ 64 = 18446744073709551616 := by norm_num
    rw [c52] at hlow
    rw [c53] at hhigh
    have hq : ((F : Nat) : ℚ) * (2 : ℚ) ^ (1023 + e) / (2 : ℚ) ^ 1075 = (v.natAbs : ℚ) := by
      rw [← hF]
      push_cast
      have : (2 : ℚ) ^ 1075 = (2 : ℚ) ^ (52 - e) * (2 : ℚ) ^ (1023 + e) := by
        rw [← pow_add]; congr 1; omega
      rw [this, mul_assoc]
      exact mul_div_cancel_right₀ _ (by positivity)
    by_cases hneg : v < 0
    · have hb : doubleOfInt v = 9223372036854775808 + (1023 + e) * 4503599627370496
          + (F - 4503599627370496) := by
        rw [hbits, c63, c52]; simp [hneg]
      have s1 : doubleOfInt v / 2 ^ 63 % 2 = 1 := by rw [c63]; omega
      have s2 : doubleOfInt v / 2 ^ 52 % 2048 = 1023 + e := by rw [c52]; omega
      have s3 : 2 ^ 52 + doubleOfInt v % 2 ^ 52 = F := by rw [c52]; omega
      have hvq : (v : ℚ) = -(v.natAbs : ℚ) := by
        have hva : v = -(v.natAbs : Int) := by omega
        generalize v.natAbs = a at hva
        rw [hva]
        push_cast
        rfl
      refine ⟨?_, by rw [c64]; omega⟩
      have hE1 : ¬ (1023 + e = 2047) := by omega
      have hE2 : ¬ (1023 + e = 0) := by omega
      simp only [DoubleVal.ofBits, s1, s2, s3, hE1, hE2, if_false, if_true, hq, hvq]
    · have hb : doubleOfInt v = (1023 + e) * 4503599627370496 + (F - 4503599627370496) := by
        rw [hbits, c52]; simp [hneg]
      have s1 : doubleOfInt v / 2 ^ 63 % 2 = 0 := by rw [c63]; omega
      have s2 : doubleOfInt v / 2 ^ 52 % 2048 = 1023 + e := by rw [c52]; omega
      have s3 : 2 ^ 52 + doubleOfInt v % 2 ^ 52 = F := by rw [c52]; omega
      have hvq : (v : ℚ) = (v.natAbs : ℚ) := by
        have hva : v = (v.natAbs : Int) := by omega
        generalize v.natAbs = a at hva
        rw [hva]
        push_cast
        rfl
      refine ⟨?_, by rw [c64]; omega⟩
      have hE1 : ¬ (1023 + e = 2047) := by omega
      have hE2 : ¬ (1023 + e = 0) := by omega
      simp only [DoubleVal.ofBits, s1, s2, s3, hE1, hE2, if_false, hq, hvq]
      simp

/-! ## Arrays of a vector -/

theorem BSONObjBuilder.array_roundtrip (calls : List AppendCall)
    (hwf : ∀ c ∈ calls, c.wellFormed) (arrBuilder : BSONObjBuilder)
    (hrun : AppendCall.runAll calls BSONObjBuilder.new = .ok arrBuilder)
    (hsz : arrBuilder._done.length ≤ 16777216) (bb : BSONObjBuilder) (name rest : Mem)
    (hn : (0 : Byte) ∉ name) (hname : name.length ≤ 16777216) :
    ∃ arr enc e sub fields elast, arrBuilder.done = .ok arr
      ∧ bb.marshalArray name arr = .ok ⟨⟨bb.b.data ++ enc⟩⟩
      ∧ BSONElement.ofData (enc ++ rest) = .ok e
      ∧ e.type = BSONType.Array ∧ e.fieldName = name
      ∧ e.embeddedObject = .ok sub ∧ sub.bytes = arr.bytes
      ∧ sub.elements = .ok (fields ++ [elast]) ∧ elast.eoo = true
      ∧ List.Forall₂ (fun f c => f.view = .ok c.expected) fields calls
      ∧ calls.length ≤ 16777216 := by
  obtain ⟨bb2, hrun2, -, hdone⟩ := BSONObjBuilder.done_wellFormed calls hwf
  rw [hrun] at hrun2
  have hbb : arrBuilder = bb2 := Except.ok.inj hrun2
  subst hbb
  obtain ⟨hlen, arr, harr, hod, hos, howf⟩ := hdone hsz
  obtain ⟨p, tl0, hp, hpeq, hsz2, hbytes, hcount⟩ := arr.wellFormed_layout _ howf
  have hcl : calls.length ≤ 16777216 := by
    rw [List.length_map] at hcount
    omega
  have hemb : arr.embeddable := by
    obtain ⟨_ | d⟩ := arr
    · exact absurd howf (by simp [BSONObj.wellFormed])
    · have hd : d._objdata = arrBuilder._done := Except.ok.inj hod
      have hs : d._objsize = (arrBuilder._done.length : Int) := hos
      refine ⟨howf.2.1, ?_, ?_⟩
      · have := howf.2.2.1
        omega
      · rw [hd, hs]
  have hbl := arr.bytes_length hemb
  have hmax : arr.objsize ≤ 16777216 := by rw [hos]; omega
  have hs5 : 5 ≤ arr.objsize := by omega
  have hwf0 : (AppendCall.array name arr).wellFormed := ⟨hn, hemb⟩
  have hrun0 := (AppendCall.array name arr).run_encode hwf0 bb
  have hel := (AppendCall.array name arr).encode_length
  have hvb : (AppendCall.array name arr).valueBytes = arr.bytes := rfl
  have hfn : (AppendCall.array name arr).fieldName = name := rfl
  rw [hvb, hfn, hbl] at hel
  obtain ⟨e, he, hty, hnm, hv, -, -⟩ :=
    (AppendCall.array name arr).written hwf0 (by omega) rest
  rw [hvb] at hv
  have hr := arr.readInt_bytes hemb rest
  have h1 : arr.objsize > 0 := by omega
  have h2 : ¬ (16777216 < arr.objsize) := by omega
  have hemo : e.embeddedObject = .ok ⟨some ⟨arr.bytes ++ rest, arr.objsize, -1⟩⟩ := by
    have hob : (e.type == BSONType.Object || e.type == BSONType.Array) = true := by
      rw [hty]; rfl
    simp only [BSONElement.embeddedObject, hob, if_true, hv]
    simp [BSONObj.ofData, BSONObj.init, hr, h1, h2]
  have hsubwf : (BSONObj.mk (some ⟨arr.bytes ++ rest, arr.objsize, -1⟩)).wellFormed
      (calls.map AppendCall.encode) := by
    have hf : ∀ enc ∈ calls.map AppendCall.encode, IsField enc := by
      obtain ⟨_ | d⟩ := arr
      · exact absurd howf (by simp [BSONObj.wellFormed])
      · exact howf.1
    refine ⟨hf, hr, hsz2, rest, ?_⟩
    show arr.bytes ++ rest = (arr.bytes ++ rest).take 4 ++ _
    rw [hbytes]
    have ht : (le32 arr.objsize ++ ((calls.map AppendCall.encode).flatten ++ [0])
        ++ rest).take 4 = le32 arr.objsize := by
      rw [List.append_assoc]
      exact List.take_left' (le32_length _)
    rw [ht]
    simp
  obtain ⟨tl, es, p2, -, -, hes, hall⟩ := BSONObj.elements_wellFormed _ _ hsubwf
  obtain ⟨es1, elast, hsplit, hlast, hviews, -⟩ :=
    AppendCall.elements_of_starts calls hwf hlen (0 :: tl) es hall
  have hleq := BSONElement.ofData_eoo_eq tl elast hlast
  refine ⟨arr, _, e, _, es1, elast, harr, hrun0, he, hty, hnm, hemo, ?_, ?_, ?_, ?_, hcl⟩
  · show List.take arr.objsize.toNat (arr.bytes ++ rest) = arr.bytes
    exact List.take_left' (by omega)
  · rw [hes, hsplit]
  · rw [hleq]
    rfl
  · exact forall₂_imp_mem hviews (fun a b _ h => h.2)

theorem BSONObjBuilder.appendIntArrayLoop_run :
    ∀ (vals : List Int) (i : Nat) (bb : BSONObjBuilder),
      AppendCall.runAll ((vals.enumFrom i).map
          (fun p => AppendCall.int (BSONObjBuilder.numStr (intOfUnsigned p.1)) p.2)) bb
        = .ok (BSONObjBuilder.appendIntArrayLoop vals i bb) := by
  intro vals
  induction vals with
  | nil => intro i bb; rfl
  | cons v vals ih =>
    intro i bb
    simp only [List.enumFrom_cons, List.map_cons, AppendCall.runAll, AppendCall.run,
      BSONObjBuilder.appendIntArrayLoop]
    exact ih (i + 1) _

theorem BSONObjBuilder.appendVectorLoop_run :
    ∀ (vals : List Int) (i : Nat) (bb : BSONObjBuilder),
      BSONObjBuilder.appendVectorLoop BSONObjBuilder.appendOfInt vals i bb
        = AppendCall.runAll ((vals.enumFrom i).map
          (fun p => AppendCall.double (BSONObjBuilder.numStr (intOfUnsigned p.1))
            (doubleOfInt p.2))) bb := by
  intro vals
  induction vals with
  | nil => intro i bb; rfl
  | cons v vals ih =>
    intro i bb
    simp only [List.enumFrom_cons, List.map_cons, AppendCall.runAll, AppendCall.run,
      BSONObjBuilder.appendVectorLoop, BSONObjBuilder.appendOfInt]
    exact ih (i + 1) _

theorem forall₂_enum_names {T : Type} (vals : List T) (fields : List BSONElement)
    (mk : Mem → T → AppendCall) (hlen : vals.length ≤ 16777216)
    (h : List.Forall₂ (fun f c => f.view = .ok c.expected) fields
      ((vals.enumFrom 0).map (fun p => mk (BSONObjBuilder.numStr (intOfUnsigned p.1)) p.2))) :
    List.Forall₂ (fun f p => f.view
        = .ok (mk (BSONObjBuilder.numStr ((p.1 : Nat) : Int)) p.2).expected) fields vals.enum := by
  rw [List.forall₂_map_right_iff] at h
  refine forall₂_imp_mem h ?_
  intro f p hp hv
  have hlt : p.1 < vals.length := by
    have := List.fst_lt_add_of_mem_enumFrom hp
    omega
  rw [intOfUnsigned_small p.1 (by omega)] at hv
  exact hv

/-- C26: for every field name and every list `vals` of `n` int32 values (the array document
within the 16 MiB of a document), `appendIntArray(name, vals)` writes one element of kind
Array with that name whose embedded document has exactly `n` fields before its end marker, the
field `i` (from 0) being named `numStr(i)` and being the int32 `vals[i]`, in order. The
template `append(name, vals)` on the same vector does the same with fields that are doubles of
value `vals[i]` (its call `append(name, vals[i])` resolves to `append(const char *, double)`).
`numStr(i)` is the decimal representation of `i` without leading zeros: `0` for zero, else the
digits of `i`. -/
theorem BSONObjBuilder.appendIntArray_fields (bb : BSONObjBuilder) (name : Mem)
    (vals : List Int) (rest : Mem) (hn : (0 : Byte) ∉ name) (hname : name.length ≤ 16777216)
    (hv : ∀ v ∈ vals, -2147483648 ≤ v ∧ v < 2147483648)
    (hsz : (BSONObjBuilder.appendIntArrayLoop vals 0 BSONObjBuilder.new)._done.length
      ≤ 16777216) :
    (∃ enc e sub fields elast,
        bb.appendIntArray name vals = .ok ⟨⟨bb.b.data ++ enc⟩⟩
        ∧ BSONElement.ofData (enc ++ rest) = .ok e
        ∧ e.type = BSONType.Array ∧ e.fieldName = name
        ∧ e.embeddedObject = .ok sub
        ∧ sub.elements = .ok (fields ++ [elast]) ∧ elast.eoo = true
        ∧ fields.length = vals.length
        ∧ List.Forall₂ (fun f p => f.view
            = .ok (BSONType.NumberInt, BSONObjBuilder.numStr ((p.1 : Nat) : Int), le32 p.2)
              ∧ readInt (le32 p.2) = .ok p.2) fields vals.enum)
      ∧ (∃ ab, BSONObjBuilder.appendVectorLoop BSONObjBuilder.appendOfInt vals 0
            BSONObjBuilder.new = .ok ab ∧ (ab._done.length ≤ 16777216 →
          ∃ enc e sub fields elast,
            bb.appendVector BSONObjBuilder.appendOfInt name vals = .ok ⟨⟨bb.b.data ++ enc⟩⟩
            ∧ BSONElement.ofData (enc ++ rest) = .ok e
            ∧ e.type = BSONType.Array ∧ e.fieldName = name
            ∧ e.embeddedObject = .ok sub
            ∧ sub.elements = .ok (fields ++ [elast]) ∧ elast.eoo = true
            ∧ fields.length = vals.length
            ∧ List.Forall₂ (fun f p => f.view
                = .ok (BSONType.NumberDouble, BSONObjBuilder.numStr ((p.1 : Nat) : Int),
                    le64 (doubleOfInt p.2))
                  ∧ DoubleVal.ofBits (doubleOfInt p.2) = .finite (p.2 : ℚ)) fields vals.enum))
      ∧ BSONObjBuilder.numStr 0 = [48]
      ∧ (∀ i : Nat, 0 < i → BSONObjBuilder.numStr (i : Int)
          = (Nat.digits 10 i).reverse.map (fun d => byteOf (48 + d))) := by
  refine ⟨?_, ?_, by decide, BSONObjBuilder.numStr_digits⟩
  · have hwf : ∀ c ∈ (vals.enumFrom 0).map
        (fun p => AppendCall.int (BSONObjBuilder.numStr (intOfUnsigned p.1)) p.2),
        c.wellFormed := by
      intro c hc
      obtain ⟨p, -, rfl⟩ := List.mem_map.mp hc
      exact BSONObjBuilder.numStr_nul_free _
    obtain ⟨arr, enc, e, sub, fields, elast, h1, h2, h3, h4, h5, h6, -, h8, h9, h10, h11⟩ :=
      BSONObjBuilder.array_roundtrip _ hwf _ (BSONObjBuilder.appendIntArrayLoop_run vals 0 _)
        hsz bb name rest hn hname
    have hlen : vals.length ≤ 16777216 := by simpa using h11
    have hviews := forall₂_enum_names vals fields AppendCall.int hlen h10
    refine ⟨enc, e, sub, fields, elast, ?_, h3, h4, h5, h6, h8, h9, ?_, ?_⟩
    · simp only [BSONObjBuilder.appendIntArray, h1, h2]
    · have := h10.length_eq
      simpa using this
    · refine forall₂_imp_mem hviews ?_
      intro f p hp hview
      refine ⟨hview, ?_⟩
      have hmem : p.2 ∈ vals := List.snd_mem_of_mem_enum hp
      have := readInt_le32 p.2 [] (hv _ hmem).1 (hv _ hmem).2
      simpa using this
  · have hwf : ∀ c ∈ (vals.enumFrom 0).map
        (fun p => AppendCall.double (BSONObjBuilder.numStr (intOfUnsigned p.1))
          (doubleOfInt p.2)), c.wellFormed := by
      intro c hc
      obtain ⟨p, -, rfl⟩ := List.mem_map.mp hc
      exact BSONObjBuilder.numStr_nul_free _
    obtain ⟨ab, hab, -, -⟩ := BSONObjBuilder.done_wellFormed _ hwf
    refine ⟨ab, by rw [BSONObjBuilder.appendVectorLoop_run]; exact hab, fun hsz2 => ?_⟩
    obtain ⟨arr, enc, e, sub, fields, elast, h1, h2, h3, h4, h5, h6, -, h8, h9, h10, h11⟩ :=
      BSONObjBuilder.array_roundtrip _ hwf ab hab hsz2 bb name rest hn hname
    have hlen : vals.length ≤ 16777216 := by simpa using h11
    have hviews := forall₂_enum_names vals fields
      (fun n v => AppendCall.double n (doubleOfInt v)) hlen h10
    refine ⟨enc, e, sub, fields, elast, ?_, h3, h4, h5, h6, h8, h9, ?_, ?_⟩
    · simp only [BSONObjBuilder.appendVector, BSONObjBuilder.appendVectorLoop_run, hab, h1, h2]
    · have := h10.length_eq
      simpa using this
    · refine forall₂_imp_mem hviews ?_
      intro f p hp hview
      refine ⟨hview, ?_⟩
      have hmem : p.2 ∈ vals := List.snd_mem_of_mem_enum hp
      exact (doubleOfInt_value p.2 (hv _ hmem).1 (hv _ hmem).2).1

/-- Witness for C26: `appendIntArray("a", {7, -1})` on a fresh builder. -/
theorem BSONObjBuilder.appendIntArray_fields_witness :
    ∃ enc e sub fields elast,
      BSONObjBuilder.new.appendIntArray [97] [7, -1]
          = .ok ⟨⟨BSONObjBuilder.new.b.data ++ enc⟩⟩
        ∧ BSONElement.ofData (enc ++ [0]) = .ok e
        ∧ e.type = BSONType.Array ∧ e.fieldName = [97]
        ∧ e.embeddedObject = .ok sub
        ∧ sub.elements = .ok (fields ++ [elast]) ∧ elast.eoo = true
        ∧ fields.length = 2
        ∧ List.Forall₂ (fun f p => f.view
            = .ok (BSONType.NumberInt, BSONObjBuilder.numStr ((p.1 : Nat) : Int), le32 p.2)
              ∧ readInt (le32 p.2) = .ok p.2) fields [(0, 7), (1, -1)] :=
  (BSONObjBuilder.appendIntArray_fields BSONObjBuilder.new [97] [7, -1] [0] (by decide)
    (by decide) (by decide) (by decide)).1

/-! ## Strings -/

theorem BSONElement.string_written (c : AppendCall) (name s : Mem) (k : Int)
    (hc : (c = AppendCall.string name s ∧ k = BSONType.String)
      ∨ (c = AppendCall.code name s ∧ k = BSONType.Code)
      ∨ (c = AppendCall.symbol name s ∧ k = BSONType.Symbol))
    (hn : (0 : Byte) ∉ name) (hs : (0 : Byte) ∉ s)
    (hfit : (name.length : Int) + (s.length : Int) + 7 < 2147483648) (bb : BSONObjBuilder)
    (rest : Mem) :
    ∃ e, c.run bb = .ok ⟨⟨bb.b.data
          ++ charOf k :: (name ++ 0 :: (le32 ((s.length : Int) + 1) ++ s ++ [0]))⟩⟩
      ∧ BSONElement.ofData
          (charOf k :: (name ++ 0 :: (le32 ((s.length : Int) + 1) ++ s ++ [0])) ++ rest) = .ok e
      ∧ e.type = k ∧ e.fieldName = name
      ∧ e.valueBytes = .ok (le32 ((s.length : Int) + 1) ++ s ++ [0])
      ∧ e.valuestrsize = .ok ((s.length : Int) + 1)
      ∧ cstr e.valuestr = s
      ∧ e.str = if k = BSONType.String then s else [] := by
  have hwf : c.wellFormed := by
    rcases hc with ⟨rfl, -⟩ | ⟨rfl, -⟩ | ⟨rfl, -⟩ <;> exact ⟨hn, hs⟩
  have hkind : c.kind = k := by
    rcases hc with ⟨rfl, rfl⟩ | ⟨rfl, rfl⟩ | ⟨rfl, rfl⟩ <;> rfl
  have hname : c.fieldName = name := by
    rcases hc with ⟨rfl, -⟩ | ⟨rfl, -⟩ | ⟨rfl, -⟩ <;> rfl
  have hval : c.valueBytes = le32 ((s.length : Int) + 1) ++ s ++ [0] := by
    rcases hc with ⟨rfl, -⟩ | ⟨rfl, -⟩ | ⟨rfl, -⟩ <;> rfl
  have henc : c.encode
      = charOf k :: (name ++ 0 :: (le32 ((s.length : Int) + 1) ++ s ++ [0])) := by
    simp only [AppendCall.encode, hkind, hname, hval]
  have hvl : (c.valueBytes.length : Int) = (s.length : Int) + 5 := by
    rw [hval]
    simp only [List.length_append, List.length_cons, List.length_nil, le32_length]
    push_cast
    omega
  have hel := c.encode_length
  rw [hvl, hname] at hel
  have hrun := c.run_encode hwf bb
  obtain ⟨e, he, hty, hnm, hv, -, hvbs⟩ := c.written hwf (by omega) rest
  rw [henc] at hrun he
  rw [hkind] at hty
  rw [hname] at hnm
  rw [hval] at hv hvbs
  have hv2 : e.value = le32 ((s.length : Int) + 1) ++ (s ++ 0 :: rest) := by
    rw [hv]; simp
  have hread : readInt e.value = .ok ((s.length : Int) + 1) := by
    rw [hv2]
    exact readInt_le32 _ _ (by omega) (by omega)
  have hstr : e.valuestr = s ++ 0 :: rest := by
    show e.value.drop 4 = _
    rw [hv2]
    exact List.drop_left' (le32_length _)
  have hcs : cstr e.valuestr = s := by
    rw [hstr]
    exact cstr_append s rest hs
  refine ⟨e, hrun, he, hty, hnm, hvbs, hread, hcs, ?_⟩
  by_cases hk : k = BSONType.String
  · have hk2 : (e.type == BSONType.String) = true := by rw [hty, hk]; rfl
    simp only [BSONElement.str, BSONElement.valuestrsafe, hk2, if_true, hcs, hk]
  · have hk2 : (e.type == BSONType.String) = false := by
      rw [hty]
      simpa using hk
    simp only [BSONElement.str, BSONElement.valuestrsafe, hk2, Bool.false_eq_true, if_false, hk]
    rfl

/-- C31: for every NUL-free field name and every NUL-free string `s` of `N` bytes (the element
fitting an `int`), `append(name, s)`, `appendCode(name, s)` and `appendSymbol(name, s)` write
an element of kind String, Code and Symbol whose value bytes are
`<little-endian int32 N+1><the N bytes of s><0x00>`; on the element read back (whatever bytes
`rest` follow it) `valuestrsize()` is `N + 1`, `valuestr()` is the string `s`, and
`valuestrsafe()` is `s` for the kind String and the empty string for the two others, as for
every element whose kind is not String. -/
theorem BSONElement.string_roundtrip (bb : BSONObjBuilder) (name s rest : Mem)
    (hn : (0 : Byte) ∉ name) (hs : (0 : Byte) ∉ s)
    (hfit : (name.length : Int) + (s.length : Int) + 7 < 2147483648) :
    (∃ e, bb.appendString name s = ⟨⟨bb.b.data ++ charOf BSONType.String
          :: (name ++ 0 :: (le32 ((s.length : Int) + 1) ++ s ++ [0]))⟩⟩
        ∧ BSONElement.ofData (charOf BSONType.String
            :: (name ++ 0 :: (le32 ((s.length : Int) + 1) ++ s ++ [0])) ++ rest) = .ok e
        ∧ e.type = BSONType.String ∧ e.fieldName = name
        ∧ e.valueBytes = .ok (le32 ((s.length : Int) + 1) ++ s ++ [0])
        ∧ e.valuestrsize = .ok ((s.length : Int) + 1)
        ∧ cstr e.valuestr = s ∧ cstr e.valuestrsafe = s)
      ∧ (∃ e, bb.appendCode name s = ⟨⟨bb.b.data ++ charOf BSONType.Code
          :: (name ++ 0 :: (le32 ((s.length : Int) + 1) ++ s ++ [0]))⟩⟩
        ∧ BSONElement.ofData (charOf BSONType.Code
            :: (name ++ 0 :: (le32 ((s.length : Int) + 1) ++ s ++ [0])) ++ rest) = .ok e
        ∧ e.type = BSONType.Code ∧ e.fieldName = name
        ∧ e.valueBytes = .ok (le32 ((s.length : Int) + 1) ++ s ++ [0])
        ∧ e.valuestrsize = .ok ((s.length : Int) + 1)
        ∧ cstr e.valuestr = s ∧ cstr e.valuestrsafe = [])
      ∧ (∃ e, bb.appendSymbol name s = ⟨⟨bb.b.data ++ charOf BSONType.Symbol
          :: (name ++ 0 :: (le32 ((s.length : Int) + 1) ++ s ++ [0]))⟩⟩
        ∧ BSONElement.ofData (charOf BSONType.Symbol
            :: (name ++ 0 :: (le32 ((s.length : Int) + 1) ++ s ++ [0])) ++ rest) = .ok e
        ∧ e.type = BSONType.Symbol ∧ e.fieldName = name
        ∧ e.valueBytes = .ok (le32 ((s.length : Int) + 1) ++ s ++ [0])
        ∧ e.valuestrsize = .ok ((s.length : Int) + 1)
        ∧ cstr e.valuestr = s ∧ cstr e.valuestrsafe = [])
      ∧ (∀ e : BSONElement, e.type ≠ BSONType.String → cstr e.valuestrsafe = []) := by
  refine ⟨?_, ?_, ?_, ?_⟩
  · obtain ⟨e, h1, h2, h3, h4, h5, h6, h7, h8⟩ := BSONElement.string_written
      (AppendCall.string name s) name s BSONType.String (Or.inl ⟨rfl, rfl⟩) hn hs hfit bb rest
    exact ⟨e, Except.ok.inj h1, h2, h3, h4, h5, h6, h7, by simpa [BSONElement.str] using h8⟩
  · obtain ⟨e, h1, h2, h3, h4, h5, h6, h7, h8⟩ := BSONElement.string_written
      (AppendCall.code name s) name s BSONType.Code (Or.inr (Or.inl ⟨rfl, rfl⟩)) hn hs hfit bb
      rest
    exact ⟨e, Except.ok.inj h1, h2, h3, h4, h5, h6, h7, by simpa [BSONElement.str] using h8⟩
  · obtain ⟨e, h1, h2, h3, h4, h5, h6, h7, h8⟩ := BSONElement.string_written
      (AppendCall.symbol name s) name s BSONType.Symbol (Or.inr (Or.inr ⟨rfl, rfl⟩)) hn hs hfit
      bb rest
    exact ⟨e, Except.ok.inj h1, h2, h3, h4, h5, h6, h7, by simpa [BSONElement.str] using h8⟩
  · intro e he
    have hk : (e.type == BSONType.String) = false := by simpa using he
    simp only [BSONElement.valuestrsafe, hk, Bool.false_eq_true, if_false]
    rfl

/-- Witness for C31: `append("a", "hi")` on a fresh builder. -/
theorem BSONElement.string_roundtrip_witness :
    ∃ e, BSONObjBuilder.new.appendString [97] [104, 105]
        = ⟨⟨[0, 0, 0, 0, 2, 97, 0, 3, 0, 0, 0, 104, 105, 0]⟩⟩
      ∧ BSONElement.ofData [2, 97, 0, 3, 0, 0, 0, 104, 105, 0, 0] = .ok e
      ∧ e.valuestrsize = .ok 3 ∧ cstr e.valuestr = [104, 105]
      ∧ cstr e.valuestrsafe = [104, 105] :=
  match (BSONElement.string_roundtrip BSONObjBuilder.new [97] [104, 105] [0] (by decide)
    (by decide) (by decide)).1 with
  | ⟨e, h1, h2, _, _, _, h6, h7, h8⟩ => ⟨e, h1, h2, h6, h7, h8⟩

/-! ## Hashing -/

theorem BSONObj.hashLoop_eq : ∀ (p : Mem) (n x : Nat), n ≤ p.length →
    BSONObj.hashLoop p n x = .ok ((p.take n).foldl BSONObj.hashStep x) := by
  intro p
  induction p with
  | nil =>
    intro n x h
    have h0 : n = 0 := by simpa using h
    subst h0
    rfl
  | cons b p ih =>
    intro n x h
    cases n with
    | zero => rfl
    | succ n =>
      simp only [BSONObj.hashLoop, List.take_succ_cons, List.foldl_cons]
      exact ih n _ (by simpa using h)

theorem two_pow_le_or (a i : Nat) : 2 ^ i ≤ a ||| 2 ^ i := by
  apply Nat.testBit_implies_ge
  rw [Nat.testBit_or, Nat.testBit_two_pow_self]
  simp

theorem BSONObj.hash_eq (o : BSONObj) (d : Details) (ho : o = ⟨some d⟩) (hr : o.readable) :
    o.hash = .ok ((((o.bytes.foldl BSONObj.hashStep 0) &&& 0x7fffffff) ||| 0x8000000 : Nat)
      : Int) := by
  subst ho
  obtain ⟨h0, h1⟩ := hr
  have hle : d._objsize.toNat ≤ d._objdata.length := by omega
  simp only [BSONObj.hash, BSONObj.objdata, BSONObj.objsize, BSONObj.hashLoop_eq _ _ _ hle,
    BSONObj.bytes]

/-- C32: for every non-null document whose buffer holds the `objsize()` bytes it declares,
`hash()` returns a value `h` with `0 < h <= 2^31 - 1` (indeed `2^27 <= h`, the bit
`0x8000000` being set). It is the masked accumulator of `x := x * 131 + byte` (the byte as a
signed `char`) over the `objsize()` bytes in 32-bit unsigned wrap-around arithmetic, so it
depends only on these bytes: a non-null document that is shallow-equal (`woEqual`) has the same
hash. -/
theorem BSONObj.hash_positive (o : BSONObj) (d : Details) (ho : o = ⟨some d⟩)
    (hr : o.readable) :
    ∃ h : Int, o.hash = .ok h ∧ 0 < h ∧ h ≤ 2147483647 ∧ 134217728 ≤ h
      ∧ h = ((((o.bytes.foldl BSONObj.hashStep 0) &&& 0x7fffffff) ||| 0x8000000 : Nat) : Int)
      ∧ (∀ x b, BSONObj.hashStep x b = (x * 131 + unsignedOfChar b) % 2 ^ 32)
      ∧ (∀ (o2 : BSONObj) (d2 : Details), o2 = ⟨some d2⟩ → o2.readable →
          (o2.bytes = o.bytes → o2.hash = .ok h)
            ∧ (o.woEqual o2 = .ok true → o2.hash = .ok h)) := by
  have hh := BSONObj.hash_eq o d ho hr
  generalize hy : o.bytes.foldl BSONObj.hashStep 0 = y at hh
  have hlow : 134217728 ≤ (y &&& 0x7fffffff) ||| 0x8000000 := by
    have h27 := two_pow_le_or (y &&& 0x7fffffff) 27
    norm_num at h27
    exact h27
  have hhigh : (y &&& 0x7fffffff) ||| 0x8000000 < 2 ^ 31 :=
    Nat.or_lt_two_pow (Nat.and_lt_two_pow _ (by norm_num)) (by norm_num)
  have hbytes : ∀ (o2 : BSONObj) (d2 : Details), o2 = ⟨some d2⟩ → o2.readable →
      o2.bytes = o.bytes →
      o2.hash = .ok ((((y &&& 0x7fffffff) ||| 0x8000000 : Nat)) : Int) := by
    intro o2 d2 ho2 hr2 hb
    rw [BSONObj.hash_eq o2 d2 ho2 hr2, hb, hy]
  refine ⟨_, hh, ?_, ?_, ?_, rfl, fun _ _ => rfl, ?_⟩
  · omega
  · have : (2 : Nat) ^ 31 = 2147483648 := by norm_num
    omega
  · omega
  · intro o2 d2 ho2 hr2
    refine ⟨hbytes o2 d2 ho2 hr2, fun hw => hbytes o2 d2 ho2 hr2 ?_⟩
    rw [BSONObj.woEqual_eq o o2 hr hr2] at hw
    have := of_decide_eq_true (Except.ok.inj hw)
    exact this.2.symm

/-- Witness for C32: the empty document `{}`, borrowed and owned. -/
theorem BSONObj.hash_positive_witness :
    ∃ h : Int, (BSONObj.mk (some ⟨[5, 0, 0, 0, 0], 5, -1⟩)).hash = .ok h ∧ 0 < h
      ∧ h ≤ 2147483647
      ∧ (BSONObj.mk (some ⟨[5, 0, 0, 0, 0, 9], 5, 1⟩)).hash = .ok h :=
  match BSONObj.hash_positive (BSONObj.mk (some ⟨[5, 0, 0, 0, 0], 5, -1⟩))
    ⟨[5, 0, 0, 0, 0], 5, -1⟩ rfl (by decide) with
  | ⟨h, h1, h2, h3, _, _, _, h7⟩ =>
    ⟨h, h1, h2, h3, (h7 (BSONObj.mk (some ⟨[5, 0, 0, 0, 0, 9], 5, 1⟩))
      ⟨[5, 0, 0, 0, 0, 9], 5, 1⟩ rfl (by decide)).1 (by decide)⟩

/-! ## Equality of element values is not symmetric; self-assignment -/

/-- C33, the code at the failing input: the double element `a : 1.0` written by
`append("a", 1.0)` and the date element written by `appendDate("a", 0x3FF0000000000000)` have
the same eight value bytes. With the double as receiver `valuesEqual` and `operator==` are
false (the other element is not a number), with the date as receiver they are true (the value
bytes are compared). -/
theorem BSONElement.valuesEqual_not_symmetric :
    ∃ a b, BSONObjBuilder.new.appendDouble [97] 4607182418800017408
        = ⟨⟨[0, 0, 0, 0, 1, 97, 0, 0, 0, 0, 0, 0, 0, 240, 63]⟩⟩
      ∧ BSONObjBuilder.new.appendDate [97] 4607182418800017408
        = ⟨⟨[0, 0, 0, 0, 9, 97, 0, 0, 0, 0, 0, 0, 0, 240, 63]⟩⟩
      ∧ BSONElement.ofData [1, 97, 0, 0, 0, 0, 0, 0, 0, 240, 63, 0] = .ok a
      ∧ BSONElement.ofData [9, 97, 0, 0, 0, 0, 0, 0, 0, 240, 63, 0] = .ok b
      ∧ a.valueBytes = .ok [0, 0, 0, 0, 0, 0, 240, 63]
      ∧ b.valueBytes = .ok [0, 0, 0, 0, 0, 0, 240, 63]
      ∧ a.valuesEqual b = .ok false ∧ b.valuesEqual a = .ok true
      ∧ a.equals b = .ok false ∧ b.equals a = .ok true := by
  have ha : (BSONElement.mk [1, 97, 0, 0, 0, 0, 0, 0, 0, 240, 63, 0] 2).isNumber = true := by
    decide
  have hb : (BSONElement.mk [9, 97, 0, 0, 0, 0, 0, 0, 0, 240, 63, 0] 2).isNumber = false := by
    decide
  have hna : (BSONElement.mk [1, 97, 0, 0, 0, 0, 0, 0, 0, 240, 63, 0] 2).number
      = .ok (DoubleVal.ofBits 4607182418800017408) := by
    rfl
  have hnb : (BSONElement.mk [9, 97, 0, 0, 0, 0, 0, 0, 0, 240, 63, 0] 2).number
      = .ok (.finite 0) := by
    rfl
  have hab : (BSONElement.mk [1, 97, 0, 0, 0, 0, 0, 0, 0, 240, 63, 0] 2).valuesEqual
      (BSONElement.mk [9, 97, 0, 0, 0, 0, 0, 0, 0, 240, 63, 0] 2) = .ok false := by
    simp only [BSONElement.valuesEqual, ha, if_true, hna, hnb, hb, Bool.and_false]
  have hba : (BSONElement.mk [9, 97, 0, 0, 0, 0, 0, 0, 0, 240, 63, 0] 2).valuesEqual
      (BSONElement.mk [1, 97, 0, 0, 0, 0, 0, 0, 0, 240, 63, 0] 2) = .ok true := by
    decide
  have hfn : (BSONElement.mk [1, 97, 0, 0, 0, 0, 0, 0, 0, 240, 63, 0] 2).fieldName
      = (BSONElement.mk [9, 97, 0, 0, 0, 0, 0, 0, 0, 240, 63, 0] 2).fieldName := by
    decide
  refine ⟨⟨[1, 97, 0, 0, 0, 0, 0, 0, 0, 240, 63, 0], 2⟩,
    ⟨[9, 97, 0, 0, 0, 0, 0, 0, 0, 240, 63, 0], 2⟩, by decide, by decide, by decide, by decide,
    by decide, by decide, hab, hba, ?_, ?_⟩
  · simp only [BSONElement.equals, hfn, ne_eq, not_true_eq_false, if_false, hab]
  · simp only [BSONElement.equals, hfn, ne_eq, not_true_eq_false, if_false, hba]

/-- C34, the code at the failing input: a document that is the sole owner of its buffer
(reference count 1, as `BSONObj(p, true)` makes it) is assigned to itself. The first statement
of `operator=` decrements the count to 0 and deletes the `Details`, which frees the buffer;
the following statements then read the deleted `Details` through `r.details` (a fault). With
a count of 2 the same assignment leaves everything as it was. -/
theorem Heap.self_assign_sole_owner_frees :
    (Heap.mk [] [[5, 0, 0, 0, 0]] []).init 0 true
        = .ok (Heap.mk [some ⟨0, 5, 1⟩] [[5, 0, 0, 0, 0]] [], ⟨some 0⟩)
      ∧ (Heap.mk [some ⟨0, 5, 1⟩] [[5, 0, 0, 0, 0]] []).view ⟨some 0⟩
        = .ok ⟨some ⟨[5, 0, 0, 0, 0], 5, 1⟩⟩
      ∧ (Heap.mk [some ⟨0, 5, 1⟩] [[5, 0, 0, 0, 0]] []).release ⟨some 0⟩
        = .ok (Heap.mk [none] [[5, 0, 0, 0, 0]] [0])
      ∧ (Heap.mk [none] [[5, 0, 0, 0, 0]] [0]).buffer 0 = .error .outOfBounds
      ∧ (Heap.mk [some ⟨0, 5, 1⟩] [[5, 0, 0, 0, 0]] []).assign ⟨some 0⟩ ⟨some 0⟩
        = .error .outOfBounds
      ∧ (Heap.mk [some ⟨0, 5, 2⟩] [[5, 0, 0, 0, 0]] []).assign ⟨some 0⟩ ⟨some 0⟩
        = .ok (Heap.mk [some ⟨0, 5, 2⟩] [[5, 0, 0, 0, 0]] [], ⟨some 0⟩) := by
  decide

/-! ## Renamed copies of an element -/

theorem AppendCall.rename_kind (c : AppendCall) (as : Mem) : (c.rename as).kind = c.kind := by
  cases c <;> rfl

theorem AppendCall.rename_valueBytes (c : AppendCall) (as : Mem) :
    (c.rename as).valueBytes = c.valueBytes := by
  cases c with
  | oid n o => cases o <;> rfl
  | _ => rfl

theorem AppendCall.rename_fieldName (c : AppendCall) (as : Mem) :
    (c.rename as).fieldName = as := by
  cases c <;> rfl

theorem AppendCall.rename_wellFormed (c : AppendCall) (as : Mem) (hwf : c.wellFormed)
    (has : (0 : Byte) ∉ as) : (c.rename as).wellFormed := by
  cases c <;> simp only [AppendCall.rename, AppendCall.wellFormed] at hwf ⊢ <;>
    first
    | exact has
    | exact ⟨has, hwf.2⟩

theorem readLong_append_congr (v r1 r2 : Mem) (h : 8 ≤ v.length) :
    readLong (v ++ r1) = readLong (v ++ r2) := by
  match v, h with
  | b0 :: b1 :: b2 :: b3 :: b4 :: b5 :: b6 :: b7 :: tl, _ => rfl

theorem readInt_append_congr (v r1 r2 : Mem) (h : 4 ≤ v.length) :
    readInt (v ++ r1) = readInt (v ++ r2) := by
  match v, h with
  | b0 :: b1 :: b2 :: b3 :: tl, _ => rfl

theorem DoubleVal.eq_self (d : DoubleVal) :
    (d ≠ .nan → d.eq d = true) ∧ (d = .nan → d.eq d = false) := by
  cases d with
  | finite q => exact ⟨fun _ => by simp [DoubleVal.eq], fun h => by cases h⟩
  | inf b => exact ⟨fun _ => by simp [DoubleVal.eq], fun h => by cases h⟩
  | nan => exact ⟨fun h => absurd rfl h, fun _ => rfl⟩

/-- C35 refuted as stated: the double element `a : NaN` is copied by `appendAs(e, "b")` with
the same eight value bytes, yet the copy is not `valuesEqual` to `e`: a NaN is not equal to
itself. -/
theorem BSONObjBuilder.appendAs_nan_not_valuesEqual :
    ∃ e e2, BSONElement.ofData [1, 97, 0, 0, 0, 0, 0, 0, 0, 248, 127, 0] = .ok e
      ∧ BSONObjBuilder.new.appendAs e [98]
        = .ok ⟨⟨[0, 0, 0, 0, 1, 98, 0, 0, 0, 0, 0, 0, 0, 248, 127]⟩⟩
      ∧ BSONElement.ofData [1, 98, 0, 0, 0, 0, 0, 0, 0, 248, 127, 0] = .ok e2
      ∧ e.valueBytes = .ok [0, 0, 0, 0, 0, 0, 248, 127]
      ∧ e2.valueBytes = .ok [0, 0, 0, 0, 0, 0, 248, 127]
      ∧ e2.fieldName = [98]
      ∧ e2.valuesEqual e = .ok false :=
  ⟨⟨[1, 97, 0, 0, 0, 0, 0, 0, 0, 248, 127, 0], 2⟩,
    ⟨[1, 98, 0, 0, 0, 0, 0, 0, 0, 248, 127, 0], 2⟩, by decide, by decide, by decide, by decide,
    by decide, by decide, by decide⟩

/-- C35 as amended: for every element `e` written by a well-formed append call (so `e` is not
an end marker) and every NUL-free name `as`, `appendAs(e, as)` extends the buffer of the
builder by exactly one element: kind byte of `e`, the name `as` with its terminator, the value
bytes of `e`. Read back (whatever bytes follow), it is one element of that size, of kind
`e.type()`, named `as`, with value bytes identical to those of `e`; the original name is not
copied. It is `valuesEqual` to `e` (both ways) when `e` is not numeric, and when `e` is
numeric unless the number is a NaN, which is not equal to itself. -/
theorem BSONObjBuilder.appendAs_copies (c : AppendCall) (as rest rest2 : Mem)
    (bb : BSONObjBuilder) (e : BSONElement) (hwf : c.wellFormed) (has : (0 : Byte) ∉ as)
    (hfit : (c.encode.length : Int) + (as.length : Int) < 2147483648)
    (he : BSONElement.ofData (c.encode ++ rest) = .ok e) :
    ∃ e2 v, e.valueBytes = .ok v
      ∧ bb.appendAs e as = .ok ⟨⟨bb.b.data ++ charOf e.type :: (as ++ 0 :: v)⟩⟩
      ∧ BSONElement.ofData (charOf e.type :: (as ++ 0 :: v) ++ rest2) = .ok e2
      ∧ e2.eoo = false
      ∧ e2.size = .ok ((charOf e.type :: (as ++ 0 :: v)).length : Int)
      ∧ e2.type = e.type ∧ e2.fieldName = as ∧ e2.valueBytes = .ok v
      ∧ (e.isNumber = false → e2.valuesEqual e = .ok true ∧ e.valuesEqual e2 = .ok true)
      ∧ (e.isNumber = true →
          ∃ d, e.number = .ok d ∧ e2.number = .ok d ∧ e2.valuesEqual e = .ok (d.eq d)
            ∧ e.valuesEqual e2 = .ok (d.eq d)
            ∧ (d ≠ .nan → d.eq d = true) ∧ (d = .nan → d.eq d = false)) := by
  have hel := c.encode_length
  have hel2 := (c.rename as).encode_length
  rw [c.rename_valueBytes, c.rename_fieldName] at hel2
  obtain ⟨e1, he1, hty, hnm, hv, hvs, hvb⟩ := c.written hwf (by omega) rest
  rw [he] at he1
  have hee : e = e1 := Except.ok.inj he1
  subst hee
  have hwf2 := c.rename_wellFormed as hwf has
  have henc2 : (c.rename as).encode = charOf e.type :: (as ++ 0 :: c.valueBytes) := by
    simp only [AppendCall.encode, c.rename_kind, c.rename_fieldName, c.rename_valueBytes, hty]
  obtain ⟨e2, he2, hty2, hnm2, hv2, hvs2, hvb2⟩ := (c.rename as).written hwf2 (by omega) rest2
  obtain ⟨e3, he3, heoo, hsz, -⟩ := (c.rename as).decode_encode hwf2 (by omega) rest2
  rw [he2] at he3
  have h23 : e2 = e3 := Except.ok.inj he3
  subst h23
  rw [henc2] at he2 hsz
  rw [c.rename_kind, ← hty] at hty2
  rw [c.rename_fieldName] at hnm2
  rw [c.rename_valueBytes] at hv2 hvb2
  have hnum2 : e2.isNumber = e.isNumber := by
    simp only [BSONElement.isNumber, hty2]
  have happ : bb.appendAs e as
      = .ok ⟨⟨bb.b.data ++ charOf e.type :: (as ++ 0 :: c.valueBytes)⟩⟩ := by
    have hcond : (0 : Int) ≤ (c.valueBytes.length : Int)
        ∧ (c.valueBytes.length : Int) ≤ ((c.valueBytes ++ rest).length : Int) := by
      rw [List.length_append]
      push_cast
      omega
    have htake : (c.valueBytes ++ rest).take c.valueBytes.length = c.valueBytes :=
      List.take_left' rfl
    simp only [BSONObjBuilder.appendAs, hvs, hv, BufBuilder.appendBuf, hcond, and_self, if_true,
      Int.toNat_ofNat, htake, BufBuilder.appendChar, BufBuilder.appendStr]
    simp
  refine ⟨e2, c.valueBytes, hvb, happ, he2, heoo, hsz, hty2, hnm2, hvb2, ?_, ?_⟩
  · intro hnn
    have hnn2 : e2.isNumber = false := by rw [hnum2]; exact hnn
    rw [BSONElement.valuesEqual_eq e2 e _ _ hnn2 hvb2 hvb,
      BSONElement.valuesEqual_eq e e2 _ _ hnn hvb hvb2]
    simp
  · intro hn
    have hn2 : e2.isNumber = true := by rw [hnum2]; exact hn
    have hkind : c.kind = BSONType.NumberDouble ∨ c.kind = BSONType.NumberInt := by
      rw [← hty]
      simpa [BSONElement.isNumber] using hn
    have hnumeq : ∃ d, e.number = .ok d ∧ e2.number = .ok d := by
      cases c with
      | double n m =>
        have h1 : e.type = 1 := hty
        have h2 : e2.type = 1 := by rw [hty2]; exact h1
        have hr : readLong e2.value = readLong e.value := by
          rw [hv, hv2]
          exact readLong_append_congr _ _ _ (by rw [AppendCall.valueBytes]; exact le_refl 8)
        have hrd : ∃ k, readLong e.value = .ok k := by
          rw [hv]
          exact ⟨_, rfl⟩
        obtain ⟨k, hk⟩ := hrd
        refine ⟨DoubleVal.ofBits k, ?_, ?_⟩
        · simp [BSONElement.number, h1, hk]
        · simp [BSONElement.number, h2, hr, hk]
      | int n m =>
        have h1 : e.type = 16 := hty
        have h2 : e2.type = 16 := by rw [hty2]; exact h1
        have hr : readInt e2.value = readInt e.value := by
          rw [hv, hv2]
          exact readInt_append_congr _ _ _ (by rw [AppendCall.valueBytes]; exact le_refl 4)
        have hrd : ∃ k, readInt e.value = .ok k := by
          rw [hv]
          exact ⟨_, rfl⟩
        obtain ⟨k, hk⟩ := hrd
        refine ⟨DoubleVal.ofInt k, ?_, ?_⟩
        · simp [BSONElement.number, h1, hk]
        · simp [BSONElement.number, h2, hr, hk]
      | _ => simp [AppendCall.kind] at hkind
    obtain ⟨d, hd1, hd2⟩ := hnumeq
    refine ⟨d, hd1, hd2, ?_, ?_, (DoubleVal.eq_self d).1, (DoubleVal.eq_self d).2⟩
    · simp only [BSONElement.valuesEqual, hn2, if_true, hd1, hd2, hn, Bool.and_true]
    · simp only [BSONElement.valuesEqual, hn2, if_true, hd1, hd2, hn, Bool.and_true]

/-- Witness for the amended C35: the element `a : "x"` copied under the name `b`. -/
theorem BSONObjBuilder.appendAs_copies_witness :
    ∃ (e2 : BSONElement) (v : Mem),
      (BSONElement.mk [2, 97, 0, 2, 0, 0, 0, 120, 0, 0] 2).valueBytes = .ok v
      ∧ BSONObjBuilder.new.appendAs (BSONElement.mk [2, 97, 0, 2, 0, 0, 0, 120, 0, 0] 2) [98]
        = .ok ⟨⟨BSONObjBuilder.new.b.data
            ++ charOf (BSONElement.mk [2, 97, 0, 2, 0, 0, 0, 120, 0, 0] 2).type
              :: ([98] ++ 0 :: v)⟩⟩
      ∧ e2.fieldName = [98] ∧ e2.valueBytes = .ok v
      ∧ e2.valuesEqual (BSONElement.mk [2, 97, 0, 2, 0, 0, 0, 120, 0, 0] 2) = .ok true :=
  match BSONObjBuilder.appendAs_copies (AppendCall.string [97] [120]) [98] [0] [0]
    BSONObjBuilder.new (BSONElement.mk [2, 97, 0, 2, 0, 0, 0, 120, 0, 0] 2) (by decide)
    (by decide) (by decide) (by decide) with
  | ⟨e2, v, h1, h2, _, _, _, _, h7, h8, h9, _⟩ => ⟨e2, v, h1, h2, h7, h8, (h9 (by decide)).1⟩

end mongo
